import Mathlib

/-! # WASS feature store (`src/wass_match/FeatureSet.cpp`)

A shallow embedding of `FeatureSet::detect`, `save`, `load`, `nearest`,
`build_kdtree` and `knn`, with the helpers `dist2d`, `sort_by_hessian` and
`create_areas`.

Conventions of the embedding.

* `float` and `double` values are rational numbers; NaN and infinities are outside
  the model.  The single-precision operations of `dist2d` and the store of the
  bound `2.0f * M_PI` into the `float` orientation are rounded as IEEE 754
  prescribes (`to_float`, `sqrt`); the other arithmetic is exact, and
  `points_per_area_machine` relates the exact quota to the one computed with the
  integer widths and the single precision of the source.
* `std::vector` is `List`; sizes, indices and loop counters are natural numbers,
  `int` values are integers.  Conversions between the integer types of the source
  are value preserving in the model, except in `points_per_area_machine` , which
  converts with the widths of `int` and `size_t` .
* A loop of the source is a function that is structurally recursive on a fuel
  argument and returns `none` when the fuel is exhausted, when an index is out of
  range or when an unsigned counter would be decremented below zero.
* The SURF detector and the image are external: `detect` receives the number of
  channels and the size of the image and the list of points the detector returned.
* The neighbour index is external: a built index is represented by the matrix it
  was built over and its search is a parameter of `knn`.
-/

namespace WASS

/-! ## Data model -/

/-- Interest point of the SURF detector (`Ipoint` of surflib.h): the fields read
by FeatureSet.cpp, all of type `float` .  The `float descriptor[64]` array is a
list, read with default `0` . -/
structure Ipoint where
  x : ℚ
  y : ℚ
  scale : ℚ
  orientation : ℚ
  hess : ℚ
  descriptor : List ℚ
deriving DecidableEq

instance : Inhabited Ipoint := ⟨⟨0, 0, 0, 0, 0, []⟩⟩

/-- The `cv::Rect` of integers. -/
structure Rect where
  x : ℤ
  y : ℤ
  width : ℤ
  height : ℤ
deriving DecidableEq

/-- The `struct ImageArea` : a grid cell and the points binned into it. -/
structure ImageArea where
  area : Rect
  surfs : List Ipoint
deriving DecidableEq

/-- Modelled from the spec: the class `Feature` of FeatureSet.h, which is not part
of the sources at hand.  A feature has a position, a scale, an orientation
(`angle`) and a descriptor; equality is the exact field-wise match. -/
structure Feature where
  x : ℚ
  y : ℚ
  scale : ℚ
  angle : ℚ
  descriptor : List ℚ
deriving DecidableEq

/-- The `class FeatureSetImpl` : the features, the retained cells and the cached
neighbour index (`kdtree` is `none` for the null pointer, otherwise the matrix the
index was built over). -/
structure FeatureSetImpl where
  fts : List Feature
  areas : List ImageArea
  kdt_features : List (List ℚ)
  n_dimensions : ℤ
  kdtree : Option (List (List ℚ))
deriving DecidableEq

/-- The exception type thrown by `detect`, `save` and `load`, one constructor per
throw site. -/
inductive FeatureExtractorException where
  | onlyOneChannel
  | noFeatureToSave
  | unableToOpenForWriting
  | unableToOpenForReading
deriving DecidableEq

/-- The store built by the constructor `FeatureSet::FeatureSet()` . -/
def FeatureSetImpl.fresh : FeatureSetImpl :=
  { fts := [], areas := [], kdt_features := [], n_dimensions := 0, kdtree := none }

/-! ## Machine arithmetic

The roundings of IEEE 754 on rational numbers, written so that they can be
evaluated. -/

/-- Auxiliary recursion of `log2` . -/
def log2_fuel : ℕ → ℕ → ℕ
  | 0, _ => 0
  | fuel + 1, n => if n < 2 then 0 else log2_fuel fuel (n / 2) + 1

/-- The position of the leading bit of `n` : `2 ^ log2 n <= n < 2 ^ (log2 n + 1)`
for `n` not zero. -/
def log2 (n : ℕ) : ℕ := log2_fuel n n

/-- The power `2 ^ e` for an integer exponent. -/
def pow2 (e : ℤ) : ℚ :=
  if 0 ≤ e then ((2 ^ e.toNat : ℕ) : ℚ) else 1 / ((2 ^ (-e).toNat : ℕ) : ℚ)

/-- The binary exponent of `x` : `2 ^ ilog2 x <= |x| < 2 ^ (ilog2 x + 1)` for `x`
not zero. -/
def ilog2 (x : ℚ) : ℤ :=
  if pow2 ((log2 x.num.natAbs : ℤ) - (log2 x.den : ℤ)) ≤ |x| then
    (log2 x.num.natAbs : ℤ) - (log2 x.den : ℤ)
  else (log2 x.num.natAbs : ℤ) - (log2 x.den : ℤ) - 1

/-- Rounding to the nearest integer, a tie to the even one. -/
def round_half_even (r : ℚ) : ℤ :=
  if r - (⌊r⌋ : ℚ) < 1 / 2 then ⌊r⌋
  else if 1 / 2 < r - (⌊r⌋ : ℚ) then ⌊r⌋ + 1
  else if ⌊r⌋ % 2 = 0 then ⌊r⌋ else ⌊r⌋ + 1

/-- Rounding of IEEE 754 (to nearest, a tie to the even significand) into the
binary format with `prec` significand bits whose smallest positive value is
`2 ^ qmin` : the result is the multiple of the quantum `2 ^ max (e - (prec - 1)) qmin`
nearest to `x` , where `e` is the binary exponent of `x` .  Overflow to infinity is
not modelled. -/
def round_to_format (prec : ℕ) (qmin : ℤ) (x : ℚ) : ℚ :=
  if x = 0 then 0
  else
    (round_half_even (x / pow2 (max (ilog2 x - ((prec : ℤ) - 1)) qmin)) : ℚ) *
      pow2 (max (ilog2 x - ((prec : ℤ) - 1)) qmin)

/-- The rounding of a value to `float` (IEEE 754 binary32: 24 significand bits,
smallest positive value `2 ^ (-149)` ): the result of every single-precision
operation and of every conversion to `float` . -/
def to_float (x : ℚ) : ℚ := round_to_format 24 (-149) x

/-- Auxiliary recursion of `isqrt` : the bits of the root from bit `k - 1` down. -/
def isqrt_aux (n : ℕ) : ℕ → ℕ → ℕ
  | 0, acc => acc
  | k + 1, acc =>
    if (acc + 2 ^ k) * (acc + 2 ^ k) ≤ n then isqrt_aux n k (acc + 2 ^ k)
    else isqrt_aux n k acc

/-- The integer square root: the largest `r` with `r * r <= n` . -/
def isqrt (n : ℕ) : ℕ := isqrt_aux n (log2 n / 2 + 1) 0

/-- The correctly rounded square root of IEEE 754 (to nearest, a tie to the even
significand) of `s >= 0` in the binary format with `prec` significand bits whose
smallest positive value is `2 ^ qmin` .  With `q` the quantum of the result and
`m` the integer part of the root of `s / 4 ^ q` , the root lies between `m * 2 ^ q`
and `(m + 1) * 2 ^ q` and is compared with the midpoint on the squares. -/
def sqrt_to_format (prec : ℕ) (qmin : ℤ) (s : ℚ) : ℚ :=
  if s ≤ 0 then 0
  else
    let q := max (ilog2 s / 2 - ((prec : ℤ) - 1)) qmin
    let m := isqrt ⌊s / pow2 (2 * q)⌋.toNat
    if 4 * (s / pow2 (2 * q)) < (2 * (m : ℚ) + 1) * (2 * (m : ℚ) + 1) then (m : ℚ) * pow2 q
    else if (2 * (m : ℚ) + 1) * (2 * (m : ℚ) + 1) < 4 * (s / pow2 (2 * q)) then
      ((m : ℚ) + 1) * pow2 q
    else if m % 2 = 0 then (m : ℚ) * pow2 q else ((m : ℚ) + 1) * pow2 q

/-- The call `sqrt(s)` on a `float` argument: the single-precision overload
`float sqrt(float)` that `<cmath>` and `<math.h>` declare for C++, correctly
rounded as IEEE 754 prescribes. -/
def sqrt (s : ℚ) : ℚ := sqrt_to_format 24 (-149) s

/-! ## Utilities -/

/-- The conversion `static_cast<int>` of a floating point value: truncation
toward zero. -/
def truncInt (q : ℚ) : ℤ := if 0 ≤ q then ⌊q⌋ else ⌈q⌉

/-- The function `dist2d` : the coordinates are `float` values, so the differences,
the products and the sum are single-precision operations, each rounded, and `sqrt`
is called on a `float` ; the result is returned as a `double` , which holds every
`float` value exactly. -/
def dist2d (a b : Ipoint) : ℚ :=
  sqrt (to_float (to_float (to_float (a.x - b.x) * to_float (a.x - b.x)) +
    to_float (to_float (a.y - b.y) * to_float (a.y - b.y))))

/-- The test `dist2d(a, b) < d` of the deduplication loop, `d` being the `double`
value `FEATURE_MIN_DISTANCE` . -/
def dist2d_lt (a b : Ipoint) (d : ℚ) : Bool := decide (dist2d a b < d)

/-- The comparator `sort_by_hessian` . -/
def sort_by_hessian (a b : Ipoint) : Bool := decide (a.hess > b.hess)

/-- The call `std::sort(begin, end, sort_by_hessian)` : an insertion sort that puts
`a` before `b` unless the comparator orders `b` before `a` (the order of points of
equal strength, which `std::sort` leaves open, is the one of this sort). -/
def std_sort (l : List Ipoint) : List Ipoint :=
  l.insertionSort (fun a b => sort_by_hessian b a = false)

/-- The call `v.resize(n)` : keep the first `n` entries, pad with default-constructed
ones. -/
def resize (v : List Ipoint) (n : ℕ) : List Ipoint :=
  v.take n ++ List.replicate (n - v.length) default

/-! ## `create_areas` -/

/-- The rectangle built at line 72 for the indices `ii` and `jj` . -/
def grid_rect (img_width img_height : ℤ) (num_subdivisions ii jj : ℕ) : Rect :=
  { x := truncInt ((img_width : ℚ) / (num_subdivisions : ℚ) * (ii : ℚ))
    y := truncInt ((img_height : ℚ) / (num_subdivisions : ℚ) * (jj : ℚ))
    width := truncInt ((img_width : ℚ) / (num_subdivisions : ℚ))
    height := truncInt ((img_height : ℚ) / (num_subdivisions : ℚ)) }

/-- First loop nest of `create_areas` : the `num_subdivisions * num_subdivisions`
empty cells, `ii` (the x index) outermost. -/
def new_areas (img_width img_height : ℤ) (num_subdivisions : ℕ) : List ImageArea :=
  (List.range num_subdivisions).flatMap fun ii =>
    (List.range num_subdivisions).map fun jj =>
      { area := grid_rect img_width img_height num_subdivisions ii jj, surfs := [] }

/-- The membership test of `create_areas` (lines 78-85). -/
def in_area (img_width img_height border_width : ℤ) (p : Ipoint) (a : ImageArea) : Bool :=
  decide (p.x > (border_width : ℚ)) &&
  decide (p.x < ((img_width - border_width : ℤ) : ℚ)) &&
  decide (p.y > (border_width : ℚ)) &&
  decide (p.y < ((img_height - border_width : ℤ) : ℚ)) &&
  decide (p.x > (a.area.x : ℚ)) &&
  decide (p.y > (a.area.y : ℚ)) &&
  decide (p.x < ((a.area.x + a.area.width : ℤ) : ℚ)) &&
  decide (p.y < ((a.area.y + a.area.height : ℤ) : ℚ))

/-- Second loop nest of `create_areas` : every detected point, in order, is pushed
onto every area whose test it passes. -/
def bin_points (img_width img_height border_width : ℤ) (detected_surfs : List Ipoint)
    (areas : List ImageArea) : List ImageArea :=
  detected_surfs.foldl
    (fun areas p => areas.map fun a =>
      if in_area img_width img_height border_width p a then
        { a with surfs := a.surfs ++ [p] } else a)
    areas

/-- The function `create_areas` : the new cells are appended to `areas` , then the
points are binned into all of `areas` . -/
def create_areas (img_width img_height : ℤ) (num_subdivisions : ℕ) (border_width : ℤ)
    (detected_surfs : List Ipoint) (areas : List ImageArea) : List ImageArea :=
  bin_points img_width img_height border_width detected_surfs
    (areas ++ new_areas img_width img_height num_subdivisions)

/-! ## Deduplication and quota (`detect`, lines 212-254) -/

/-- Inner loop `for (k2 = k+1; k2 <= last; ++k2)` of the deduplication, from the
state `(k2, last, surfs)` : a point closer than `min_distance` to `surfs[k]` is
overwritten by `surfs[last]` , `last` shrinks and the same position is examined
again (`--k2` followed by the `++k2` of the loop). -/
def dedup_inner (min_distance : ℚ) (k : ℕ) :
    ℕ → ℕ → ℕ → List Ipoint → Option (ℕ × List Ipoint)
  | 0, _, _, _ => none
  | fuel + 1, k2, last, surfs =>
    if k2 ≤ last then
      match surfs[k]?, surfs[k2]? with
      | some currfeat, some other =>
        if dist2d_lt currfeat other min_distance then
          match surfs[last]? with
          | some lastfeat =>
            if last = 0 ∨ k2 = 0 then none
            else dedup_inner min_distance k fuel k2 (last - 1) (surfs.set k2 lastfeat)
          | none => none
        else dedup_inner min_distance k fuel (k2 + 1) last surfs
      | _, _ => none
    else some (last, surfs)

/-- Outer loop `for (k = 0; k <= last; ++k)` of the deduplication, from the state
`(k, last, surfs)` . -/
def dedup_outer (min_distance : ℚ) : ℕ → ℕ → ℕ → List Ipoint → Option (ℕ × List Ipoint)
  | 0, _, _, _ => none
  | fuel + 1, k, last, surfs =>
    if k ≤ last then
      match dedup_inner min_distance k (surfs.length + 1) (k + 1) last surfs with
      | some (last1, surfs1) => dedup_outer min_distance fuel (k + 1) last1 surfs1
      | none => none
    else some (last, surfs)

/-- Lines 234-249: `last = surfs.size()-1` , the two loops, `resize(last+1)` . -/
def dedup (min_distance : ℚ) (surfs : List Ipoint) : Option (List Ipoint) :=
  if surfs.length = 0 then none
  else
    match dedup_outer min_distance (surfs.length + 1) 0 (surfs.length - 1) surfs with
    | some (last, surfs1) => some (resize surfs1 (last + 1))
    | none => none

/-- Body of the loop over the areas (lines 225-253): an area with fewer than two
points is skipped, otherwise it is sorted, deduplicated and cut to
`points_per_area` . -/
def process_area (min_distance : ℚ) (points_per_area : ℤ) (a : ImageArea) :
    Option ImageArea :=
  if a.surfs.length < 2 then some a
  else
    match dedup min_distance (std_sort a.surfs) with
    | some surfs =>
      some { a with
        surfs := if (surfs.length : ℤ) > points_per_area then
            resize surfs points_per_area.toNat else surfs }
    | none => none

/-- The loop over the areas (lines 224-254). -/
def process_areas (min_distance : ℚ) (points_per_area : ℤ) :
    List ImageArea → Option (List ImageArea)
  | [] => some []
  | a :: rest =>
    match process_area min_distance points_per_area a,
      process_areas min_distance points_per_area rest with
    | some a1, some rest1 => some (a1 :: rest1)
    | _, _ => none

/-- Line 212: `static_cast<int>( max_features / areas.size() )` , the value of the
quotient (the conversion keeps every quotient below `2 ^ 31` ; see
`points_per_area_machine` for the conversion itself). -/
def base_quota (max_features : ℕ) (areas : List ImageArea) : ℤ :=
  ((max_features / areas.length : ℕ) : ℤ)

/-- Lines 213-218: the deficits of the areas holding fewer than `points_per_area`
points (the sizes are those left by `create_areas` ). -/
def num_extra_pts_available (points_per_area : ℤ) (areas : List ImageArea) : ℤ :=
  areas.foldl
    (fun acc a =>
      if (a.surfs.length : ℤ) < points_per_area then
        acc + (points_per_area - (a.surfs.length : ℤ)) else acc)
    0

/-- Line 219: `(int)( (float)points_per_area + (float)num_extra/(float)areas.size() )`
in exact arithmetic (see `points_per_area_machine` for the single-precision
operations). -/
def final_quota (max_features : ℕ) (areas : List ImageArea) : ℤ :=
  truncInt (((base_quota max_features areas : ℤ) : ℚ) +
    ((num_extra_pts_available (base_quota max_features areas) areas : ℤ) : ℚ) /
      ((areas.length : ℕ) : ℚ))

/-- The conversion of an integer value to `int` : 32 bits, two's complement. -/
def to_int (n : ℤ) : ℤ := (n + 2147483648) % 4294967296 - 2147483648

/-- The conversion of an integer value to `size_t` : 64 bits, unsigned. -/
def to_size_t (n : ℤ) : ℤ := n % 18446744073709551616

/-- An `int` result of a signed addition or of a conversion from `float` : `none`
when the value is not an `int` value, where the behaviour of the source is
undefined. -/
def int_result (n : ℤ) : Option ℤ :=
  if -2147483648 ≤ n ∧ n ≤ 2147483647 then some n else none

/-- Lines 213-218 with the integer types of the source: `points_per_area` is an
`int` and the sizes are `size_t` values, so the comparison and the difference are
taken in `size_t` ; the difference is converted to `int` and added to the `int`
accumulator. -/
def num_extra_pts_machine (points_per_area : ℤ) (areas : List ImageArea) : Option ℤ :=
  areas.foldl
    (fun acc a =>
      match acc with
      | none => none
      | some e =>
        if (a.surfs.length : ℤ) < to_size_t points_per_area then
          int_result
            (e + to_int (to_size_t (to_size_t points_per_area - (a.surfs.length : ℤ))))
        else some e)
    (some 0)

/-- Lines 212-219 with the integer types and the single precision of the source:
the quotient of the `size_t` values is converted to `int` , and line 219 converts
the two `int` values and the `size_t` value to `float` , divides and adds in
single precision and converts the sum to `int` . -/
def points_per_area_machine (max_features : ℕ) (areas : List ImageArea) : Option ℤ :=
  if areas.length = 0 then none
  else
    match num_extra_pts_machine (to_int ((max_features / areas.length : ℕ) : ℤ)) areas with
    | none => none
    | some extra =>
      int_result (truncInt (to_float
        (to_float ((to_int ((max_features / areas.length : ℕ) : ℤ) : ℤ) : ℚ) +
          to_float (to_float ((extra : ℤ) : ℚ) / to_float ((areas.length : ℕ) : ℚ)))))

/-! ## Emission (`detect`, lines 256-293) -/

/-- The constant `M_PI` : the double nearest to pi, `0x400921FB54442D18` . -/
def M_PI : ℚ := 884279719003555 / 281474976710656

/-- Lines 264-275: the feature built from a point and its 64 descriptor values
copied.  The orientation is a `float` : it is compared with the `double` value
`2.0f * M_PI` , and the assignment `newf.angle = 2.0f * M_PI` stores that value
rounded to `float` . -/
def to_feature (f : Ipoint) : Feature :=
  let angle0 := f.orientation
  let angle1 := if angle0 < 0 then 0 else angle0
  let angle2 := if angle1 > 2 * M_PI then to_float (2 * M_PI) else angle1
  { x := f.x, y := f.y, scale := f.scale, angle := angle2
    descriptor := (List.range 64).map fun k => f.descriptor.getD k 0 }

/-- The variables of the emission loop. -/
structure EmitState where
  surf_index : ℕ
  area_index : ℕ
  num_skip : ℕ
  fts : List Feature
deriving DecidableEq

/-- The loop `while( more_to_add )` of lines 260-293; the result is the feature
list when the loop is left. -/
def emit_loop (areas : List ImageArea) : ℕ → EmitState → Option (List Feature)
  | 0, _ => none
  | fuel + 1, st =>
    match areas[st.area_index]? with
    | none => none
    | some a =>
      let pushed : Option (List Feature × ℕ) :=
        if a.surfs.length > st.surf_index then
          match a.surfs[st.surf_index]? with
          | some f => some (st.fts ++ [to_feature f], st.num_skip)
          | none => none
        else some (st.fts, st.num_skip + 1)
      match pushed with
      | none => none
      | some (fts, num_skip) =>
        let more_to_add := !(num_skip == areas.length)
        let area_index := st.area_index + 1
        let st1 : EmitState :=
          if area_index = areas.length then
            { surf_index := st.surf_index + 1, area_index := 0, num_skip := 0, fts := fts }
          else
            { surf_index := st.surf_index, area_index := area_index, num_skip := num_skip
              fts := fts }
        if more_to_add then emit_loop areas fuel st1 else some st1.fts

/-- The largest number of points held by an area. -/
def max_len (areas : List ImageArea) : ℕ :=
  (areas.map fun a => a.surfs.length).foldr max 0

/-- The number of iterations granted to the emission loop: one pass over the areas
for every layer and one more. -/
def emit_fuel (areas : List ImageArea) : ℕ := (max_len areas + 1) * areas.length

/-! ## `FeatureSet` operations -/

/-- The method `clear_kdtree` . -/
def clear_kdtree (s : FeatureSetImpl) : FeatureSetImpl :=
  { s with kdt_features := [], n_dimensions := -1, kdtree := none }

/-- The method `clear` . -/
def clear (s : FeatureSetImpl) : FeatureSetImpl :=
  { clear_kdtree s with fts := [] }

/-- The method `detect` .  `min_distance` is the configuration value
`FEATURE_MIN_DISTANCE` , `channels` , `cols` and `rows` describe the image and
`ipts` is what `surfDetDes` returned for it.  The result is the store left by
the call and the exception it raised, if any. -/
def detect (min_distance : ℚ) (s : FeatureSetImpl) (channels : ℕ) (cols rows : ℤ)
    (ipts : List Ipoint) (max_features : ℕ) :
    Option (FeatureSetImpl × Option FeatureExtractorException) :=
  let s0 := clear s
  if channels ≠ 1 then some (s0, some FeatureExtractorException.onlyOneChannel)
  else if ipts.length > 0 then
    let areas := create_areas cols rows 4 (max (truncInt ((cols : ℚ) / 30)) 2) ipts s0.areas
    let points_per_area := final_quota max_features areas
    match process_areas min_distance points_per_area areas with
    | none => none
    | some areas1 =>
      match emit_loop areas1 (emit_fuel areas1) ⟨0, 0, 0, []⟩ with
      | none => none
      | some fts => some (clear_kdtree { s0 with areas := areas1, fts := fts }, none)
  else some (clear_kdtree s0, none)

/-! ## `nearest` -/

/-- Modelled from the spec: the radicand of `Feature::spatial_distance` of
FeatureSet.h, the 2D Euclidean distance between the positions of two features. -/
def Feature.spatial_distance_sq (a b : Feature) : ℚ :=
  (a.x - b.x) * (a.x - b.x) + (a.y - b.y) * (a.y - b.y)

/-- The loop of `nearest` (lines 449-460) over the features from index `i` on.  The
state is `idx` and the radicand of `curr_min` : the test `distance < curr_min`
compares two roots of non-negative numbers and is taken on the radicands.
`Feature::operator==` is the field-wise equality of the spec. -/
def nearest_loop (fs : Feature) : List Feature → ℕ → ℤ × ℚ → ℤ × ℚ
  | [], _, st => st
  | g :: rest, i, (idx, curr_min_sq) =>
    if g = fs then nearest_loop fs rest (i + 1) (idx, curr_min_sq)
    else if fs.spatial_distance_sq g < curr_min_sq then
      nearest_loop fs rest (i + 1) ((i : ℤ), fs.spatial_distance_sq g)
    else nearest_loop fs rest (i + 1) (idx, curr_min_sq)

/-- The square of the initial value `1E20` of `curr_min` . -/
def CURR_MIN_INIT_SQ : ℚ := 10 ^ 40

/-- The method `nearest( const Feature& fs )` . -/
def nearest (s : FeatureSetImpl) (fs : Feature) : ℤ :=
  (nearest_loop fs s.fts 0 (-1, CURR_MIN_INIT_SQ)).1

/-- The method `nearest( const int fs_idx )` ; `none` when `fts.at` throws. -/
def nearest_at (s : FeatureSetImpl) (fs_idx : ℤ) : Option ℤ :=
  if fs_idx < 0 then none else (s.fts[fs_idx.toNat]?).map (nearest s)

/-! ## `save` and `load` -/

/-- A 4-byte unit of a feature file: an unsigned header word or a `float` .  The
byte encoding of a unit is not modelled. -/
inductive Word where
  | u32 (n : ℕ)
  | f32 (v : ℚ)
deriving DecidableEq

/-- Modelled from the spec: `Feature::size_bytes` of FeatureSet.h, counted in
4-byte units: a record is 4 floats followed by the descriptor values. -/
def Feature.size_words (descriptor_size : ℕ) : ℕ := 4 + descriptor_size

/-- Modelled from the spec: `Feature::copyBinary` of FeatureSet.h: the record
`x, y, scale, orientation` followed by the descriptor values, without padding. -/
def Feature.copyBinary (f : Feature) : List ℚ :=
  [f.x, f.y, f.scale, f.angle] ++ f.descriptor

/-- Modelled from the spec: the constructor `Feature(const float*, size_t)` of
FeatureSet.h, which reads one record; `none` when the data ends early. -/
def Feature.ofBinary (data : List ℚ) (descriptor_size : ℕ) : Option Feature :=
  match data with
  | x :: y :: scale :: angle :: rest =>
    if descriptor_size ≤ rest.length then
      some { x := x, y := y, scale := scale, angle := angle
             descriptor := rest.take descriptor_size }
    else none
  | _ => none

/-- Copy `data` into the buffer at offset `off` ; `none` when the copy leaves the
buffer.  A cell of the buffer is `none` until it is written. -/
def write_at (buff : List (Option ℚ)) (off : ℕ) (data : List ℚ) : Option (List (Option ℚ)) :=
  if off + data.length ≤ buff.length then
    some (buff.take off ++ data.map some ++ buff.drop (off + data.length))
  else none

/-- The loop of `save` (lines 329-332) from index `i` on: feature `i` is copied to
offset `i * feature_size` . -/
def save_loop (feature_size : ℕ) : List Feature → ℕ → List (Option ℚ) →
    Option (List (Option ℚ))
  | [], _, buff => some buff
  | f :: rest, i, buff =>
    match write_at buff (i * feature_size) f.copyBinary with
    | some buff1 => save_loop feature_size rest (i + 1) buff1
    | none => none

/-- The buffer as written to the file; `none` when a cell was never written. -/
def buffer_words : List (Option ℚ) → Option (List Word)
  | [] => some []
  | some v :: rest => (buffer_words rest).map fun ws => Word.f32 v :: ws
  | none :: _ => none

/-- The method `save` .  `writable` tells whether the file can be opened.  The
result is the exception raised or the content written; it is `none` when the
source copies outside the buffer or writes cells it never set. -/
def save (s : FeatureSetImpl) (writable : Bool) :
    Option (Except FeatureExtractorException (List Word)) :=
  if s.fts.length < 1 then some (Except.error FeatureExtractorException.noFeatureToSave)
  else if writable = false then
    some (Except.error FeatureExtractorException.unableToOpenForWriting)
  else
    match s.fts[0]? with
    | none => none
    | some f0 =>
      let feature_size := Feature.size_words f0.descriptor.length
      let n_features := s.fts.length
      let desc_size := f0.descriptor.length
      match save_loop feature_size (s.fts.take n_features) 0
          (List.replicate (n_features * feature_size) none) with
      | none => none
      | some buff =>
        match buffer_words buff with
        | none => none
        | some ws => some (Except.ok (Word.u32 n_features :: Word.u32 desc_size :: ws))

/-- The values of the first `n` words when they are all floats. -/
def read_floats : ℕ → List Word → Option (List ℚ)
  | 0, _ => some []
  | n + 1, Word.f32 v :: rest => (read_floats n rest).map fun vs => v :: vs
  | _ + 1, _ => none

/-- The loop of `load` (lines 366-369): `n` records of `feature_size` floats are
read from the buffer at offsets `i * feature_size` , from `i` on. -/
def load_loop (buff : List ℚ) (feature_size desc_size : ℕ) : ℕ → ℕ → Option (List Feature)
  | 0, _ => some []
  | n + 1, i =>
    match Feature.ofBinary (buff.drop (i * feature_size)) desc_size,
      load_loop buff feature_size desc_size n (i + 1) with
    | some f, some rest => some (f :: rest)
    | _, _ => none

/-- The method `load` : `file` is the content of the file, `none` when it cannot
be opened.  The result is the store left by the call and the exception raised, if
any; it is `none` when the source reads data the file does not hold. -/
def load (s : FeatureSetImpl) (file : Option (List Word)) :
    Option (FeatureSetImpl × Option FeatureExtractorException) :=
  let s0 := clear s
  match file with
  | none => some (s0, some FeatureExtractorException.unableToOpenForReading)
  | some (Word.u32 n_features :: Word.u32 desc_size :: rest) =>
    let feature_size := Feature.size_words desc_size
    match read_floats (n_features * feature_size) rest with
    | none => none
    | some buff =>
      match load_loop buff feature_size desc_size n_features 0 with
      | none => none
      | some fts => some ({ s0 with fts := s0.fts ++ fts }, none)
  | some _ => none

/-! ## Specification-side definitions -/

/-- The square of the 2D Euclidean distance of two points, without rounding. -/
def dist2d_sq (a b : Ipoint) : ℚ :=
  (a.x - b.x) * (a.x - b.x) + (a.y - b.y) * (a.y - b.y)

/-- Layer `k` of the emission: the `k`-th point of every area that holds more than
`k` points, in the order of the areas, as a feature. -/
def layer (areas : List ImageArea) (k : ℕ) : List Feature :=
  areas.filterMap fun a => (a.surfs[k]?).map to_feature

/-- The round-robin sequence of the spec: the layers `0, 1, 2, ...` one after the
other, up to the first layer in which no area has a point left. -/
def round_robin (areas : List ImageArea) : List Feature :=
  (List.range (max_len areas)).flatMap (layer areas)

/-- The position `(x, y)` lies strictly inside the cell of the 4x4 grid with x
index `col` and y index `row` . -/
def in_grid_cell (img_width img_height : ℤ) (col row : ℕ) (x y : ℚ) : Bool :=
  decide (x > ((grid_rect img_width img_height 4 col row).x : ℚ)) &&
  decide (y > ((grid_rect img_width img_height 4 col row).y : ℚ)) &&
  decide (x < (((grid_rect img_width img_height 4 col row).x +
    (grid_rect img_width img_height 4 col row).width : ℤ) : ℚ)) &&
  decide (y < (((grid_rect img_width img_height 4 col row).y +
    (grid_rect img_width img_height 4 col row).height : ℤ) : ℚ))

/-- What `process_area` leaves of an area `a` : the rectangle is kept, no point is
added, an area of fewer than two points is untouched, a larger one is cut to the
quota, starts with the first entry of its sorted list when the quota allows one
point, and holds points pairwise not closer than `d` . -/
def Processed (d : ℚ) (q : ℤ) (a a1 : ImageArea) : Prop :=
  a1.area = a.area ∧ a1.surfs.length ≤ a.surfs.length ∧
  (a.surfs.length < 2 → a1 = a) ∧
  (2 ≤ a.surfs.length → (a1.surfs.length : ℤ) ≤ max q 0) ∧
  (2 ≤ a.surfs.length → 1 ≤ q → a1.surfs[0]? = (std_sort a.surfs)[0]? ∧ 1 ≤ a1.surfs.length) ∧
  (∀ p, p ∈ a1.surfs → p ∈ a.surfs) ∧
  (2 ≤ a.surfs.length → ∀ (i j : ℕ) (x y : Ipoint), i < j → a1.surfs[i]? = some x →
    a1.surfs[j]? = some y → dist2d_lt x y d = false)

/-- A detector output used as sample input: one point in the middle of each cell of
the 4x4 grid of a 400x400 image, listed row by row, of decreasing strength. -/
def sample_points : List Ipoint :=
  [⟨50, 50, 1, 0, 16, []⟩, ⟨150, 50, 1, 0, 15, []⟩, ⟨250, 50, 1, 0, 14, []⟩,
   ⟨350, 50, 1, 0, 13, []⟩, ⟨50, 150, 1, 0, 12, []⟩, ⟨150, 150, 1, 0, 11, []⟩,
   ⟨250, 150, 1, 0, 10, []⟩, ⟨350, 150, 1, 0, 9, []⟩, ⟨50, 250, 1, 0, 8, []⟩,
   ⟨150, 250, 1, 0, 7, []⟩, ⟨250, 250, 1, 0, 6, []⟩, ⟨350, 250, 1, 0, 5, []⟩,
   ⟨50, 350, 1, 0, 4, []⟩, ⟨150, 350, 1, 0, 3, []⟩, ⟨250, 350, 1, 0, 2, []⟩,
   ⟨350, 350, 1, 0, 1, []⟩]

/-! ## The neighbour index (`build_kdtree`, `knn`) -/

/-- All values of a list of optional values, `none` when one is missing. -/
def all_some {α : Type} : List (Option α) → Option (List α)
  | [] => some []
  | some v :: rest => (all_some rest).map fun vs => v :: vs
  | none :: _ => none

/-- The method `build_kdtree` : `n_dimensions` is the descriptor size of the first
feature, row `i` of the matrix holds `fts[i].descriptor[j]` for `j < n_dimensions`
and the index is built over the matrix.  The result is `none` when `fts[0]` or a
`descriptor[j]` does not exist. -/
def build_kdtree (s : FeatureSetImpl) : Option FeatureSetImpl :=
  match s.fts[0]? with
  | none => none
  | some f0 =>
    let n_dimensions := f0.descriptor.length
    match all_some (s.fts.map fun f =>
        all_some ((List.range n_dimensions).map fun j => f.descriptor[j]?)) with
    | none => none
    | some m =>
      some { s with n_dimensions := (n_dimensions : ℤ), kdt_features := m, kdtree := some m }

/-- The method `knn` .  The search of the external index is the parameter
`knnSearch` , applied to the matrix the index was built over, the query descriptor
and `K` .  The result is the store left by the call and the indices returned. -/
def knn (knnSearch : List (List ℚ) → List ℚ → ℕ → List ℤ) (s : FeatureSetImpl)
    (fs : Feature) (K : ℕ) : Option (FeatureSetImpl × List ℤ) :=
  if s.fts.length = 0 then some (s, [])
  else
    match (if s.kdtree = none then build_kdtree s else some s) with
    | none => none
    | some s1 =>
      match s1.kdtree with
      | some m => some (s1, knnSearch m fs.descriptor K)
      | none => none

/-- The stores reachable from a fresh one by calls of `detect` , `clear` , `load`
and `knn` , whatever their arguments and outcome. -/
inductive Reachable (knnSearch : List (List ℚ) → List ℚ → ℕ → List ℤ) :
    FeatureSetImpl → Prop where
  | init : Reachable knnSearch FeatureSetImpl.fresh
  | by_detect (s : FeatureSetImpl) (d : ℚ) (channels : ℕ) (cols rows : ℤ)
      (ipts : List Ipoint) (max_features : ℕ)
      (r : FeatureSetImpl × Option FeatureExtractorException) :
      Reachable knnSearch s → detect d s channels cols rows ipts max_features = some r →
      Reachable knnSearch r.1
  | by_clear (s : FeatureSetImpl) : Reachable knnSearch s → Reachable knnSearch (clear s)
  | by_load (s : FeatureSetImpl) (file : Option (List Word))
      (r : FeatureSetImpl × Option FeatureExtractorException) :
      Reachable knnSearch s → load s file = some r → Reachable knnSearch r.1
  | by_knn (s : FeatureSetImpl) (fs : Feature) (K : ℕ) (r : FeatureSetImpl × List ℤ) :
      Reachable knnSearch s → knn knnSearch s fs K = some r → Reachable knnSearch r.1

/-! ## Further specification-side definitions -/

/-- The number of points the deduplication leaves in an area (an area of fewer
than two points is not deduplicated). -/
def surviving_count (d : ℚ) (a : ImageArea) : ℕ :=
  if a.surfs.length < 2 then a.surfs.length
  else
    match dedup d (std_sort a.surfs) with
    | some r => r.length
    | none => 0

/-- The quota as the spec words it: `q + floor(extra / C)` with `q = floor(max_features / C)`
and `extra` the sum of `q - count` over the cells whose surviving-point count is
below `q` . -/
def quota_from_survivors (d : ℚ) (max_features : ℕ) (areas : List ImageArea) : ℤ :=
  ((max_features / areas.length : ℕ) : ℤ) +
    (areas.map fun a =>
      if (surviving_count d a : ℤ) < ((max_features / areas.length : ℕ) : ℤ) then
        ((max_features / areas.length : ℕ) : ℤ) - (surviving_count d a : ℤ) else 0).sum /
      (areas.length : ℤ)

/-- The greedy filter of the spec, from the points kept so far: a point is kept
if and only if it is at distance at least `d` from every point kept before it. -/
def greedy_keep (d : ℚ) : List Ipoint → List Ipoint → List Ipoint
  | kept, [] => kept
  | kept, p :: rest =>
    if kept.all (fun q => !dist2d_lt q p d) then greedy_keep d (kept ++ [p]) rest
    else greedy_keep d kept rest

/-- The greedy first-by-strength filter of the spec: the points are scanned in
strength-descending order. -/
def greedy_filter (d : ℚ) (surfs : List Ipoint) : List Ipoint :=
  greedy_keep d [] (std_sort surfs)

/-- A detector output used as sample input: 17 points of strengths 17, ..., 1 in
the first cell of a 400x400 image, a quarter of a pixel apart from each other. -/
def cluster_points : List Ipoint :=
  (List.range 17).map fun i => ⟨20 + (i : ℚ) / 4, 20, 1, 0, 17 - (i : ℚ), []⟩

/-! # Theorems -/

/-! ## Machine arithmetic -/

theorem log2_fuel_spec (fuel : ℕ) : ∀ n : ℕ, n ≤ fuel → n ≠ 0 →
    2 ^ log2_fuel fuel n ≤ n ∧ n < 2 ^ (log2_fuel fuel n + 1) := by
  induction fuel with
  | zero =>
    intro n h1 h2
    omega
  | succ fuel ih =>
    intro n h1 h2
    by_cases h : n < 2
    · have hn : n = 1 := by omega
      subst hn
      simp [log2_fuel]
    · have hrec := ih (n / 2) (by omega) (by omega)
      simp only [log2_fuel, h, if_false]
      obtain ⟨a, b⟩ := hrec
      constructor
      · rw [pow_succ]
        omega
      · rw [pow_succ]
        omega

theorem log2_spec (n : ℕ) (h : n ≠ 0) : 2 ^ log2 n ≤ n ∧ n < 2 ^ (log2 n + 1) :=
  log2_fuel_spec n n le_rfl h

theorem pow2_eq (e : ℤ) : pow2 e = (2 : ℚ) ^ e := by
  by_cases h : 0 ≤ e
  · obtain ⟨n, rfl⟩ := Int.eq_ofNat_of_zero_le h
    simp [pow2]
  · have h1 : 0 ≤ -e := by omega
    obtain ⟨n, hn⟩ := Int.eq_ofNat_of_zero_le h1
    have he : e = -(n : ℤ) := by omega
    subst he
    simp [pow2, h]

theorem pow2_pos (e : ℤ) : 0 < pow2 e := by
  rw [pow2_eq]
  positivity

theorem pow2_add (a b : ℤ) : pow2 (a + b) = pow2 a * pow2 b := by
  rw [pow2_eq, pow2_eq, pow2_eq, zpow_add₀ (by norm_num)]

theorem pow2_le_pow2 {a b : ℤ} (h : a ≤ b) : pow2 a ≤ pow2 b := by
  rw [pow2_eq, pow2_eq]
  exact zpow_le_zpow_right₀ (by norm_num) h

theorem pow2_lt_pow2 {a b : ℤ} (h : a < b) : pow2 a < pow2 b := by
  rw [pow2_eq, pow2_eq]
  exact zpow_lt_zpow_right₀ (by norm_num) h

theorem pow2_lt_pow2_iff {a b : ℤ} : pow2 a < pow2 b ↔ a < b := by
  constructor
  · intro h
    by_contra hn
    exact absurd (pow2_le_pow2 (not_lt.1 hn)) (not_le.2 h)
  · exact pow2_lt_pow2

theorem pow2_natCast (n : ℕ) : pow2 (n : ℤ) = ((2 ^ n : ℕ) : ℚ) := by
  simp [pow2]

theorem pow2_zero : pow2 0 = 1 := by
  simp [pow2]

theorem pow2_succ (e : ℤ) : pow2 (e + 1) = 2 * pow2 e := by
  have h1 : pow2 1 = 2 := by simp [pow2]
  rw [pow2_add, h1, mul_comm]

theorem pow2_sub_one (e : ℤ) : pow2 (e - 1) = pow2 e / 2 := by
  have := pow2_succ (e - 1)
  rw [sub_add_cancel] at this
  rw [this]
  ring
theorem abs_eq_natAbs_div_den (x : ℚ) : |x| = (x.num.natAbs : ℚ) / (x.den : ℚ) := by
  have h := Rat.num_div_den x
  have hd : (0 : ℚ) < (x.den : ℚ) := by exact_mod_cast x.den_pos
  nth_rewrite 1 [← h]
  rw [abs_div, abs_of_pos hd]
  congr 1
  rw [Nat.cast_natAbs, Int.cast_abs]

theorem ilog2_spec (x : ℚ) (h : x ≠ 0) : pow2 (ilog2 x) ≤ |x| ∧ |x| < pow2 (ilog2 x + 1) := by
  have hn : x.num.natAbs ≠ 0 := by
    simpa using h
  have hd : x.den ≠ 0 := x.den_nz
  obtain ⟨n1, n2⟩ := log2_spec _ hn
  obtain ⟨d1, d2⟩ := log2_spec _ hd
  have hdq : (0 : ℚ) < (x.den : ℚ) := by exact_mod_cast x.den_pos
  have habs := abs_eq_natAbs_div_den x
  have n1q : pow2 (log2 x.num.natAbs : ℤ) ≤ (x.num.natAbs : ℚ) := by
    rw [pow2_natCast]
    exact_mod_cast n1
  have n2q : (x.num.natAbs : ℚ) < pow2 ((log2 x.num.natAbs : ℤ) + 1) := by
    have : ((log2 x.num.natAbs : ℤ) + 1) = ((log2 x.num.natAbs + 1 : ℕ) : ℤ) := by simp
    rw [this, pow2_natCast]
    exact_mod_cast n2
  have d1q : pow2 (log2 x.den : ℤ) ≤ (x.den : ℚ) := by
    rw [pow2_natCast]
    exact_mod_cast d1
  have d2q : (x.den : ℚ) < pow2 ((log2 x.den : ℤ) + 1) := by
    have : ((log2 x.den : ℤ) + 1) = ((log2 x.den + 1 : ℕ) : ℤ) := by simp
    rw [this, pow2_natCast]
    exact_mod_cast d2
  have hup : |x| < pow2 ((log2 x.num.natAbs : ℤ) - (log2 x.den : ℤ) + 1) := by
    rw [habs, div_lt_iff₀ hdq]
    have e : pow2 ((log2 x.num.natAbs : ℤ) - (log2 x.den : ℤ) + 1) * pow2 (log2 x.den : ℤ) =
        pow2 ((log2 x.num.natAbs : ℤ) + 1) := by
      rw [← pow2_add]
      congr 1
      ring
    have hp := pow2_pos ((log2 x.num.natAbs : ℤ) - (log2 x.den : ℤ) + 1)
    calc (x.num.natAbs : ℚ) < pow2 ((log2 x.num.natAbs : ℤ) + 1) := n2q
      _ = pow2 ((log2 x.num.natAbs : ℤ) - (log2 x.den : ℤ) + 1) * pow2 (log2 x.den : ℤ) := e.symm
      _ ≤ pow2 ((log2 x.num.natAbs : ℤ) - (log2 x.den : ℤ) + 1) * (x.den : ℚ) :=
        mul_le_mul_of_nonneg_left d1q (le_of_lt hp)
  have hlo : pow2 ((log2 x.num.natAbs : ℤ) - (log2 x.den : ℤ) - 1) ≤ |x| := by
    rw [habs, le_div_iff₀ hdq]
    have e : pow2 ((log2 x.num.natAbs : ℤ) - (log2 x.den : ℤ) - 1) *
        pow2 ((log2 x.den : ℤ) + 1) = pow2 (log2 x.num.natAbs : ℤ) := by
      rw [← pow2_add]
      congr 1
      ring
    have hp := pow2_pos ((log2 x.num.natAbs : ℤ) - (log2 x.den : ℤ) - 1)
    calc pow2 ((log2 x.num.natAbs : ℤ) - (log2 x.den : ℤ) - 1) * (x.den : ℚ)
        ≤ pow2 ((log2 x.num.natAbs : ℤ) - (log2 x.den : ℤ) - 1) *
          pow2 ((log2 x.den : ℤ) + 1) := mul_le_mul_of_nonneg_left (le_of_lt d2q) (le_of_lt hp)
      _ = pow2 (log2 x.num.natAbs : ℤ) := e
      _ ≤ (x.num.natAbs : ℚ) := n1q
  by_cases hc : pow2 ((log2 x.num.natAbs : ℤ) - (log2 x.den : ℤ)) ≤ |x|
  · unfold ilog2
    rw [if_pos hc]
    exact ⟨hc, hup⟩
  · unfold ilog2
    rw [if_neg hc]
    refine ⟨hlo, ?_⟩
    rw [sub_add_cancel]
    exact not_le.1 hc

theorem ilog2_unique (x : ℚ) (e : ℤ) (h1 : pow2 e ≤ |x|) (h2 : |x| < pow2 (e + 1)) :
    ilog2 x = e := by
  have hx : x ≠ 0 := by
    intro h0
    rw [h0, abs_zero] at h1
    exact absurd h1 (not_le.2 (pow2_pos e))
  obtain ⟨s1, s2⟩ := ilog2_spec x hx
  have a1 : e < ilog2 x + 1 := pow2_lt_pow2_iff.1 (lt_of_le_of_lt h1 s2)
  have a2 : ilog2 x < e + 1 := pow2_lt_pow2_iff.1 (lt_of_le_of_lt s1 h2)
  omega

theorem le_ilog2 (x : ℚ) (e : ℤ) (h1 : pow2 e ≤ |x|) : e ≤ ilog2 x := by
  have hx : x ≠ 0 := by
    intro h0
    rw [h0, abs_zero] at h1
    exact absurd h1 (not_le.2 (pow2_pos e))
  obtain ⟨_, s2⟩ := ilog2_spec x hx
  have a1 : e < ilog2 x + 1 := pow2_lt_pow2_iff.1 (lt_of_le_of_lt h1 s2)
  omega

theorem ilog2_lt (x : ℚ) (e : ℤ) (hx : x ≠ 0) (h2 : |x| < pow2 e) : ilog2 x < e := by
  obtain ⟨s1, _⟩ := ilog2_spec x hx
  exact pow2_lt_pow2_iff.1 (lt_of_le_of_lt s1 h2)

theorem ilog2_neg (x : ℚ) : ilog2 (-x) = ilog2 x := by
  simp only [ilog2, Rat.neg_num, Rat.neg_den, Int.natAbs_neg, abs_neg]
theorem round_half_even_error (r : ℚ) : |((round_half_even r : ℤ) : ℚ) - r| ≤ 1 / 2 := by
  have h1 := Int.floor_le r
  have h2 := Int.lt_floor_add_one r
  unfold round_half_even
  rw [abs_le]
  split_ifs with c1 c2 c3
  · constructor <;> linarith
  · push_cast
    constructor <;> linarith
  · constructor <;> linarith
  · push_cast
    constructor <;> linarith

theorem round_half_even_intCast (n : ℤ) : round_half_even (n : ℚ) = n := by
  unfold round_half_even
  rw [Int.floor_intCast]
  norm_num

theorem round_half_even_neg (r : ℚ) : round_half_even (-r) = -round_half_even r := by
  by_cases hint : (⌊r⌋ : ℚ) = r
  · rw [← hint, ← Int.cast_neg, round_half_even_intCast, round_half_even_intCast]
  · have h1 := Int.floor_le r
    have h2 := Int.lt_floor_add_one r
    have h3 : (⌊r⌋ : ℚ) < r := lt_of_le_of_ne h1 hint
    have hf : ⌊-r⌋ = -⌊r⌋ - 1 := by
      rw [Int.floor_eq_iff]
      push_cast
      constructor <;> linarith
    unfold round_half_even
    rw [hf]
    push_cast
    by_cases c1 : r - (⌊r⌋ : ℚ) < 1 / 2
    · have d1 : ¬ (-r - (-(⌊r⌋ : ℚ) - 1) < 1 / 2) := by
        intro h
        linarith
      have d2 : 1 / 2 < -r - (-(⌊r⌋ : ℚ) - 1) := by linarith
      rw [if_pos c1, if_neg d1, if_pos d2]
      ring
    · by_cases c2 : 1 / 2 < r - (⌊r⌋ : ℚ)
      · have d1 : -r - (-(⌊r⌋ : ℚ) - 1) < 1 / 2 := by linarith
        rw [if_neg c1, if_pos c2, if_pos d1]
        ring
      · have d1 : ¬ (-r - (-(⌊r⌋ : ℚ) - 1) < 1 / 2) := by
          intro h
          linarith
        have d2 : ¬ (1 / 2 < -r - (-(⌊r⌋ : ℚ) - 1)) := by
          intro h
          linarith
        rw [if_neg c1, if_neg c2, if_neg d1, if_neg d2]
        by_cases c3 : ⌊r⌋ % 2 = 0
        · have d3 : ¬ ((-⌊r⌋ - 1) % 2 = 0) := by omega
          rw [if_pos c3, if_neg d3]
          ring
        · have d3 : (-⌊r⌋ - 1) % 2 = 0 := by omega
          rw [if_neg c3, if_pos d3]
          ring

theorem round_to_format_zero (prec : ℕ) (qmin : ℤ) : round_to_format prec qmin 0 = 0 := by
  simp [round_to_format]

theorem round_to_format_neg (prec : ℕ) (qmin : ℤ) (x : ℚ) :
    round_to_format prec qmin (-x) = -round_to_format prec qmin x := by
  by_cases hx : x = 0
  · subst hx
    simp [round_to_format]
  · have hx1 : -x ≠ 0 := neg_ne_zero.2 hx
    unfold round_to_format
    rw [if_neg hx, if_neg hx1, ilog2_neg, neg_div, round_half_even_neg]
    push_cast
    ring

/-- The result of a rounding is within half a quantum of the value. -/
theorem round_to_format_error (prec : ℕ) (qmin : ℤ) (x : ℚ) (hx : x ≠ 0) :
    |round_to_format prec qmin x - x| ≤
      pow2 (max (ilog2 x - ((prec : ℤ) - 1)) qmin) / 2 := by
  have hq := pow2_pos (max (ilog2 x - ((prec : ℤ) - 1)) qmin)
  have h := round_half_even_error (x / pow2 (max (ilog2 x - ((prec : ℤ) - 1)) qmin))
  unfold round_to_format
  rw [if_neg hx]
  have e : ((round_half_even (x / pow2 (max (ilog2 x - ((prec : ℤ) - 1)) qmin)) : ℤ) : ℚ) *
      pow2 (max (ilog2 x - ((prec : ℤ) - 1)) qmin) - x =
      (((round_half_even (x / pow2 (max (ilog2 x - ((prec : ℤ) - 1)) qmin)) : ℤ) : ℚ) -
        x / pow2 (max (ilog2 x - ((prec : ℤ) - 1)) qmin)) *
        pow2 (max (ilog2 x - ((prec : ℤ) - 1)) qmin) := by
    field_simp
  rw [e, abs_mul, abs_of_pos hq]
  calc _ ≤ 1 / 2 * pow2 (max (ilog2 x - ((prec : ℤ) - 1)) qmin) :=
        mul_le_mul_of_nonneg_right h (le_of_lt hq)
    _ = pow2 (max (ilog2 x - ((prec : ℤ) - 1)) qmin) / 2 := by ring

/-- In the normal range the error of a rounding is at most `|x| / 2 ^ prec` . -/
theorem round_to_format_rel_error (prec : ℕ) (qmin : ℤ) (x : ℚ)
    (hnorm : pow2 (qmin + ((prec : ℤ) - 1)) ≤ |x|) :
    |round_to_format prec qmin x - x| ≤ |x| / 2 ^ prec := by
  have hx : x ≠ 0 := by
    intro h0
    rw [h0, abs_zero] at hnorm
    exact absurd hnorm (not_le.2 (pow2_pos _))
  have hle := le_ilog2 x _ hnorm
  have hmax : max (ilog2 x - ((prec : ℤ) - 1)) qmin = ilog2 x - ((prec : ℤ) - 1) :=
    max_eq_left (by omega)
  have h := round_to_format_error prec qmin x hx
  rw [hmax] at h
  obtain ⟨s1, _⟩ := ilog2_spec x hx
  have e : pow2 (ilog2 x - ((prec : ℤ) - 1)) / 2 = pow2 (ilog2 x) / 2 ^ prec := by
    have e1 : ilog2 x = (ilog2 x - ((prec : ℤ) - 1)) + ((prec : ℤ) - 1) := by ring
    have e2 : pow2 ((prec : ℤ) - 1) = (2 : ℚ) ^ prec / 2 := by
      rw [pow2_sub_one, pow2_eq]
      norm_cast
    nth_rewrite 2 [e1]
    rw [pow2_add, e2]
    have hp : (0 : ℚ) < 2 ^ prec := by positivity
    field_simp
    ring
  rw [e] at h
  have hp : (0 : ℚ) < 2 ^ prec := by positivity
  calc _ ≤ pow2 (ilog2 x) / 2 ^ prec := h
    _ ≤ |x| / 2 ^ prec := div_le_div_of_nonneg_right s1 (le_of_lt hp)

/-- A value `m * 2 ^ k` with `|m| < 2 ^ prec` and `k >= qmin` is representable:
rounding leaves it unchanged. -/
theorem round_to_format_exact (prec : ℕ) (qmin : ℤ) (m k : ℤ) (hm : |m| < 2 ^ prec)
    (hk : qmin ≤ k) : round_to_format prec qmin ((m : ℚ) * pow2 k) = (m : ℚ) * pow2 k := by
  by_cases h0 : (m : ℚ) * pow2 k = 0
  · rw [h0, round_to_format_zero]
  · have hlt : |(m : ℚ) * pow2 k| < pow2 ((prec : ℤ) + k) := by
      rw [abs_mul, abs_of_pos (pow2_pos k), pow2_add]
      have hm1 : |(m : ℚ)| < pow2 (prec : ℤ) := by
        rw [pow2_natCast, ← Int.cast_abs]
        exact_mod_cast hm
      exact mul_lt_mul_of_pos_right hm1 (pow2_pos k)
    have hl := ilog2_lt _ _ h0 hlt
    have hq : max (ilog2 ((m : ℚ) * pow2 k) - ((prec : ℤ) - 1)) qmin ≤ k := max_le (by omega) hk
    obtain ⟨n, hn⟩ := Int.eq_ofNat_of_zero_le (sub_nonneg.2 hq)
    have hk1 : k = max (ilog2 ((m : ℚ) * pow2 k) - ((prec : ℤ) - 1)) qmin + (n : ℤ) := by omega
    have hdiv : (m : ℚ) * pow2 k /
        pow2 (max (ilog2 ((m : ℚ) * pow2 k) - ((prec : ℤ) - 1)) qmin) =
        ((m * 2 ^ n : ℤ) : ℚ) := by
      have hp := pow2_pos (max (ilog2 ((m : ℚ) * pow2 k) - ((prec : ℤ) - 1)) qmin)
      nth_rewrite 1 [hk1]
      rw [pow2_add, pow2_natCast]
      push_cast
      field_simp
      ring
    unfold round_to_format
    rw [if_neg h0, hdiv, round_half_even_intCast]
    nth_rewrite 2 [hk1]
    rw [pow2_add, pow2_natCast]
    push_cast
    ring

theorem to_float_intCast (n : ℤ) (h : |n| < 2 ^ 24) : to_float (n : ℚ) = (n : ℚ) := by
  have := round_to_format_exact 24 (-149) n 0 h (by norm_num)
  rw [pow2_zero, mul_one] at this
  exact this

theorem to_float_neg (x : ℚ) : to_float (-x) = -to_float x :=
  round_to_format_neg 24 (-149) x

theorem to_float_rel_error (x : ℚ) (h : (1 : ℚ) / 2 ^ 126 ≤ |x|) :
    |to_float x - x| ≤ |x| / 2 ^ 24 := by
  apply round_to_format_rel_error 24 (-149) x
  have : pow2 (-149 + (((24 : ℕ) : ℤ) - 1)) = (1 : ℚ) / 2 ^ 126 := by
    rw [pow2_eq]
    norm_num
  rw [this]
  exact h

theorem isqrt_aux_spec (n : ℕ) : ∀ (k acc : ℕ), acc * acc ≤ n →
    n < (acc + 2 ^ k) * (acc + 2 ^ k) →
    isqrt_aux n k acc * isqrt_aux n k acc ≤ n ∧
      n < (isqrt_aux n k acc + 1) * (isqrt_aux n k acc + 1) := by
  intro k
  induction k with
  | zero =>
    intro acc h1 h2
    simpa [isqrt_aux] using ⟨h1, h2⟩
  | succ k ih =>
    intro acc h1 h2
    by_cases h : (acc + 2 ^ k) * (acc + 2 ^ k) ≤ n
    · rw [isqrt_aux, if_pos h]
      apply ih _ h
      have e : acc + 2 ^ k + 2 ^ k = acc + 2 ^ (k + 1) := by
        rw [pow_succ]
        ring
      rw [e]
      exact h2
    · rw [isqrt_aux, if_neg h]
      exact ih _ h1 (not_le.1 h)

theorem isqrt_spec (n : ℕ) : isqrt n * isqrt n ≤ n ∧ n < (isqrt n + 1) * (isqrt n + 1) := by
  apply isqrt_aux_spec
  · simp
  · by_cases h0 : n = 0
    · subst h0
      simp
    · obtain ⟨_, h2⟩ := log2_spec n h0
      have h3 : 2 ^ (log2 n + 1) ≤ 2 ^ (log2 n / 2 + 1) * 2 ^ (log2 n / 2 + 1) := by
        rw [← pow_add]
        apply Nat.pow_le_pow_right (by norm_num)
        omega
      simp only [zero_add]
      omega

/-- The general error of a rounding to `float` : relative error `2 ^ (-24)` in the
normal range, absolute error `2 ^ (-150)` below it. -/
theorem to_float_abs_error (x : ℚ) : |to_float x - x| ≤ |x| / 2 ^ 24 + 1 / 2 ^ 150 := by
  by_cases hx : x = 0
  · subst hx
    rw [to_float, round_to_format_zero]
    norm_num
  · have h := round_to_format_error 24 (-149) x hx
    obtain ⟨s1, _⟩ := ilog2_spec x hx
    have habs : 0 ≤ |x| / 2 ^ 24 := by positivity
    rcases le_total (ilog2 x - (((24 : ℕ) : ℤ) - 1)) (-149) with hc | hc
    · rw [max_eq_right hc] at h
      have e : pow2 (-149) / 2 = 1 / 2 ^ 150 := by
        rw [pow2_eq]
        norm_num
      rw [e] at h
      unfold to_float
      linarith
    · rw [max_eq_left hc] at h
      have e : pow2 (ilog2 x - (((24 : ℕ) : ℤ) - 1)) / 2 = pow2 (ilog2 x) / 2 ^ 24 := by
        have e1 : ilog2 x = (ilog2 x - (((24 : ℕ) : ℤ) - 1)) + 23 := by
          push_cast
          ring
        have e2 : pow2 23 = 2 ^ 23 := by
          rw [pow2_eq]
          norm_num
        nth_rewrite 2 [e1]
        rw [pow2_add, e2]
        ring
      rw [e] at h
      have : pow2 (ilog2 x) / 2 ^ 24 ≤ |x| / 2 ^ 24 :=
        div_le_div_of_nonneg_right s1 (by positivity)
      unfold to_float
      have : (0 : ℚ) ≤ 1 / 2 ^ 150 := by positivity
      linarith

theorem round_half_even_nonneg (r : ℚ) (h : 0 ≤ r) : 0 ≤ round_half_even r := by
  have hf : 0 ≤ ⌊r⌋ := Int.floor_nonneg.2 h
  unfold round_half_even
  split_ifs <;> omega

theorem to_float_nonneg (x : ℚ) (h : 0 ≤ x) : 0 ≤ to_float x := by
  unfold to_float round_to_format
  split_ifs with h0
  · exact le_rfl
  · apply mul_nonneg
    · have := round_half_even_nonneg _ (div_nonneg h (le_of_lt (pow2_pos
        (max (ilog2 x - (((24 : ℕ) : ℤ) - 1)) (-149)))))
      exact_mod_cast this
    · exact le_of_lt (pow2_pos _)

/-- A positive `float` value is at least `2 ^ (-149)` . -/
theorem to_float_pos_ge (x : ℚ) (h : 0 < to_float x) : 1 / 2 ^ 149 ≤ to_float x := by
  unfold to_float round_to_format at h ⊢
  split_ifs at h ⊢ with h0
  · exact absurd h (lt_irrefl _)
  · have hp := pow2_pos (max (ilog2 x - (((24 : ℕ) : ℤ) - 1)) (-149))
    have hn : (0 : ℚ) < ((round_half_even
        (x / pow2 (max (ilog2 x - (((24 : ℕ) : ℤ) - 1)) (-149))) : ℤ) : ℚ) :=
      (pos_iff_pos_of_mul_pos h).2 hp
    have hn1 : (1 : ℚ) ≤ ((round_half_even
        (x / pow2 (max (ilog2 x - (((24 : ℕ) : ℤ) - 1)) (-149))) : ℤ) : ℚ) := by
      have : (0 : ℤ) < round_half_even
          (x / pow2 (max (ilog2 x - (((24 : ℕ) : ℤ) - 1)) (-149))) := by exact_mod_cast hn
      exact_mod_cast this
    have hq : pow2 (-149) ≤ pow2 (max (ilog2 x - (((24 : ℕ) : ℤ) - 1)) (-149)) :=
      pow2_le_pow2 (le_max_right _ _)
    have e : pow2 (-149) = 1 / 2 ^ 149 := by
      rw [pow2_eq]
      norm_num
    rw [e] at hq
    calc (1 : ℚ) / 2 ^ 149 ≤ pow2 (max (ilog2 x - (((24 : ℕ) : ℤ) - 1)) (-149)) := hq
      _ = 1 * pow2 (max (ilog2 x - (((24 : ℕ) : ℤ) - 1)) (-149)) := (one_mul _).symm
      _ ≤ _ := mul_le_mul_of_nonneg_right hn1 (le_of_lt hp)

theorem pow2_two_mul (q : ℤ) : pow2 (2 * q) = pow2 q * pow2 q := by
  rw [two_mul, pow2_add]

/-- The two candidates of the rounded root: the result of `sqrt` is `m * 2 ^ q` or
`(m + 1) * 2 ^ q` , the latter only from the midpoint on. -/
theorem sqrt_cases (s : ℚ) (hs : 0 < s) :
    sqrt s = (isqrt ⌊s / pow2 (2 * max (ilog2 s / 2 - 23) (-149))⌋.toNat : ℚ) *
        pow2 (max (ilog2 s / 2 - 23) (-149)) ∨
    (sqrt s = ((isqrt ⌊s / pow2 (2 * max (ilog2 s / 2 - 23) (-149))⌋.toNat : ℚ) + 1) *
        pow2 (max (ilog2 s / 2 - 23) (-149)) ∧
      (2 * (isqrt ⌊s / pow2 (2 * max (ilog2 s / 2 - 23) (-149))⌋.toNat : ℚ) + 1) *
        (2 * (isqrt ⌊s / pow2 (2 * max (ilog2 s / 2 - 23) (-149))⌋.toNat : ℚ) + 1) ≤
        4 * (s / pow2 (2 * max (ilog2 s / 2 - 23) (-149)))) := by
  have hs0 : ¬ s ≤ 0 := not_le.2 hs
  have e23 : (((24 : ℕ) : ℤ) - 1) = 23 := by norm_num
  simp only [sqrt, sqrt_to_format, if_neg hs0, e23]
  split_ifs with c1 c2 c3
  · exact Or.inl rfl
  · exact Or.inr ⟨rfl, le_of_lt c2⟩
  · exact Or.inl rfl
  · exact Or.inr ⟨rfl, not_lt.1 c1⟩

theorem sqrt_zero_of_nonpos (s : ℚ) (hs : s ≤ 0) : sqrt s = 0 := by
  simp [sqrt, sqrt_to_format, hs]

/-- The square of the rounded root of a positive `float` value exceeds the value by
the factor `(1 + 2 ^ (-24)) ^ 2` at most. -/
theorem sqrt_sq_le (s : ℚ) (hs : 1 / 2 ^ 149 ≤ s) :
    sqrt s * sqrt s ≤ (1 + 1 / 2 ^ 24) * (1 + 1 / 2 ^ 24) * s := by
  have hs0 : 0 < s := lt_of_lt_of_le (by positivity) hs
  have he : -149 ≤ ilog2 s := by
    apply le_ilog2
    rw [abs_of_pos hs0, pow2_eq]
    have : ((2 : ℚ) ^ (-149 : ℤ)) = 1 / 2 ^ 149 := by norm_num
    rw [this]
    exact hs
  have hq : max (ilog2 s / 2 - 23) (-149) = ilog2 s / 2 - 23 := max_eq_left (by omega)
  obtain ⟨l1, _⟩ := ilog2_spec s (ne_of_gt hs0)
  rw [abs_of_pos hs0] at l1
  have hp := pow2_pos (2 * (ilog2 s / 2 - 23))
  have hpq := pow2_pos (ilog2 s / 2 - 23)
  have hy : (2 : ℚ) ^ 46 ≤ s / pow2 (2 * (ilog2 s / 2 - 23)) := by
    rw [le_div_iff₀ hp]
    have h1 : pow2 (2 * (ilog2 s / 2 - 23)) ≤ pow2 (ilog2 s - 46) := pow2_le_pow2 (by omega)
    have h2 : (2 : ℚ) ^ 46 * pow2 (ilog2 s - 46) = pow2 (ilog2 s) := by
      have e1 : ilog2 s = 46 + (ilog2 s - 46) := by ring
      have e2 : pow2 46 = 2 ^ 46 := by
        rw [pow2_eq]
        norm_num
      nth_rewrite 2 [e1]
      rw [pow2_add, e2]
    calc (2 : ℚ) ^ 46 * pow2 (2 * (ilog2 s / 2 - 23))
        ≤ (2 : ℚ) ^ 46 * pow2 (ilog2 s - 46) :=
          mul_le_mul_of_nonneg_left h1 (by positivity)
      _ = pow2 (ilog2 s) := h2
      _ ≤ s := l1
  have hy0 : (0 : ℚ) ≤ s / pow2 (2 * (ilog2 s / 2 - 23)) := le_trans (by positivity) hy
  have hfl0 : 0 ≤ ⌊s / pow2 (2 * (ilog2 s / 2 - 23))⌋ := Int.floor_nonneg.2 hy0
  have hn1 : ((⌊s / pow2 (2 * (ilog2 s / 2 - 23))⌋.toNat : ℕ) : ℚ) ≤
      s / pow2 (2 * (ilog2 s / 2 - 23)) := by
    have h1 : ((⌊s / pow2 (2 * (ilog2 s / 2 - 23))⌋.toNat : ℕ) : ℤ) =
        ⌊s / pow2 (2 * (ilog2 s / 2 - 23))⌋ := Int.toNat_of_nonneg hfl0
    have h2 : ((⌊s / pow2 (2 * (ilog2 s / 2 - 23))⌋.toNat : ℕ) : ℚ) =
        ((⌊s / pow2 (2 * (ilog2 s / 2 - 23))⌋ : ℤ) : ℚ) :=
      (Int.cast_natCast _).symm.trans (congrArg (fun z : ℤ => (z : ℚ)) h1)
    rw [h2]
    exact Int.floor_le _
  have hn2 : 2 ^ 46 ≤ ⌊s / pow2 (2 * (ilog2 s / 2 - 23))⌋.toNat := by
    have h1 : ((2 ^ 46 : ℤ)) ≤ ⌊s / pow2 (2 * (ilog2 s / 2 - 23))⌋ := by
      rw [Int.le_floor]
      push_cast
      exact hy
    omega
  obtain ⟨m1, m2⟩ := isqrt_spec ⌊s / pow2 (2 * (ilog2 s / 2 - 23))⌋.toNat
  have hm : 2 ^ 23 ≤ isqrt ⌊s / pow2 (2 * (ilog2 s / 2 - 23))⌋.toNat := by
    by_contra hlt
    have h1 : isqrt ⌊s / pow2 (2 * (ilog2 s / 2 - 23))⌋.toNat + 1 ≤ 2 ^ 23 := by omega
    have h2 := Nat.mul_le_mul h1 h1
    have h3 : (2 : ℕ) ^ 23 * 2 ^ 23 = 2 ^ 46 := by norm_num
    omega
  have hs_eq : s = s / pow2 (2 * (ilog2 s / 2 - 23)) * (pow2 (ilog2 s / 2 - 23) *
      pow2 (ilog2 s / 2 - 23)) := by
    rw [← pow2_two_mul]
    field_simp
  have hpp : 0 < pow2 (ilog2 s / 2 - 23) * pow2 (ilog2 s / 2 - 23) := mul_pos hpq hpq
  have hm1q : ((isqrt ⌊s / pow2 (2 * (ilog2 s / 2 - 23))⌋.toNat : ℕ) : ℚ) *
      ((isqrt ⌊s / pow2 (2 * (ilog2 s / 2 - 23))⌋.toNat : ℕ) : ℚ) ≤
      s / pow2 (2 * (ilog2 s / 2 - 23)) := by
    refine le_trans ?_ hn1
    exact_mod_cast m1
  have hmq : (2 : ℚ) ^ 23 ≤ ((isqrt ⌊s / pow2 (2 * (ilog2 s / 2 - 23))⌋.toNat : ℕ) : ℚ) := by
    exact_mod_cast hm
  have hone : (1 : ℚ) ≤ (1 + 1 / 2 ^ 24) * (1 + 1 / 2 ^ 24) := by norm_num
  rcases sqrt_cases s hs0 with h | ⟨h, hmid⟩
  · rw [h, hq]
    have e : ((isqrt ⌊s / pow2 (2 * (ilog2 s / 2 - 23))⌋.toNat : ℕ) : ℚ) *
        pow2 (ilog2 s / 2 - 23) *
        (((isqrt ⌊s / pow2 (2 * (ilog2 s / 2 - 23))⌋.toNat : ℕ) : ℚ) *
          pow2 (ilog2 s / 2 - 23)) =
        ((isqrt ⌊s / pow2 (2 * (ilog2 s / 2 - 23))⌋.toNat : ℕ) : ℚ) *
          ((isqrt ⌊s / pow2 (2 * (ilog2 s / 2 - 23))⌋.toNat : ℕ) : ℚ) *
          (pow2 (ilog2 s / 2 - 23) * pow2 (ilog2 s / 2 - 23)) := by ring
    rw [e]
    calc _ ≤ s / pow2 (2 * (ilog2 s / 2 - 23)) * (pow2 (ilog2 s / 2 - 23) *
          pow2 (ilog2 s / 2 - 23)) := mul_le_mul_of_nonneg_right hm1q (le_of_lt hpp)
      _ = s := hs_eq.symm
      _ = 1 * s := (one_mul s).symm
      _ ≤ (1 + 1 / 2 ^ 24) * (1 + 1 / 2 ^ 24) * s :=
        mul_le_mul_of_nonneg_right hone (le_of_lt hs0)
  · rw [hq] at h hmid
    rw [h]
    have e : (((isqrt ⌊s / pow2 (2 * (ilog2 s / 2 - 23))⌋.toNat : ℕ) : ℚ) + 1) *
        pow2 (ilog2 s / 2 - 23) *
        ((((isqrt ⌊s / pow2 (2 * (ilog2 s / 2 - 23))⌋.toNat : ℕ) : ℚ) + 1) *
          pow2 (ilog2 s / 2 - 23)) =
        ((((isqrt ⌊s / pow2 (2 * (ilog2 s / 2 - 23))⌋.toNat : ℕ) : ℚ) + 1) *
          (((isqrt ⌊s / pow2 (2 * (ilog2 s / 2 - 23))⌋.toNat : ℕ) : ℚ) + 1)) *
          (pow2 (ilog2 s / 2 - 23) * pow2 (ilog2 s / 2 - 23)) := by ring
    rw [e]
    have hkey : (((isqrt ⌊s / pow2 (2 * (ilog2 s / 2 - 23))⌋.toNat : ℕ) : ℚ) + 1) *
        (((isqrt ⌊s / pow2 (2 * (ilog2 s / 2 - 23))⌋.toNat : ℕ) : ℚ) + 1) ≤
        (1 + 1 / 2 ^ 24) * (1 + 1 / 2 ^ 24) * (s / pow2 (2 * (ilog2 s / 2 - 23))) := by
      have h1 : 2 * (((isqrt ⌊s / pow2 (2 * (ilog2 s / 2 - 23))⌋.toNat : ℕ) : ℚ) + 1) ≤
          (1 + 1 / 2 ^ 24) *
            (2 * ((isqrt ⌊s / pow2 (2 * (ilog2 s / 2 - 23))⌋.toNat : ℕ) : ℚ) + 1) := by
        have : (2 : ℚ) ^ 23 = 8388608 := by norm_num
        rw [this] at hmq
        norm_num
        linarith
      have h0 : (0 : ℚ) ≤ 2 * (((isqrt ⌊s / pow2 (2 * (ilog2 s / 2 - 23))⌋.toNat : ℕ) : ℚ) +
          1) := by positivity
      have h2 := mul_le_mul h1 h1 h0 (le_trans h0 h1)
      have h3 : (1 + 1 / 2 ^ 24) *
            (2 * ((isqrt ⌊s / pow2 (2 * (ilog2 s / 2 - 23))⌋.toNat : ℕ) : ℚ) + 1) *
          ((1 + 1 / 2 ^ 24) *
            (2 * ((isqrt ⌊s / pow2 (2 * (ilog2 s / 2 - 23))⌋.toNat : ℕ) : ℚ) + 1)) ≤
          (1 + 1 / 2 ^ 24) * (1 + 1 / 2 ^ 24) *
            (4 * (s / pow2 (2 * (ilog2 s / 2 - 23)))) := by
        have : (1 + 1 / 2 ^ 24) *
            (2 * ((isqrt ⌊s / pow2 (2 * (ilog2 s / 2 - 23))⌋.toNat : ℕ) : ℚ) + 1) *
          ((1 + 1 / 2 ^ 24) *
            (2 * ((isqrt ⌊s / pow2 (2 * (ilog2 s / 2 - 23))⌋.toNat : ℕ) : ℚ) + 1)) =
          (1 + 1 / 2 ^ 24) * (1 + 1 / 2 ^ 24) *
            ((2 * ((isqrt ⌊s / pow2 (2 * (ilog2 s / 2 - 23))⌋.toNat : ℕ) : ℚ) + 1) *
              (2 * ((isqrt ⌊s / pow2 (2 * (ilog2 s / 2 - 23))⌋.toNat : ℕ) : ℚ) + 1)) := by
          ring
        rw [this]
        exact mul_le_mul_of_nonneg_left hmid (by positivity)
      linarith
    calc _ ≤ (1 + 1 / 2 ^ 24) * (1 + 1 / 2 ^ 24) * (s / pow2 (2 * (ilog2 s / 2 - 23))) *
          (pow2 (ilog2 s / 2 - 23) * pow2 (ilog2 s / 2 - 23)) :=
          mul_le_mul_of_nonneg_right hkey (le_of_lt hpp)
      _ = (1 + 1 / 2 ^ 24) * (1 + 1 / 2 ^ 24) *
          (s / pow2 (2 * (ilog2 s / 2 - 23)) * (pow2 (ilog2 s / 2 - 23) *
            pow2 (ilog2 s / 2 - 23))) := by ring
      _ = (1 + 1 / 2 ^ 24) * (1 + 1 / 2 ^ 24) * s := by rw [← hs_eq]

/-! ## Deduplication loops -/

theorem dedup_inner_spec (d : ℚ) (k : ℕ) :
    ∀ (fuel k2 last : ℕ) (surfs : List Ipoint),
      k < k2 → k2 ≤ last + 1 → last < surfs.length → last + 1 - k2 < fuel →
      ∃ last1 surfs1, dedup_inner d k fuel k2 last surfs = some (last1, surfs1) ∧
        last1 ≤ last ∧ k2 ≤ last1 + 1 ∧ surfs1.length = surfs.length ∧
        (∀ i, i < k2 → surfs1[i]? = surfs[i]?) ∧
        (∀ j a b, k2 ≤ j → j ≤ last1 → surfs1[k]? = some a → surfs1[j]? = some b →
          dist2d_lt a b d = false) ∧
        (∀ lo, lo ≤ k2 → ∀ P : Ipoint → Prop,
          (∀ j a, lo ≤ j → j ≤ last → surfs[j]? = some a → P a) →
          ∀ j a, lo ≤ j → j ≤ last1 → surfs1[j]? = some a → P a) := by
  intro fuel
  induction fuel with
  | zero => intro k2 last surfs _ _ _ h; omega
  | succ fuel ih =>
    intro k2 last surfs hk hk2 hlast hfuel
    by_cases h : k2 ≤ last
    · have hkl : k < surfs.length := by omega
      have hk2l : k2 < surfs.length := by omega
      obtain ⟨a, ha⟩ : ∃ a, surfs[k]? = some a := ⟨_, List.getElem?_eq_getElem hkl⟩
      obtain ⟨b, hb⟩ : ∃ b, surfs[k2]? = some b := ⟨_, List.getElem?_eq_getElem hk2l⟩
      obtain ⟨c, hc⟩ : ∃ c, surfs[last]? = some c := ⟨_, List.getElem?_eq_getElem hlast⟩
      by_cases hclose : dist2d_lt a b d = true
      · have hne : ¬ (last = 0 ∨ k2 = 0) := by omega
        obtain ⟨last1, surfs1, hrun, h1, h2, h3, h4, h5, h6⟩ :=
          ih k2 (last - 1) (surfs.set k2 c) hk (by omega) (by simp; omega) (by omega)
        refine ⟨last1, surfs1, ?_, by omega, h2, by simpa using h3, ?_, h5, ?_⟩
        · simp only [dedup_inner, h, if_true, ha, hb, hclose, hc, hne, if_false]
          exact hrun
        · intro i hi
          rw [h4 i hi, List.getElem?_set_ne (by omega)]
        · intro lo hlo P hP
          apply h6 lo hlo P
          intro j x hlj hj hx
          by_cases hjk : k2 = j
          · subst hjk
            rw [List.getElem?_set_self hk2l] at hx
            cases hx
            exact hP last c (by omega) le_rfl hc
          · rw [List.getElem?_set_ne hjk] at hx
            exact hP j x hlj (by omega) hx
      · have hfar : dist2d_lt a b d = false := by simpa using hclose
        obtain ⟨last1, surfs1, hrun, h1, h2, h3, h4, h5, h6⟩ :=
          ih (k2 + 1) last surfs (by omega) (by omega) hlast (by omega)
        refine ⟨last1, surfs1, ?_, h1, by omega, h3, ?_, ?_,
          fun lo hlo => h6 lo (by omega)⟩
        · simp only [dedup_inner, h, if_true, ha, hb, hfar]
          exact hrun
        · intro i hi
          exact h4 i (by omega)
        · intro j x y hj hj1 hx hy
          by_cases hjk : j = k2
          · subst hjk
            rw [h4 k (by omega), ha] at hx
            rw [h4 j (by omega), hb] at hy
            cases hx; cases hy
            exact hfar
          · exact h5 j x y (by omega) hj1 hx hy
    · refine ⟨last, surfs, ?_, le_rfl, by omega, rfl, fun _ _ => rfl, ?_,
        fun _ _ _ hP => hP⟩
      · simp only [dedup_inner, h, if_false]
      · intro j a b hj hj1
        omega

theorem dedup_outer_spec (d : ℚ) :
    ∀ (fuel k last : ℕ) (surfs : List Ipoint),
      k ≤ last + 1 → last < surfs.length → last + 1 - k < fuel →
      (∀ i j a b, i < k → i < j → j ≤ last → surfs[i]? = some a → surfs[j]? = some b →
        dist2d_lt a b d = false) →
      ∃ last1 surfs1, dedup_outer d fuel k last surfs = some (last1, surfs1) ∧
        last1 ≤ last ∧ k ≤ last1 + 1 ∧ surfs1.length = surfs.length ∧
        (∀ i, i ≤ k → surfs1[i]? = surfs[i]?) ∧
        (∀ i j a b, i < j → j ≤ last1 → surfs1[i]? = some a → surfs1[j]? = some b →
          dist2d_lt a b d = false) ∧
        (∀ lo, lo ≤ k + 1 → ∀ P : Ipoint → Prop,
          (∀ j a, lo ≤ j → j ≤ last → surfs[j]? = some a → P a) →
          ∀ j a, lo ≤ j → j ≤ last1 → surfs1[j]? = some a → P a) := by
  intro fuel
  induction fuel with
  | zero => intro k last surfs _ _ h; omega
  | succ fuel ih =>
    intro k last surfs hk hlast hfuel hinv
    by_cases h : k ≤ last
    · obtain ⟨last1, surfs1, hrun1, a1, a2, a3, a4, a5, a6⟩ :=
        dedup_inner_spec d k (surfs.length + 1) (k + 1) last surfs (by omega) (by omega)
          hlast (by omega)
      have hinv1 : ∀ i j a b, i < k + 1 → i < j → j ≤ last1 → surfs1[i]? = some a →
          surfs1[j]? = some b → dist2d_lt a b d = false := by
        intro i j a b hi hij hj ha hb
        by_cases hik : i = k
        · subst hik
          exact a5 j a b (by omega) hj ha hb
        · rw [a4 i (by omega)] at ha
          exact a6 (i + 1) (by omega) (fun x => dist2d_lt a x d = false)
            (fun j2 x h1 h2 hx => hinv i j2 a x (by omega) (by omega) h2 ha hx)
            j b (by omega) hj hb
      obtain ⟨last2, surfs2, hrun2, b1, b2, b3, b4, b5, b6⟩ :=
        ih (k + 1) last1 surfs1 (by omega) (by omega) (by omega) hinv1
      refine ⟨last2, surfs2, ?_, by omega, by omega, by omega, ?_, b5, ?_⟩
      · simp only [dedup_outer, h, if_true, hrun1]
        exact hrun2
      · intro i hi
        rw [b4 i (by omega), a4 i (by omega)]
      · intro lo hlo P hP
        exact b6 lo (by omega) P (a6 lo hlo P hP)
    · refine ⟨last, surfs, ?_, le_rfl, by omega, rfl, fun _ _ => rfl, ?_,
        fun _ _ _ hP => hP⟩
      · simp only [dedup_outer, h, if_false]
      · intro i j a b hij hj ha hb
        exact hinv i j a b (by omega) hij hj ha hb

theorem resize_of_le (v : List Ipoint) (n : ℕ) (h : n ≤ v.length) : resize v n = v.take n := by
  simp [resize, Nat.sub_eq_zero_of_le h]

/-- What the deduplication of a non-empty list leaves: a non-empty list, not longer
than the input, with the same first entry, whose entries come from the input and
are pairwise not closer than `d` . -/
theorem dedup_spec (d : ℚ) (surfs : List Ipoint) (h : 1 ≤ surfs.length) :
    ∃ r, dedup d surfs = some r ∧ 1 ≤ r.length ∧ r.length ≤ surfs.length ∧
      r[0]? = surfs[0]? ∧
      (∀ (i j : ℕ) a b, i < j → r[i]? = some a → r[j]? = some b →
        dist2d_lt a b d = false) ∧
      (∀ p, p ∈ r → p ∈ surfs) := by
  obtain ⟨last1, surfs1, hrun, a1, _, a3, a4, a5, a6⟩ :=
    dedup_outer_spec d (surfs.length + 1) 0 (surfs.length - 1) surfs (by omega) (by omega)
      (by omega) (by intro i j a b hi; omega)
  have hlen : last1 + 1 ≤ surfs1.length := by omega
  refine ⟨resize surfs1 (last1 + 1), ?_, ?_, ?_, ?_, ?_, ?_⟩
  · have h0 : ¬ surfs.length = 0 := by omega
    simp only [dedup, h0, if_false, hrun]
  · rw [resize_of_le _ _ hlen, List.length_take]; omega
  · rw [resize_of_le _ _ hlen, List.length_take]; omega
  · rw [resize_of_le _ _ hlen, List.getElem?_take_of_lt (by omega)]
    exact a4 0 le_rfl
  · intro i j a b hij ha hb
    rw [resize_of_le _ _ hlen] at ha hb
    have hj : j < last1 + 1 := by
      by_contra hj
      rw [List.getElem?_take_eq_none (by omega)] at hb
      cases hb
    rw [List.getElem?_take_of_lt (by omega)] at ha
    rw [List.getElem?_take_of_lt hj] at hb
    exact a5 i j a b hij (by omega) ha hb
  · intro p hp
    rw [resize_of_le _ _ hlen] at hp
    obtain ⟨j, hj⟩ := List.getElem?_of_mem hp
    have hjl : j < last1 + 1 := by
      by_contra hjl
      rw [List.getElem?_take_eq_none (by omega)] at hj
      cases hj
    rw [List.getElem?_take_of_lt hjl] at hj
    exact a6 0 (by omega) (fun x => x ∈ surfs)
      (fun j2 x _ _ hx => List.getElem?_mem hx) j p (by omega) (by omega) hj

/-! ## Emission loop -/

theorem le_max_len {areas : List ImageArea} {a : ImageArea} (h : a ∈ areas) :
    a.surfs.length ≤ max_len areas := by
  induction areas with
  | nil => cases h
  | cons b rest ih =>
    simp only [max_len, List.map_cons, List.foldr_cons] at ih ⊢
    rcases List.mem_cons.1 h with h | h
    · subst h; exact le_max_left _ _
    · exact le_trans (ih h) (le_max_right _ _)

theorem max_len_le {areas : List ImageArea} {k : ℕ}
    (h : ∀ a ∈ areas, a.surfs.length ≤ k) : max_len areas ≤ k := by
  induction areas with
  | nil => simp [max_len]
  | cons b rest ih =>
    simp only [max_len, List.map_cons, List.foldr_cons] at ih ⊢
    exact max_le (h b (List.mem_cons_self _ _))
      (ih fun a ha => h a (List.mem_cons_of_mem _ ha))

theorem layer_nil_of_le {areas : List ImageArea} {k : ℕ}
    (h : ∀ a ∈ areas, a.surfs.length ≤ k) : layer areas k = [] := by
  induction areas with
  | nil => rfl
  | cons b rest ih =>
    have hb : b.surfs[k]? = none := List.getElem?_eq_none (h b (List.mem_cons_self _ _))
    simp only [layer, List.filterMap_cons, hb, Option.map_none']
    exact ih fun a ha => h a (List.mem_cons_of_mem _ ha)

theorem skip_count_succ (areas : List ImageArea) (j k : ℕ) (a : ImageArea)
    (ha : areas[j]? = some a) :
    (areas.take (j + 1)).countP (fun a => decide (a.surfs.length ≤ k)) =
      (areas.take j).countP (fun a => decide (a.surfs.length ≤ k)) +
        if a.surfs.length ≤ k then 1 else 0 := by
  rw [List.take_succ, List.countP_append, ha]
  by_cases h : a.surfs.length ≤ k <;> simp [h]

theorem emit_loop_push (areas : List ImageArea) (fuel k j ns : ℕ) (acc : List Feature)
    (a : ImageArea) (f : Ipoint) (ha : areas[j]? = some a) (hf : a.surfs[k]? = some f)
    (hns : ¬ ns = areas.length) :
    emit_loop areas (fuel + 1) ⟨k, j, ns, acc⟩ =
      emit_loop areas fuel
        (if j + 1 = areas.length then ⟨k + 1, 0, 0, acc ++ [to_feature f]⟩
         else ⟨k, j + 1, ns, acc ++ [to_feature f]⟩) := by
  have hlen : a.surfs.length > k := by
    by_contra h
    rw [List.getElem?_eq_none (by omega)] at hf
    cases hf
  have hb : (ns == areas.length) = false := by simpa using hns
  simp only [emit_loop, ha, hlen, if_true, hf, hb, Bool.not_false]

theorem emit_loop_skip (areas : List ImageArea) (fuel k j ns : ℕ) (acc : List Feature)
    (a : ImageArea) (ha : areas[j]? = some a) (hlen : a.surfs.length ≤ k) :
    emit_loop areas (fuel + 1) ⟨k, j, ns, acc⟩ =
      if ns + 1 = areas.length then some acc
      else emit_loop areas fuel
        (if j + 1 = areas.length then ⟨k + 1, 0, 0, acc⟩ else ⟨k, j + 1, ns + 1, acc⟩) := by
  have hlen1 : ¬ a.surfs.length > k := by omega
  by_cases hstop : ns + 1 = areas.length
  · have hb : (ns + 1 == areas.length) = true := by simpa using hstop
    rw [if_pos hstop]
    simp only [emit_loop, ha, hlen1, if_false, hb, Bool.not_true]
    by_cases hend : j + 1 = areas.length <;> simp [hend]
  · have hb : (ns + 1 == areas.length) = false := by simpa using hstop
    rw [if_neg hstop]
    simp only [emit_loop, ha, hlen1, if_false, hb, Bool.not_false, if_true]

theorem skip_count_eq_length (areas : List ImageArea) (k : ℕ) :
    areas.countP (fun a => decide (a.surfs.length ≤ k)) = areas.length ↔
      ∀ b ∈ areas, b.surfs.length ≤ k := by
  rw [List.countP_eq_length]
  simp

theorem layers_from (areas : List ImageArea) (k : ℕ) (hk : k ≤ max_len areas) :
    layer areas k ++ (List.range' (k + 1) (max_len areas - (k + 1))).flatMap (layer areas) =
      (List.range' k (max_len areas - k)).flatMap (layer areas) := by
  by_cases h : k = max_len areas
  · have hnil : layer areas k = [] :=
      layer_nil_of_le fun a ha => le_trans (le_max_len ha) (by omega)
    have e1 : max_len areas - (k + 1) = 0 := by omega
    have e2 : max_len areas - k = 0 := by omega
    rw [hnil, e1, e2]
    rfl
  · have e : max_len areas - k = (max_len areas - (k + 1)) + 1 := by omega
    rw [e, List.range'_succ]
    simp

theorem emit_loop_spec (areas : List ImageArea) :
    ∀ (fuel k j : ℕ) (acc : List Feature), j < areas.length → k ≤ max_len areas →
      emit_loop areas fuel
          ⟨k, j, (areas.take j).countP (fun a => decide (a.surfs.length ≤ k)), acc⟩ =
        if (max_len areas - k) * areas.length + (areas.length - j) ≤ fuel then
          some (acc ++ layer (areas.drop j) k ++
            (List.range' (k + 1) (max_len areas - (k + 1))).flatMap (layer areas))
        else none := by
  intro fuel
  induction fuel with
  | zero =>
    intro k j acc hj hk
    have : ¬ ((max_len areas - k) * areas.length + (areas.length - j) ≤ 0) := by omega
    simp only [emit_loop, this, if_false]
  | succ fuel ih =>
    intro k j acc hj hk
    have ha : areas[j]? = some areas[j] := List.getElem?_eq_getElem hj
    have hmem : areas[j] ∈ areas := List.getElem_mem hj
    have hdrop : areas.drop j = areas[j] :: areas.drop (j + 1) :=
      (List.drop_eq_getElem_cons hj)
    have hcnt := skip_count_succ areas j k areas[j] ha
    have hle : (areas.take j).countP (fun a => decide (a.surfs.length ≤ k)) ≤ j := by
      refine le_trans (List.countP_le_length _) ?_
      simp
    generalize hns : (areas.take j).countP (fun a => decide (a.surfs.length ≤ k)) = ns
      at hcnt hle ⊢
    generalize areas[j] = a at ha hmem hdrop hcnt
    by_cases hlen : a.surfs.length > k
    · -- the area has a point in this layer
      have hf : a.surfs[k]? = some a.surfs[k] := List.getElem?_eq_getElem hlen
      have hns_ne : ¬ ns = areas.length := by omega
      have hlayer : layer (areas.drop j) k =
          to_feature a.surfs[k] :: layer (areas.drop (j + 1)) k := by
        rw [hdrop]; simp [layer, hf]
      have hkM : k + 1 ≤ max_len areas := le_trans hlen (le_max_len hmem)
      have hcnt1 : (areas.take (j + 1)).countP (fun a => decide (a.surfs.length ≤ k)) = ns := by
        rw [hcnt, if_neg (not_le.2 hlen)]; rfl
      by_cases hend : j + 1 = areas.length
      · have h0 := ih (k + 1) 0 (acc ++ [to_feature a.surfs[k]]) (by omega) hkM
        simp only [List.take_zero, List.countP_nil, List.drop_zero] at h0
        have hd1 : areas.drop (j + 1) = [] := List.drop_eq_nil_of_le (by omega)
        have hrange := layers_from areas (k + 1) hkM
        rw [emit_loop_push areas fuel k j ns acc a _ ha hf hns_ne, if_pos hend, h0]
        rw [hlayer, hd1, ← hrange]
        have e1 : (max_len areas - (k + 1)) * areas.length + (areas.length - 0) =
            (max_len areas - k) * areas.length := by
          have : max_len areas - k = (max_len areas - (k + 1)) + 1 := by omega
          rw [this, Nat.add_mul]; omega
        have e2 : (max_len areas - k) * areas.length + (areas.length - j) =
            (max_len areas - k) * areas.length + 1 := by omega
        rw [e1, e2]
        by_cases hfu : (max_len areas - k) * areas.length ≤ fuel
        · have hfu1 : (max_len areas - k) * areas.length + 1 ≤ fuel + 1 := by omega
          simp [hfu, hfu1, layer]
        · have hfu1 : ¬ (max_len areas - k) * areas.length + 1 ≤ fuel + 1 := by omega
          simp [hfu, hfu1]
      · have h0 := ih k (j + 1) (acc ++ [to_feature a.surfs[k]]) (by omega) hk
        rw [hcnt1] at h0
        rw [emit_loop_push areas fuel k j ns acc a _ ha hf hns_ne, if_neg hend, h0]
        rw [hlayer]
        by_cases hfu : (max_len areas - k) * areas.length + (areas.length - (j + 1)) ≤ fuel
        · have hfu1 : (max_len areas - k) * areas.length + (areas.length - j) ≤ fuel + 1 := by
            omega
          simp [hfu, hfu1]
        · have hfu1 : ¬ (max_len areas - k) * areas.length + (areas.length - j) ≤ fuel + 1 := by
            omega
          simp [hfu, hfu1]
    · -- the area is skipped
      have hlen1 : a.surfs.length ≤ k := by omega
      have hlayer : layer (areas.drop j) k = layer (areas.drop (j + 1)) k := by
        rw [hdrop]
        simp [layer, List.getElem?_eq_none hlen1]
      have hcnt1 : (areas.take (j + 1)).countP (fun a => decide (a.surfs.length ≤ k)) =
          ns + 1 := by
        rw [hcnt, if_pos hlen1]
      by_cases hend : j + 1 = areas.length
      · have hd1 : areas.drop (j + 1) = [] := List.drop_eq_nil_of_le (by omega)
        have htake : areas.take (j + 1) = areas := List.take_of_length_le (by omega)
        rw [htake] at hcnt1
        by_cases hstop : ns + 1 = areas.length
        · -- every area was skipped in this pass: the loop is left
          have hall : ∀ b ∈ areas, b.surfs.length ≤ k :=
            (skip_count_eq_length areas k).1 (by rw [hcnt1, hstop])
          have hkM : k = max_len areas := le_antisymm hk (max_len_le hall)
          have e2 : (max_len areas - k) * areas.length + (areas.length - j) = 1 := by
            rw [hkM]; simp; omega
          rw [emit_loop_skip areas fuel k j ns acc a ha hlen1, if_pos hstop]
          rw [hlayer, hd1, e2]
          have : max_len areas - (k + 1) = 0 := by omega
          simp [this, layer]
        · have hkM : k + 1 ≤ max_len areas := by
            by_contra hcon
            have hall : ∀ b ∈ areas, b.surfs.length ≤ k := fun b hb =>
              le_trans (le_max_len hb) (by omega)
            have := (skip_count_eq_length areas k).2 hall
            rw [hcnt1] at this
            exact hstop this
          have h0 := ih (k + 1) 0 acc (by omega) hkM
          simp only [List.take_zero, List.countP_nil, List.drop_zero] at h0
          have hrange := layers_from areas (k + 1) hkM
          rw [emit_loop_skip areas fuel k j ns acc a ha hlen1, if_neg hstop, if_pos hend, h0]
          rw [hlayer, hd1, ← hrange]
          have e1 : (max_len areas - (k + 1)) * areas.length + (areas.length - 0) =
              (max_len areas - k) * areas.length := by
            have : max_len areas - k = (max_len areas - (k + 1)) + 1 := by omega
            rw [this, Nat.add_mul]; omega
          have e2 : (max_len areas - k) * areas.length + (areas.length - j) =
              (max_len areas - k) * areas.length + 1 := by omega
          rw [e1, e2]
          by_cases hfu : (max_len areas - k) * areas.length ≤ fuel
          · have hfu1 : (max_len areas - k) * areas.length + 1 ≤ fuel + 1 := by omega
            simp [hfu, hfu1, layer]
          · have hfu1 : ¬ (max_len areas - k) * areas.length + 1 ≤ fuel + 1 := by omega
            simp [hfu, hfu1]
      · have hstop : ¬ ns + 1 = areas.length := by omega
        have h0 := ih k (j + 1) acc (by omega) hk
        rw [hcnt1] at h0
        rw [emit_loop_skip areas fuel k j ns acc a ha hlen1, if_neg hstop, if_neg hend, h0]
        rw [hlayer]
        by_cases hfu : (max_len areas - k) * areas.length + (areas.length - (j + 1)) ≤ fuel
        · have hfu1 : (max_len areas - k) * areas.length + (areas.length - j) ≤ fuel + 1 := by
            omega
          simp [hfu, hfu1]
        · have hfu1 : ¬ (max_len areas - k) * areas.length + (areas.length - j) ≤ fuel + 1 := by
            omega
          simp [hfu, hfu1]

/-- The emission loop started as in `detect` : it returns the round-robin sequence
as soon as the fuel covers one pass per layer and one more, and not before. -/
theorem emit_loop_run (areas : List ImageArea) (h : areas ≠ []) (fuel : ℕ) :
    emit_loop areas fuel ⟨0, 0, 0, []⟩ =
      if emit_fuel areas ≤ fuel then some (round_robin areas) else none := by
  have hpos : 0 < areas.length := List.length_pos.2 h
  have h0 := emit_loop_spec areas fuel 0 0 [] hpos (Nat.zero_le _)
  simp only [List.take_zero, List.countP_nil, List.drop_zero, List.nil_append,
    Nat.sub_zero] at h0
  rw [h0, layers_from areas 0 (Nat.zero_le _)]
  have e : max_len areas * areas.length + areas.length = emit_fuel areas := by
    simp [emit_fuel, Nat.add_mul]
  rw [e, round_robin, List.range_eq_range', Nat.sub_zero]

theorem length_layer (areas : List ImageArea) (k : ℕ) :
    (layer areas k).length = areas.countP (fun a => decide (k < a.surfs.length)) := by
  induction areas with
  | nil => rfl
  | cons a rest ih =>
    rw [List.countP_cons, ← ih]
    by_cases h : k < a.surfs.length
    · simp [layer, List.getElem?_eq_getElem h, h]
    · simp [layer, List.getElem?_eq_none (not_lt.1 h), h]

theorem bin_points_eq (W H B : ℤ) (pts : List Ipoint) :
    ∀ areas : List ImageArea, bin_points W H B pts areas =
      areas.map fun a => { a with surfs := a.surfs ++ pts.filter fun p => in_area W H B p a } := by
  induction pts with
  | nil => intro areas; simp [bin_points]
  | cons p rest ih =>
    intro areas
    have hstep : bin_points W H B (p :: rest) areas =
        bin_points W H B rest (areas.map fun a =>
          if in_area W H B p a then { a with surfs := a.surfs ++ [p] } else a) := rfl
    rw [hstep, ih, List.map_map]
    apply List.map_congr_left
    intro a _
    by_cases h : in_area W H B p a = true
    · simp only [Function.comp_apply, h, if_true, List.filter_cons]
      exact congrArg (ImageArea.mk a.area) (by rw [List.append_assoc]; rfl)
    · have h1 : in_area W H B p a = false := by simpa using h
      simp only [Function.comp_apply, h1, List.filter_cons]
      rfl

theorem length_std_sort (l : List Ipoint) : (std_sort l).length = l.length :=
  List.length_insertionSort _ l

theorem mem_std_sort {l : List Ipoint} {p : Ipoint} : p ∈ std_sort l ↔ p ∈ l :=
  (List.perm_insertionSort _ l).mem_iff

theorem process_area_spec (d : ℚ) (q : ℤ) (a : ImageArea) :
    ∃ a1, process_area d q a = some a1 ∧ Processed d q a a1 := by
  by_cases h : a.surfs.length < 2
  · refine ⟨a, by simp [process_area, h], rfl, le_rfl, fun _ => rfl, fun h2 => by omega,
      fun h2 => by omega, fun p hp => hp, fun h2 => by omega⟩
  · have hlen : 1 ≤ (std_sort a.surfs).length := by rw [length_std_sort]; omega
    obtain ⟨r, hr, r1, r2, r3, r4, r5⟩ := dedup_spec d (std_sort a.surfs) hlen
    rw [length_std_sort] at r2
    by_cases hcut : (r.length : ℤ) > q
    · have hq : q.toNat ≤ r.length := by omega
      refine ⟨{ a with surfs := resize r q.toNat }, by simp [process_area, h, hr, hcut], rfl,
        ?_, fun h2 => by omega, fun _ => ?_, fun _ hq1 => ⟨?_, ?_⟩, fun p hp => ?_,
        fun _ i j x y hij hx hy => ?_⟩
      · simp only [resize_of_le _ _ hq, List.length_take]; omega
      · simp only [resize_of_le _ _ hq, List.length_take]; omega
      · simp only [resize_of_le _ _ hq]
        rw [List.getElem?_take_of_lt (by omega), r3]
      · simp only [resize_of_le _ _ hq, List.length_take]; omega
      · simp only [resize_of_le _ _ hq] at hp
        exact mem_std_sort.1 (r5 p (List.mem_of_mem_take hp))
      · simp only [resize_of_le _ _ hq] at hx hy
        have hj : j < q.toNat := by
          by_contra hj
          rw [List.getElem?_take_eq_none (by omega)] at hy
          cases hy
        rw [List.getElem?_take_of_lt (by omega)] at hx
        rw [List.getElem?_take_of_lt hj] at hy
        exact r4 i j x y hij hx hy
    · refine ⟨{ a with surfs := r }, by simp [process_area, h, hr, hcut], rfl, r2,
        fun h2 => by omega, fun _ => ?_, fun _ _ => ⟨r3, r1⟩,
        fun p hp => mem_std_sort.1 (r5 p hp), fun _ i j x y hij hx hy => r4 i j x y hij hx hy⟩
      show (r.length : ℤ) ≤ max q 0
      exact le_trans (not_lt.1 hcut) (le_max_left _ _)

theorem process_areas_spec (d : ℚ) (q : ℤ) :
    ∀ areas : List ImageArea, ∃ areas1, process_areas d q areas = some areas1 ∧
      List.Forall₂ (Processed d q) areas areas1 := by
  intro areas
  induction areas with
  | nil => exact ⟨[], rfl, List.Forall₂.nil⟩
  | cons a rest ih =>
    obtain ⟨a1, ha1, hp⟩ := process_area_spec d q a
    obtain ⟨rest1, hrest, hf⟩ := ih
    exact ⟨a1 :: rest1, by simp [process_areas, ha1, hrest], List.Forall₂.cons hp hf⟩

/-! ## Quota arithmetic -/

theorem truncInt_of_nonneg {q : ℚ} (h : 0 ≤ q) : truncInt q = ⌊q⌋ := by
  simp [truncInt, h]

theorem num_extra_foldl (q : ℤ) (areas : List ImageArea) :
    ∀ acc : ℤ,
      areas.foldl
        (fun acc a =>
          if (a.surfs.length : ℤ) < q then acc + (q - (a.surfs.length : ℤ)) else acc) acc =
      acc + (areas.map fun a =>
        if (a.surfs.length : ℤ) < q then q - (a.surfs.length : ℤ) else 0).sum := by
  induction areas with
  | nil => intro acc; simp
  | cons a rest ih =>
    intro acc
    rw [List.foldl_cons, ih, List.map_cons, List.sum_cons]
    by_cases h : (a.surfs.length : ℤ) < q
    · simp only [h, if_true]; ring
    · simp only [h, if_false]; ring

theorem num_extra_eq (q : ℤ) (areas : List ImageArea) :
    num_extra_pts_available q areas =
      (areas.map fun a =>
        if (a.surfs.length : ℤ) < q then q - (a.surfs.length : ℤ) else 0).sum := by
  rw [num_extra_pts_available, num_extra_foldl, zero_add]

theorem num_extra_nonneg (q : ℤ) (areas : List ImageArea) :
    0 ≤ num_extra_pts_available q areas := by
  rw [num_extra_eq]
  apply List.sum_nonneg
  intro x hx
  obtain ⟨a, _, rfl⟩ := List.mem_map.1 hx
  by_cases h : (a.surfs.length : ℤ) < q
  · simp only [h, if_true]; omega
  · simp only [h, if_false]; exact le_rfl

theorem base_quota_nonneg (max_features : ℕ) (areas : List ImageArea) :
    0 ≤ base_quota max_features areas :=
  Int.ofNat_nonneg _

/-- Line 219 in integer arithmetic: the quota is the base quota plus the integer
quotient of the deficits by the number of areas. -/
theorem final_quota_eq (max_features : ℕ) (areas : List ImageArea) :
    final_quota max_features areas =
      base_quota max_features areas +
        num_extra_pts_available (base_quota max_features areas) areas / (areas.length : ℤ) := by
  have h1 := base_quota_nonneg max_features areas
  have h2 := num_extra_nonneg (base_quota max_features areas) areas
  have h3 : (0 : ℚ) ≤ ((base_quota max_features areas : ℤ) : ℚ) +
      ((num_extra_pts_available (base_quota max_features areas) areas : ℤ) : ℚ) /
        ((areas.length : ℕ) : ℚ) := by
    apply add_nonneg
    · exact_mod_cast h1
    · apply div_nonneg
      · exact_mod_cast h2
      · exact Nat.cast_nonneg _
  rw [final_quota, truncInt_of_nonneg h3, Int.floor_int_add, Rat.floor_intCast_div_natCast]

/-! ## Quota with the integer widths and the single precision of the source -/

theorem to_int_of_range (n : ℤ) (h1 : -2147483648 ≤ n) (h2 : n ≤ 2147483647) :
    to_int n = n := by
  unfold to_int
  omega

theorem to_size_t_of_range (n : ℤ) (h1 : 0 ≤ n) (h2 : n < 18446744073709551616) :
    to_size_t n = n := by
  unfold to_size_t
  omega

theorem int_result_of_range (n : ℤ) (h1 : -2147483648 ≤ n) (h2 : n ≤ 2147483647) :
    int_result n = some n := by
  unfold int_result
  rw [if_pos ⟨h1, h2⟩]

theorem deficits_le (q : ℤ) (hq : 0 ≤ q) (areas : List ImageArea) :
    (areas.map fun a =>
      if (a.surfs.length : ℤ) < q then q - (a.surfs.length : ℤ) else 0).sum ≤
      (areas.length : ℤ) * q := by
  induction areas with
  | nil => simp
  | cons a rest ih =>
    rw [List.map_cons, List.sum_cons, List.length_cons]
    push_cast
    have h1 : (if (a.surfs.length : ℤ) < q then q - (a.surfs.length : ℤ) else 0) ≤ q := by
      split_ifs <;> omega
    linarith

theorem deficits_nonneg (q : ℤ) (areas : List ImageArea) :
    0 ≤ (areas.map fun a =>
      if (a.surfs.length : ℤ) < q then q - (a.surfs.length : ℤ) else 0).sum := by
  apply List.sum_nonneg
  intro x hx
  obtain ⟨a, _, rfl⟩ := List.mem_map.1 hx
  split_ifs <;> omega

/-- While the sum of the deficits stays an `int` value, the machine accumulation
of lines 213-218 is the exact one. -/
theorem num_extra_machine_foldl (q : ℤ) (hq0 : 0 ≤ q) (hq1 : q ≤ 2147483647)
    (areas : List ImageArea) :
    ∀ acc : ℤ, 0 ≤ acc → acc + (areas.length : ℤ) * q ≤ 2147483647 →
      areas.foldl
        (fun acc a =>
          match acc with
          | none => none
          | some e =>
            if (a.surfs.length : ℤ) < to_size_t q then
              int_result (e + to_int (to_size_t (to_size_t q - (a.surfs.length : ℤ))))
            else some e)
        (some acc) =
      some (acc + (areas.map fun a =>
        if (a.surfs.length : ℤ) < q then q - (a.surfs.length : ℤ) else 0).sum) := by
  have hs : to_size_t q = q := to_size_t_of_range q hq0 (by omega)
  induction areas with
  | nil =>
    intro acc _ _
    simp
  | cons a rest ih =>
    intro acc h0 h1
    rw [List.length_cons] at h1
    push_cast at h1
    have hrest : 0 ≤ (rest.length : ℤ) * q := mul_nonneg (Int.ofNat_nonneg _) hq0
    rw [List.foldl_cons, List.map_cons, List.sum_cons, hs]
    by_cases h : (a.surfs.length : ℤ) < q
    · have hlen : (0 : ℤ) ≤ (a.surfs.length : ℤ) := Int.ofNat_nonneg _
      have e1 : to_size_t (q - (a.surfs.length : ℤ)) = q - (a.surfs.length : ℤ) :=
        to_size_t_of_range _ (by omega) (by omega)
      have e2 : to_int (q - (a.surfs.length : ℤ)) = q - (a.surfs.length : ℤ) :=
        to_int_of_range _ (by omega) (by omega)
      have e3 : int_result (acc + (q - (a.surfs.length : ℤ))) =
          some (acc + (q - (a.surfs.length : ℤ))) :=
        int_result_of_range _ (by omega) (by nlinarith)
      simp only [h, if_true, e1, e2, e3]
      rw [← hs, ih (acc + (to_size_t q - (a.surfs.length : ℤ))) (by rw [hs]; omega)
        (by rw [hs]; nlinarith)]
      rw [hs]
      congr 1
      ring
    · simp only [h, if_false]
      rw [← hs, ih acc h0 (by nlinarith)]
      rw [hs]
      congr 1
      ring

theorem num_extra_machine_eq (q : ℤ) (hq0 : 0 ≤ q) (areas : List ImageArea)
    (h : (areas.length : ℤ) * q ≤ 2147483647) :
    num_extra_pts_machine q areas = some (num_extra_pts_available q areas) := by
  by_cases hnil : areas = []
  · subst hnil
    rfl
  · have hlen : 1 ≤ (areas.length : ℤ) := by
      have := List.length_pos.2 hnil
      omega
    have hq1 : q ≤ 2147483647 := by nlinarith
    rw [num_extra_pts_machine, num_extra_machine_foldl q hq0 hq1 areas 0 le_rfl (by omega),
      num_extra_eq, zero_add]

/-- A rounding chain around a value `q + x` with `x` off the integers by at least
`dl` : two roundings of relative error `2 ^ (-24)` do not cross an integer. -/
theorem two_roundings_between (q a dl x y z : ℚ) (hq : 0 ≤ q) (ha : 0 ≤ a) (hdl : 0 < dl)
    (hx1 : a + dl ≤ x) (hx2 : x ≤ a + 1 - dl)
    (hK : (q + a + 1) / 16777216 ≤ 3 / 16 * dl)
    (hy : |y - x| ≤ |x| / 2 ^ 24) (hz : |z - (q + y)| ≤ |q + y| / 2 ^ 24) :
    q + a ≤ z ∧ z < q + a + 1 := by
  have hx0 : 0 < x := by linarith
  rw [abs_of_pos hx0, abs_le] at hy
  obtain ⟨y1, y2⟩ := hy
  have hy0 : 0 < y := by
    have : x / 2 ^ 24 ≤ x / 2 := by
      apply div_le_div_of_nonneg_left (le_of_lt hx0) (by norm_num) (by norm_num)
    linarith
  have hw0 : 0 < q + y := by linarith
  rw [abs_of_pos hw0, abs_le] at hz
  obtain ⟨z1, z2⟩ := hz
  have e24 : (2 : ℚ) ^ 24 = 16777216 := by norm_num
  rw [e24] at y1 y2 z1 z2
  have hxK : q + x ≤ q + a + 1 := by linarith
  have hy3 : y ≤ x + x / 16777216 := by linarith
  have hy4 : x - x / 16777216 ≤ y := by linarith
  have hw1 : q + y ≤ (q + x) + (q + x) / 16777216 := by
    have : 0 ≤ q / 16777216 := div_nonneg hq (by norm_num)
    linarith
  have hw2 : (q + x) - (q + x) / 16777216 ≤ q + y := by
    have : 0 ≤ q / 16777216 := div_nonneg hq (by norm_num)
    linarith
  have hqx : 0 ≤ q + x := by linarith
  constructor
  · have h1 : q + y - (q + y) / 16777216 ≤ z := by linarith
    have h2 : (q + x) - 2 * ((q + x) / 16777216) ≤ q + y - (q + y) / 16777216 := by
      have : (q + y) / 16777216 ≤ ((q + x) + (q + x) / 16777216) / 16777216 :=
        div_le_div_of_nonneg_right hw1 (by norm_num)
      have h3 : (q + x) / 16777216 / 16777216 ≤ (q + x) / 16777216 := by
        apply div_le_self (div_nonneg hqx (by norm_num)) (by norm_num)
      have h4 : ((q + x) + (q + x) / 16777216) / 16777216 =
          (q + x) / 16777216 + (q + x) / 16777216 / 16777216 := by ring
      -- a tighter route: (q+y)/2^24 <= (q+x)/2^24 + (q+x)/2^48
      nlinarith [hw2, this, h3, h4]
    have h5 : (q + x) / 16777216 ≤ (q + a + 1) / 16777216 :=
      div_le_div_of_nonneg_right hxK (by norm_num)
    linarith
  · have h1 : z ≤ q + y + (q + y) / 16777216 := by linarith
    have h2 : (q + y) / 16777216 ≤ ((q + x) + (q + x) / 16777216) / 16777216 :=
      div_le_div_of_nonneg_right hw1 (by norm_num)
    have h3 : (q + x) / 16777216 / 16777216 ≤ (q + x) / 16777216 := by
      apply div_le_self (div_nonneg hqx (by norm_num)) (by norm_num)
    have h4 : ((q + x) + (q + x) / 16777216) / 16777216 =
        (q + x) / 16777216 + (q + x) / 16777216 / 16777216 := by ring
    have h5 : (q + x) / 16777216 ≤ (q + a + 1) / 16777216 :=
      div_le_div_of_nonneg_right hxK (by norm_num)
    linarith

/-- The single-precision sum of line 219 for values up to `2 ^ 20` : the `float`
result lies between the exact integer result and the next integer. -/
theorem float_quota_bounds (q e c : ℤ) (hq : 0 ≤ q) (he : 0 ≤ e) (hc : 1 ≤ c)
    (hq1 : c * q ≤ 1048576) (he1 : e ≤ 1048576) (hc1 : c ≤ 1048576) :
    ((q + e / c : ℤ) : ℚ) ≤
      to_float (to_float (q : ℚ) + to_float (to_float (e : ℚ) / to_float (c : ℚ))) ∧
    to_float (to_float (q : ℚ) + to_float (to_float (e : ℚ) / to_float (c : ℚ))) <
      ((q + e / c : ℤ) : ℚ) + 1 := by
  have hqle : q ≤ 1048576 := by nlinarith
  have fq : to_float (q : ℚ) = (q : ℚ) :=
    to_float_intCast q (by rw [abs_of_nonneg hq]; norm_num; omega)
  have fe : to_float (e : ℚ) = (e : ℚ) :=
    to_float_intCast e (by rw [abs_of_nonneg he]; norm_num; omega)
  have fc : to_float (c : ℚ) = (c : ℚ) :=
    to_float_intCast c (by rw [abs_of_nonneg (by omega)]; norm_num; omega)
  rw [fq, fe, fc]
  have hcq : (0 : ℚ) < (c : ℚ) := by exact_mod_cast (show (0 : ℤ) < c by omega)
  have hdiv := Int.ediv_add_emod e c
  have hr0 := Int.emod_nonneg e (show c ≠ 0 by omega)
  have hr1 := Int.emod_lt_of_pos e (show 0 < c by omega)
  have ha0 : 0 ≤ e / c := Int.ediv_nonneg he (by omega)
  have hca : c * (e / c) ≤ 1048576 := by omega
  have hale : e / c ≤ 1048576 := by nlinarith
  have hx : (e : ℚ) / (c : ℚ) = ((e / c : ℤ) : ℚ) + ((e % c : ℤ) : ℚ) / (c : ℚ) := by
    field_simp
    have : ((c * (e / c) + e % c : ℤ) : ℚ) = (e : ℚ) := by rw [hdiv]
    push_cast at this
    linarith
  by_cases hr : e % c = 0
  · rw [hr] at hx
    simp only [Int.cast_zero, zero_div, add_zero] at hx
    rw [hx]
    have fa : to_float ((e / c : ℤ) : ℚ) = ((e / c : ℤ) : ℚ) :=
      to_float_intCast _ (by rw [abs_of_nonneg ha0]; norm_num; omega)
    rw [fa]
    have fs : to_float ((q : ℚ) + ((e / c : ℤ) : ℚ)) = ((q + e / c : ℤ) : ℚ) := by
      rw [← Int.cast_add]
      exact to_float_intCast _ (by rw [abs_of_nonneg (by omega)]; norm_num; omega)
    rw [fs]
    constructor
    · exact le_rfl
    · linarith
  · have hr2 : 1 ≤ e % c := by omega
    have hdl : (0 : ℚ) < 1 / (c : ℚ) := by positivity
    have hx1 : ((e / c : ℤ) : ℚ) + 1 / (c : ℚ) ≤ (e : ℚ) / (c : ℚ) := by
      rw [hx]
      have : (1 : ℚ) / (c : ℚ) ≤ ((e % c : ℤ) : ℚ) / (c : ℚ) :=
        div_le_div_of_nonneg_right (by exact_mod_cast hr2) (le_of_lt hcq)
      linarith
    have hx2 : (e : ℚ) / (c : ℚ) ≤ ((e / c : ℤ) : ℚ) + 1 - 1 / (c : ℚ) := by
      rw [hx]
      have h1 : ((e % c : ℤ) : ℚ) ≤ (c : ℚ) - 1 := by
        have : e % c ≤ c - 1 := by omega
        exact_mod_cast this
      have h2 : ((e % c : ℤ) : ℚ) / (c : ℚ) ≤ ((c : ℚ) - 1) / (c : ℚ) :=
        div_le_div_of_nonneg_right h1 (le_of_lt hcq)
      have h3 : ((c : ℚ) - 1) / (c : ℚ) = 1 - 1 / (c : ℚ) := by
        field_simp
      linarith
    have hK : ((q : ℚ) + ((e / c : ℤ) : ℚ) + 1) / 16777216 ≤ 3 / 16 * (1 / (c : ℚ)) := by
      have h1 : (c : ℚ) * (q : ℚ) ≤ 1048576 := by exact_mod_cast hq1
      have h2 : (c : ℚ) * ((e / c : ℤ) : ℚ) ≤ 1048576 := by exact_mod_cast hca
      have h3 : (c : ℚ) ≤ 1048576 := by exact_mod_cast hc1
      have e1 : (3 : ℚ) / 16 * (1 / (c : ℚ)) = (3 / 16) / (c : ℚ) := by ring
      rw [e1, le_div_iff₀ hcq]
      have e2 : ((q : ℚ) + ((e / c : ℤ) : ℚ) + 1) / 16777216 * (c : ℚ) =
          ((c : ℚ) * (q : ℚ) + (c : ℚ) * ((e / c : ℤ) : ℚ) + (c : ℚ)) / 16777216 := by ring
      rw [e2, div_le_iff₀ (by norm_num)]
      linarith
    have hxpos : (0 : ℚ) < (e : ℚ) / (c : ℚ) := by
      have : (0 : ℚ) ≤ ((e / c : ℤ) : ℚ) := by exact_mod_cast ha0
      linarith
    have hxbig : (1 : ℚ) / 2 ^ 126 ≤ |(e : ℚ) / (c : ℚ)| := by
      rw [abs_of_pos hxpos]
      have h1 : (1 : ℚ) / 1048576 ≤ 1 / (c : ℚ) := by
        apply div_le_div_of_nonneg_left (by norm_num) hcq
        exact_mod_cast hc1
      have h2 : (1 : ℚ) / 2 ^ 126 ≤ 1 / 1048576 := by norm_num
      have : (0 : ℚ) ≤ ((e / c : ℤ) : ℚ) := by exact_mod_cast ha0
      linarith
    have hy := to_float_rel_error _ hxbig
    have hy0 : (1 : ℚ) / 2 ^ 126 ≤ |(q : ℚ) + to_float ((e : ℚ) / (c : ℚ))| := by
      have hy1 := hy
      rw [abs_of_pos hxpos, abs_le] at hy1
      have h1 : (1 : ℚ) / 1048576 ≤ 1 / (c : ℚ) := by
        apply div_le_div_of_nonneg_left (by norm_num) hcq
        exact_mod_cast hc1
      have h3 : (e : ℚ) / (c : ℚ) / 2 ^ 24 ≤ (e : ℚ) / (c : ℚ) / 2 := by
        apply div_le_div_of_nonneg_left (le_of_lt hxpos) (by norm_num) (by norm_num)
      have h4 : (0 : ℚ) ≤ (q : ℚ) := by exact_mod_cast hq
      have h5 : (0 : ℚ) ≤ ((e / c : ℤ) : ℚ) := by exact_mod_cast ha0
      have h6 : (1 : ℚ) / 2 ^ 126 ≤ 1 / 1048576 / 2 := by norm_num
      have hpos : 0 < (q : ℚ) + to_float ((e : ℚ) / (c : ℚ)) := by linarith
      rw [abs_of_pos hpos]
      linarith
    have hz := to_float_rel_error _ hy0
    have hres := two_roundings_between (q : ℚ) ((e / c : ℤ) : ℚ) (1 / (c : ℚ)) _ _ _
      (by exact_mod_cast hq) (by exact_mod_cast ha0) hdl hx1 hx2 hK hy hz
    push_cast
    exact hres

/-- For `max_features` up to `2 ^ 20` the quota computed with the integer widths
and the single precision of the source is the exact one. -/
theorem points_per_area_machine_eq (max_features : ℕ) (areas : List ImageArea)
    (hne : areas ≠ []) (hmax : max_features ≤ 1048576) :
    points_per_area_machine max_features areas = some (final_quota max_features areas) := by
  have hlen : 0 < areas.length := List.length_pos.2 hne
  have hlen0 : ¬ areas.length = 0 := by omega
  have hq0 : (0 : ℤ) ≤ ((max_features / areas.length : ℕ) : ℤ) := Int.ofNat_nonneg _
  have hcqn : areas.length * (max_features / areas.length) ≤ max_features :=
    Nat.mul_div_le _ _
  have hcq : (areas.length : ℤ) * ((max_features / areas.length : ℕ) : ℤ) ≤ 1048576 := by
    have : ((areas.length * (max_features / areas.length) : ℕ) : ℤ) ≤ 1048576 := by
      exact_mod_cast le_trans hcqn hmax
    simpa using this
  have hqle : ((max_features / areas.length : ℕ) : ℤ) ≤ 1048576 := by
    have : max_features / areas.length ≤ max_features := Nat.div_le_self _ _
    omega
  have hti : to_int ((max_features / areas.length : ℕ) : ℤ) =
      ((max_features / areas.length : ℕ) : ℤ) := to_int_of_range _ (by omega) (by omega)
  have hextra := num_extra_machine_eq _ hq0 areas (by omega)
  have he0 := num_extra_nonneg ((max_features / areas.length : ℕ) : ℤ) areas
  have he1 : num_extra_pts_available ((max_features / areas.length : ℕ) : ℤ) areas ≤
      1048576 := by
    rw [num_extra_eq]
    exact le_trans (deficits_le _ hq0 areas) hcq
  have hfin := final_quota_eq max_features areas
  rw [base_quota] at hfin
  rw [points_per_area_machine, if_neg hlen0, hti, hextra]
  simp only []
  have hcast : ((areas.length : ℕ) : ℚ) = (((areas.length : ℤ)) : ℚ) := by simp
  rw [hcast]
  by_cases hq : ((max_features / areas.length : ℕ) : ℤ) = 0
  · have hez : num_extra_pts_available ((max_features / areas.length : ℕ) : ℤ) areas = 0 := by
      have h1 : num_extra_pts_available ((max_features / areas.length : ℕ) : ℤ) areas ≤ 0 := by
        rw [num_extra_eq]
        have := deficits_le _ hq0 areas
        rw [hq, mul_zero] at this
        rw [hq]
        exact this
      omega
    rw [hfin, hez, hq]
    have hz : to_float ((0 : ℤ) : ℚ) = 0 := by
      rw [Int.cast_zero]
      exact round_to_format_zero _ _
    rw [hz, zero_div]
    have hz1 : to_float (0 : ℚ) = 0 := round_to_format_zero _ _
    rw [hz1, add_zero, hz1]
    simp [truncInt, int_result]
  · have hq1 : 1 ≤ ((max_features / areas.length : ℕ) : ℤ) := by omega
    have hc1 : (areas.length : ℤ) ≤ 1048576 :=
      le_trans (le_mul_of_one_le_right (Int.ofNat_nonneg _) hq1) hcq
    obtain ⟨b1, b2⟩ := float_quota_bounds _ _ (areas.length : ℤ) hq0 he0 (by omega) hcq he1 hc1
    have hnn : (0 : ℚ) ≤ to_float (to_float ((((max_features / areas.length : ℕ) : ℤ)) : ℚ) +
        to_float (to_float
          ((num_extra_pts_available ((max_features / areas.length : ℕ) : ℤ) areas : ℤ) : ℚ) /
          to_float (((areas.length : ℤ)) : ℚ))) := by
      refine le_trans ?_ b1
      have : (0 : ℤ) ≤ ((max_features / areas.length : ℕ) : ℤ) +
          num_extra_pts_available ((max_features / areas.length : ℕ) : ℤ) areas /
            (areas.length : ℤ) := add_nonneg hq0 (Int.ediv_nonneg he0 (by omega))
      exact_mod_cast this
    have hfl : truncInt (to_float (to_float ((((max_features / areas.length : ℕ) : ℤ)) : ℚ) +
        to_float (to_float
          ((num_extra_pts_available ((max_features / areas.length : ℕ) : ℤ) areas : ℤ) : ℚ) /
          to_float (((areas.length : ℤ)) : ℚ)))) =
        ((max_features / areas.length : ℕ) : ℤ) +
          num_extra_pts_available ((max_features / areas.length : ℕ) : ℤ) areas /
            (areas.length : ℤ) := by
      rw [truncInt_of_nonneg hnn, Int.floor_eq_iff]
      exact ⟨b1, b2⟩
    rw [hfl, hfin]
    have hdiv0 := Int.ediv_nonneg he0 (show (0 : ℤ) ≤ (areas.length : ℤ) by omega)
    have hdiv1 : num_extra_pts_available ((max_features / areas.length : ℕ) : ℤ) areas /
        (areas.length : ℤ) ≤ 1048576 :=
      le_trans (Int.ediv_le_self _ he0) he1
    exact int_result_of_range _ (by omega) (by omega)

/-! ## Bounds on the number of features -/

theorem length_new_areas (W H : ℤ) : (new_areas W H 4).length = 16 := by
  simp [new_areas, List.range, List.range.loop, List.flatMap]

theorem length_create_areas (W H B : ℤ) (pts : List Ipoint) (areas : List ImageArea) :
    (create_areas W H 4 B pts areas).length = areas.length + 16 := by
  rw [create_areas, bin_points_eq, List.length_map, List.length_append, length_new_areas]

theorem clear_areas (s : FeatureSetImpl) : (clear s).areas = s.areas := rfl

/-- A call of `detect` on a one-channel image with a non-empty detector output
returns normally: the areas are those of `create_areas` after `process_areas` and
the features are their round-robin sequence. -/
theorem detect_run (d : ℚ) (s : FeatureSetImpl) (cols rows : ℤ) (ipts : List Ipoint)
    (max_features : ℕ) (hi : ipts ≠ []) :
    ∃ areas1,
      process_areas d
        (final_quota max_features
          (create_areas cols rows 4 (max (truncInt ((cols : ℚ) / 30)) 2) ipts s.areas))
        (create_areas cols rows 4 (max (truncInt ((cols : ℚ) / 30)) 2) ipts s.areas) =
          some areas1 ∧
      List.Forall₂
        (Processed d (final_quota max_features
          (create_areas cols rows 4 (max (truncInt ((cols : ℚ) / 30)) 2) ipts s.areas)))
        (create_areas cols rows 4 (max (truncInt ((cols : ℚ) / 30)) 2) ipts s.areas) areas1 ∧
      areas1 ≠ [] ∧
      detect d s 1 cols rows ipts max_features =
        some (clear_kdtree { clear s with areas := areas1, fts := round_robin areas1 }, none) := by
  have hlen : ipts.length > 0 := List.length_pos.2 hi
  obtain ⟨areas1, hrun, hf⟩ := process_areas_spec d
    (final_quota max_features
      (create_areas cols rows 4 (max (truncInt ((cols : ℚ) / 30)) 2) ipts s.areas))
    (create_areas cols rows 4 (max (truncInt ((cols : ℚ) / 30)) 2) ipts s.areas)
  have hne : areas1 ≠ [] := by
    intro h0
    have := hf.length_eq
    rw [length_create_areas, h0] at this
    simp at this
  have hloop := emit_loop_run areas1 hne (emit_fuel areas1)
  simp only [le_refl, if_true] at hloop
  refine ⟨areas1, hrun, hf, hne, ?_⟩
  simp only [detect, ne_eq, not_true, if_false, hlen, if_true, clear_areas, hrun, hloop]

theorem detect_no_points (d : ℚ) (s : FeatureSetImpl) (cols rows : ℤ) (max_features : ℕ) :
    detect d s 1 cols rows [] max_features = some (clear_kdtree (clear s), none) := by
  simp [detect]

theorem detect_bad_channels (d : ℚ) (s : FeatureSetImpl) (channels : ℕ) (cols rows : ℤ)
    (ipts : List Ipoint) (max_features : ℕ) (h : channels ≠ 1) :
    detect d s channels cols rows ipts max_features =
      some (clear s, some FeatureExtractorException.onlyOneChannel) := by
  simp [detect, h]

/-! ## Distances -/

theorem dist2d_comm (a b : Ipoint) : dist2d a b = dist2d b a := by
  have hx : to_float (a.x - b.x) = -to_float (b.x - a.x) := by
    rw [← to_float_neg, neg_sub]
  have hy : to_float (a.y - b.y) = -to_float (b.y - a.y) := by
    rw [← to_float_neg, neg_sub]
  simp only [dist2d, hx, hy, neg_mul_neg]

theorem dist2d_far_iff (a b : Ipoint) (d : ℚ) :
    dist2d_lt a b d = false ↔ d ≤ dist2d a b := by
  simp [dist2d_lt]

/-- The square of a rounded difference against the square of the difference. -/
theorem to_float_sq_le (x : ℚ) :
    to_float x * to_float x ≤
      ((1 + 1 / 2 ^ 24) * (1 + 1 / 2 ^ 24) + (1 + 1 / 2 ^ 24) * (1 / 2 ^ 150)) * (x * x) +
        ((1 + 1 / 2 ^ 24) * (1 / 2 ^ 150) + 1 / 2 ^ 150 * (1 / 2 ^ 150)) := by
  have h := to_float_abs_error x
  have h1 : |to_float x| ≤ |x| * (1 + 1 / 2 ^ 24) + 1 / 2 ^ 150 := by
    have := abs_sub_abs_le_abs_sub (to_float x) x
    have e : |x| * (1 + 1 / 2 ^ 24) = |x| + |x| / 2 ^ 24 := by ring
    rw [e]
    linarith
  have h0 : 0 ≤ |to_float x| := abs_nonneg _
  have hx0 : 0 ≤ |x| := abs_nonneg _
  have h2 := mul_le_mul h1 h1 h0 (le_trans h0 h1)
  rw [abs_mul_abs_self] at h2
  have hxx : |x| * |x| = x * x := abs_mul_abs_self x
  have h3 : 2 * |x| ≤ 1 + x * x := by
    rw [← hxx]
    nlinarith [sq_nonneg (|x| - 1)]
  have e : (|x| * (1 + 1 / 2 ^ 24) + 1 / 2 ^ 150) * (|x| * (1 + 1 / 2 ^ 24) + 1 / 2 ^ 150) =
      (1 + 1 / 2 ^ 24) * (1 + 1 / 2 ^ 24) * (x * x) +
        (1 + 1 / 2 ^ 24) * (1 / 2 ^ 150) * (2 * |x|) + 1 / 2 ^ 150 * (1 / 2 ^ 150) := by
    rw [← hxx]
    ring
  rw [e] at h2
  have h4 : (1 + 1 / 2 ^ 24) * (1 / 2 ^ 150) * (2 * |x|) ≤
      (1 + 1 / 2 ^ 24) * (1 / 2 ^ 150) * (1 + x * x) :=
    mul_le_mul_of_nonneg_left h3 (by positivity)
  linarith

theorem to_float_le_of_nonneg (x : ℚ) (h : 0 ≤ x) :
    to_float x ≤ (1 + 1 / 2 ^ 24) * x + 1 / 2 ^ 150 := by
  have h1 := to_float_abs_error x
  rw [abs_of_nonneg h, abs_le] at h1
  have e : (1 + 1 / 2 ^ 24) * x = x + x / 2 ^ 24 := by ring
  rw [e]
  linarith [h1.2]

/-- The exact square of the distance against the threshold a pair has passed: when
the distance that `dist2d` computes is at least `d` , the square of `d` exceeds the
exact square of the distance by the factor `1 + 2 ^ (-21)` and the term
`2 ^ (-147)` at most. -/
theorem dist2d_exact_bound (a b : Ipoint) (d : ℚ) (hd : 0 ≤ d) (h : d ≤ dist2d a b) :
    d * d ≤ (1 + 1 / 2 ^ 21) * dist2d_sq a b + 1 / 2 ^ 147 := by
  have hX := to_float_sq_le (a.x - b.x)
  have hY := to_float_sq_le (a.y - b.y)
  have hX0 : 0 ≤ to_float (a.x - b.x) * to_float (a.x - b.x) := mul_self_nonneg _
  have hY0 : 0 ≤ to_float (a.y - b.y) * to_float (a.y - b.y) := mul_self_nonneg _
  have hP := to_float_le_of_nonneg _ hX0
  have hQ := to_float_le_of_nonneg _ hY0
  have hP0 := to_float_nonneg _ hX0
  have hQ0 := to_float_nonneg _ hY0
  have hT := to_float_le_of_nonneg _ (add_nonneg hP0 hQ0)
  have hT0 := to_float_nonneg _ (add_nonneg hP0 hQ0)
  have hxx : 0 ≤ (a.x - b.x) * (a.x - b.x) := mul_self_nonneg _
  have hyy : 0 ≤ (a.y - b.y) * (a.y - b.y) := mul_self_nonneg _
  have hdd : d * d ≤ dist2d a b * dist2d a b := mul_le_mul h h hd (le_trans hd h)
  rcases eq_or_lt_of_le hT0 with h0 | hpos
  · have hr : dist2d a b = 0 := by
      rw [dist2d, ← h0]
      exact sqrt_zero_of_nonpos 0 le_rfl
    rw [hr] at hdd
    rw [dist2d_sq]
    have : (0 : ℚ) ≤ (1 + 1 / 2 ^ 21) * ((a.x - b.x) * (a.x - b.x) +
        (a.y - b.y) * (a.y - b.y)) + 1 / 2 ^ 147 := by positivity
    linarith
  · have hr := sqrt_sq_le _ (to_float_pos_ge _ hpos)
    have hr1 : dist2d a b * dist2d a b ≤ (1 + 1 / 2 ^ 24) * (1 + 1 / 2 ^ 24) *
        to_float (to_float (to_float (a.x - b.x) * to_float (a.x - b.x)) +
          to_float (to_float (a.y - b.y) * to_float (a.y - b.y))) := hr
    rw [dist2d_sq]
    norm_num at hX hY hP hQ hT hr1 ⊢
    linarith

theorem layer_ne_nil {areas : List ImageArea} {k : ℕ} (h : k < max_len areas) :
    layer areas k ≠ [] := by
  intro hnil
  have hlen : (layer areas k).length = 0 := by rw [hnil]; rfl
  rw [length_layer, List.countP_eq_zero] at hlen
  have : max_len areas ≤ k := max_len_le fun a ha => by
    have := hlen a ha
    simpa using this
  omega

/-! ## The first layer -/

theorem forall₂_getElem? {α β : Type} {R : α → β → Prop} {l1 : List α} {l2 : List β}
    (h : List.Forall₂ R l1 l2) :
    ∀ (n : ℕ) (b : β), l2[n]? = some b → ∃ a, l1[n]? = some a ∧ R a b := by
  induction h with
  | nil => intro n b hb; simp at hb
  | @cons a0 b0 r1 r2 h0 _ ih =>
    intro n b hb
    cases n with
    | zero =>
      simp only [List.getElem?_cons_zero, Option.some.injEq] at hb
      subst hb
      exact ⟨a0, List.getElem?_cons_zero, h0⟩
    | succ n =>
      simp only [List.getElem?_cons_succ] at hb ⊢
      exact ih n b hb

theorem new_areas_getElem? (W H : ℤ) (i j : ℕ) (hi : i < 4) (hj : j < 4) :
    (new_areas W H 4)[4 * i + j]? = some ⟨grid_rect W H 4 i j, []⟩ := by
  interval_cases i <;> interval_cases j <;> rfl

theorem layer_zero_getElem? {areas : List ImageArea} (hall : ∀ a ∈ areas, a.surfs ≠ [])
    (n : ℕ) (a : ImageArea) (p : Ipoint) (ha : areas[n]? = some a) (hp : a.surfs[0]? = some p) :
    (layer areas 0)[n]? = some (to_feature p) := by
  induction areas generalizing n with
  | nil => simp at ha
  | cons b rest ih =>
    obtain ⟨q, hq⟩ : ∃ q, b.surfs[0]? = some q := by
      have := hall b (List.mem_cons_self _ _)
      cases hb : b.surfs with
      | nil => exact absurd hb this
      | cons q _ => exact ⟨q, List.getElem?_cons_zero⟩
    have hl : layer (b :: rest) 0 = to_feature q :: layer rest 0 := by
      simp [layer, hq]
    rw [hl]
    cases n with
    | zero =>
      simp only [List.getElem?_cons_zero, Option.some.injEq] at ha ⊢
      subst ha
      rw [hq] at hp
      cases hp
      rfl
    | succ n =>
      simp only [List.getElem?_cons_succ] at ha ⊢
      exact ih (fun c hc => hall c (List.mem_cons_of_mem _ hc)) n ha

theorem round_robin_getElem? {areas : List ImageArea} (hall : ∀ a ∈ areas, a.surfs ≠ [])
    (n : ℕ) (a : ImageArea) (p : Ipoint) (ha : areas[n]? = some a) (hp : a.surfs[0]? = some p) :
    (round_robin areas)[n]? = some (to_feature p) := by
  have h0 := layer_zero_getElem? hall n a p ha hp
  have hn : n < (layer areas 0).length := by
    by_contra hn
    rw [List.getElem?_eq_none (by omega)] at h0
    cases h0
  have hsplit := layers_from areas 0 (Nat.zero_le _)
  rw [round_robin, List.range_eq_range']
  rw [Nat.sub_zero] at hsplit
  rw [← hsplit, List.getElem?_append_left hn, h0]

/-! ## `nearest` -/

theorem spatial_distance_sq_nonneg (a b : Feature) : 0 ≤ a.spatial_distance_sq b := by
  simp only [Feature.spatial_distance_sq]
  exact add_nonneg (mul_self_nonneg _) (mul_self_nonneg _)

/-- The state left by the loop of `nearest` : the radicand never grows, it bounds the
distance of every feature that differs from the query, and the index is either the
initial one or the first position that realises the final radicand. -/
theorem nearest_loop_spec (fs : Feature) :
    ∀ (l : List Feature) (i : ℕ) (idx : ℤ) (m : ℚ),
      (nearest_loop fs l i (idx, m)).2 ≤ m ∧
      (∀ (k : ℕ) (g : Feature), l[k]? = some g → g ≠ fs →
        (nearest_loop fs l i (idx, m)).2 ≤ fs.spatial_distance_sq g) ∧
      (nearest_loop fs l i (idx, m) = (idx, m) ∨
        ∃ (k : ℕ) (g : Feature), (nearest_loop fs l i (idx, m)).1 = ((i + k : ℕ) : ℤ) ∧
          l[k]? = some g ∧ g ≠ fs ∧
          fs.spatial_distance_sq g = (nearest_loop fs l i (idx, m)).2 ∧
          (nearest_loop fs l i (idx, m)).2 < m ∧
          ∀ (k1 : ℕ) (g1 : Feature), k1 < k → l[k1]? = some g1 → g1 ≠ fs →
            (nearest_loop fs l i (idx, m)).2 < fs.spatial_distance_sq g1) := by
  intro l
  induction l with
  | nil =>
    intro i idx m
    refine ⟨le_rfl, ?_, Or.inl rfl⟩
    intro k g hg
    simp at hg
  | cons g0 rest ih =>
    intro i idx m
    by_cases heq : g0 = fs
    · have hstep : nearest_loop fs (g0 :: rest) i (idx, m) =
          nearest_loop fs rest (i + 1) (idx, m) := by
        simp only [nearest_loop, heq, if_true]
      rw [hstep]
      obtain ⟨hA, hB, hC⟩ := ih (i + 1) idx m
      refine ⟨hA, ?_, ?_⟩
      · intro k g hg hne
        cases k with
        | zero =>
          simp only [List.getElem?_cons_zero, Option.some.injEq] at hg
          exact absurd (hg ▸ heq) hne
        | succ k =>
          simp only [List.getElem?_cons_succ] at hg
          exact hB k g hg hne
      · rcases hC with hC | ⟨k, g, h1, h2, h3, h4, h5, h6⟩
        · exact Or.inl hC
        · refine Or.inr ⟨k + 1, g, ?_, by simpa using h2, h3, h4, h5, ?_⟩
          · rw [h1]; congr 1; omega
          · intro k1 g1 hk1 hg1 hne1
            cases k1 with
            | zero =>
              simp only [List.getElem?_cons_zero, Option.some.injEq] at hg1
              exact absurd (hg1 ▸ heq) hne1
            | succ k1 =>
              simp only [List.getElem?_cons_succ] at hg1
              exact h6 k1 g1 (by omega) hg1 hne1
    · by_cases hlt : fs.spatial_distance_sq g0 < m
      · have hstep : nearest_loop fs (g0 :: rest) i (idx, m) =
            nearest_loop fs rest (i + 1) ((i : ℤ), fs.spatial_distance_sq g0) := by
          simp only [nearest_loop, heq, if_false, hlt, if_true]
        rw [hstep]
        obtain ⟨hA, hB, hC⟩ := ih (i + 1) (i : ℤ) (fs.spatial_distance_sq g0)
        refine ⟨le_of_lt (lt_of_le_of_lt hA hlt), ?_, Or.inr ?_⟩
        · intro k g hg hne
          cases k with
          | zero =>
            simp only [List.getElem?_cons_zero, Option.some.injEq] at hg
            subst hg
            exact hA
          | succ k =>
            simp only [List.getElem?_cons_succ] at hg
            exact hB k g hg hne
        · rcases hC with hC | ⟨k, g, h1, h2, h3, h4, h5, h6⟩
          · refine ⟨0, g0, ?_, List.getElem?_cons_zero, heq, ?_, ?_, ?_⟩
            · rw [hC]; rfl
            · rw [hC]
            · rw [hC]; exact hlt
            · intro k1 g1 hk1
              omega
          · refine ⟨k + 1, g, ?_, by simpa using h2, h3, h4, lt_trans h5 hlt, ?_⟩
            · rw [h1]; congr 1; omega
            · intro k1 g1 hk1 hg1 hne1
              cases k1 with
              | zero =>
                simp only [List.getElem?_cons_zero, Option.some.injEq] at hg1
                subst hg1
                exact h5
              | succ k1 =>
                simp only [List.getElem?_cons_succ] at hg1
                exact h6 k1 g1 (by omega) hg1 hne1
      · have hstep : nearest_loop fs (g0 :: rest) i (idx, m) =
            nearest_loop fs rest (i + 1) (idx, m) := by
          simp only [nearest_loop, heq, if_false, hlt]
        rw [hstep]
        obtain ⟨hA, hB, hC⟩ := ih (i + 1) idx m
        refine ⟨hA, ?_, ?_⟩
        · intro k g hg hne
          cases k with
          | zero =>
            simp only [List.getElem?_cons_zero, Option.some.injEq] at hg
            subst hg
            exact le_trans hA (not_lt.1 hlt)
          | succ k =>
            simp only [List.getElem?_cons_succ] at hg
            exact hB k g hg hne
        · rcases hC with hC | ⟨k, g, h1, h2, h3, h4, h5, h6⟩
          · exact Or.inl hC
          · refine Or.inr ⟨k + 1, g, ?_, by simpa using h2, h3, h4, h5, ?_⟩
            · rw [h1]; congr 1; omega
            · intro k1 g1 hk1 hg1 hne1
              cases k1 with
              | zero =>
                simp only [List.getElem?_cons_zero, Option.some.injEq] at hg1
                subst hg1
                exact lt_of_lt_of_le h5 (not_lt.1 hlt)
              | succ k1 =>
                simp only [List.getElem?_cons_succ] at hg1
                exact h6 k1 g1 (by omega) hg1 hne1

theorem sqrt_sq_le_iff (s : ℚ) :
    (10 : ℝ) ^ 20 ≤ Real.sqrt (s : ℝ) ↔ CURR_MIN_INIT_SQ ≤ s := by
  rw [Real.le_sqrt' (by positivity)]
  have e : ((10 : ℝ) ^ 20) ^ 2 = ((CURR_MIN_INIT_SQ : ℚ) : ℝ) := by
    simp only [CURR_MIN_INIT_SQ]
    norm_num
  rw [e]
  exact_mod_cast Iff.rfl

/-! ## Orientation -/

theorem M_PI_nonneg : (0 : ℚ) ≤ 2 * M_PI := by
  norm_num [M_PI]

theorem M_PI_lt_pi : ((2 * M_PI : ℚ) : ℝ) < 2 * Real.pi := by
  have h := Real.pi_gt_d20
  have e : ((2 * M_PI : ℚ) : ℝ) ≤ 2 * 3.14159265358979323846 := by
    simp only [M_PI]
    norm_num
  linarith

/-- The value the assignment `newf.angle = 2.0f * M_PI` stores. -/
theorem to_float_two_pi : to_float (2 * M_PI) = 13176795 / 2097152 := by
  decide!

theorem two_pi_lt_float : 2 * Real.pi < ((13176795 / 2097152 : ℚ) : ℝ) := by
  have h := Real.pi_lt_d20
  have e : (2 : ℝ) * 3.14159265358979323847 < ((13176795 / 2097152 : ℚ) : ℝ) := by
    norm_num
  linarith

/-- No `float` value lies above the `double` value `2.0f * M_PI` and below its
rounding to `float` . -/
theorem float_above_two_pi (x : ℚ) (hx : to_float x = x) (h1 : 2 * M_PI < x)
    (h2 : x ≤ 13176795 / 2097152) : x = 13176795 / 2097152 := by
  have hpos : 0 < x := lt_of_le_of_lt M_PI_nonneg h1
  have hM : (6 : ℚ) < 2 * M_PI := by norm_num [M_PI]
  have hlog : ilog2 x = 2 := by
    apply ilog2_unique
    · rw [abs_of_pos hpos, pow2_eq]
      norm_num
      linarith
    · rw [abs_of_pos hpos, pow2_eq]
      norm_num
      linarith
  have hne : x ≠ 0 := ne_of_gt hpos
  have hq : max (ilog2 x - (((24 : ℕ) : ℤ) - 1)) (-149) = -21 := by
    rw [hlog]
    decide
  have hp : pow2 (-21) = 1 / 2097152 := by
    rw [pow2_eq]
    norm_num
  unfold to_float round_to_format at hx
  rw [if_neg hne, hq, hp] at hx
  have hn1 : (13176794 : ℚ) < ((round_half_even (x / (1 / 2097152)) : ℤ) : ℚ) := by
    have : (13176794 : ℚ) < 2 * M_PI * 2097152 := by norm_num [M_PI]
    linarith
  have hn2 : ((round_half_even (x / (1 / 2097152)) : ℤ) : ℚ) ≤ 13176795 := by
    linarith
  have hn3 : (13176794 : ℤ) < round_half_even (x / (1 / 2097152)) := by exact_mod_cast hn1
  have hn4 : round_half_even (x / (1 / 2097152)) ≤ (13176795 : ℤ) := by exact_mod_cast hn2
  have hn : round_half_even (x / (1 / 2097152)) = 13176795 := by omega
  rw [hn] at hx
  rw [← hx]
  norm_num

theorem to_feature_angle (p : Ipoint) :
    0 ≤ (to_feature p).angle ∧ (to_feature p).angle ≤ 13176795 / 2097152 ∧
    (p.orientation < 0 → (to_feature p).angle = 0) ∧
    (0 ≤ p.orientation → p.orientation ≤ 2 * M_PI → (to_feature p).angle = p.orientation) ∧
    (2 * M_PI < p.orientation → (to_feature p).angle = 13176795 / 2097152) ∧
    (to_float p.orientation = p.orientation → 0 ≤ p.orientation →
      p.orientation ≤ 13176795 / 2097152 → (to_feature p).angle = p.orientation) := by
  have hpi := M_PI_nonneg
  have hM : 2 * M_PI ≤ 13176795 / 2097152 := by norm_num [M_PI]
  by_cases h0 : p.orientation < 0
  · have h1 : ¬ (0 : ℚ) > 2 * M_PI := not_lt.2 hpi
    have hv : (to_feature p).angle = 0 := by
      simp only [to_feature, h0, if_true, h1, if_false]
    rw [hv]
    exact ⟨le_rfl, by norm_num, fun _ => rfl, fun h => absurd h0 (not_lt.2 h),
      fun h => absurd (lt_of_le_of_lt hpi h) (not_lt.2 (le_of_lt h0)),
      fun _ h _ => absurd h0 (not_lt.2 h)⟩
  · by_cases h2 : p.orientation > 2 * M_PI
    · have hv : (to_feature p).angle = 13176795 / 2097152 := by
        simp only [to_feature, h0, if_false, h2, if_true, to_float_two_pi]
      rw [hv]
      exact ⟨by norm_num, le_rfl, fun h => absurd h h0, fun _ h => absurd h2 (not_lt.2 h),
        fun _ => rfl, fun hf _ hle => (float_above_two_pi _ hf h2 hle).symm⟩
    · have hv : (to_feature p).angle = p.orientation := by
        simp only [to_feature, h0, if_false, h2]
      rw [hv]
      exact ⟨not_lt.1 h0, le_trans (not_lt.1 h2) hM, fun h => absurd h h0, fun _ _ => rfl,
        fun h => absurd h h2, fun _ _ _ => rfl⟩

theorem forall₂_mem {α β : Type} {R : α → β → Prop} {l1 : List α} {l2 : List β}
    (h : List.Forall₂ R l1 l2) (b : β) (hb : b ∈ l2) : ∃ a, a ∈ l1 ∧ R a b := by
  obtain ⟨n, hn⟩ := List.getElem?_of_mem hb
  obtain ⟨a, ha, hR⟩ := forall₂_getElem? h n b hn
  exact ⟨a, List.getElem?_mem ha, hR⟩

theorem new_areas_surfs (W H : ℤ) (S : ℕ) (a : ImageArea) (ha : a ∈ new_areas W H S) :
    a.surfs = [] := by
  simp only [new_areas, List.mem_flatMap, List.mem_map] at ha
  obtain ⟨_, _, _, _, rfl⟩ := ha
  rfl

/-- Every point of an area left by `create_areas` is a detected point or was in the
area before. -/
theorem mem_create_areas (W H B : ℤ) (pts : List Ipoint) (areas : List ImageArea)
    (a0 : ImageArea) (ha0 : a0 ∈ create_areas W H 4 B pts areas) (p : Ipoint)
    (hp : p ∈ a0.surfs) : p ∈ pts ∨ ∃ a ∈ areas, p ∈ a.surfs := by
  rw [create_areas, bin_points_eq, List.mem_map] at ha0
  obtain ⟨a, ha, rfl⟩ := ha0
  simp only [List.mem_append, List.mem_filter] at hp
  rcases hp with hp | hp
  · rcases List.mem_append.1 ha with h | h
    · exact Or.inr ⟨a, h, hp⟩
    · rw [new_areas_surfs W H 4 a h] at hp
      cases hp
  · exact Or.inl hp.1

theorem mem_round_robin {areas : List ImageArea} {f : Feature} (h : f ∈ round_robin areas) :
    ∃ a ∈ areas, ∃ p ∈ a.surfs, f = to_feature p := by
  simp only [round_robin, List.mem_flatMap, layer, List.mem_filterMap,
    Option.map_eq_some'] at h
  obtain ⟨k, _, a, ha, p, hp, rfl⟩ := h
  exact ⟨a, ha, p, List.getElem?_mem hp, rfl⟩

/-! ## `save` and `load` -/

theorem length_copyBinary (f : Feature) :
    f.copyBinary.length = Feature.size_words f.descriptor.length := by
  simp [Feature.copyBinary, Feature.size_words]; omega

theorem write_at_append (pre : List ℚ) (tail : List (Option ℚ)) (data : List ℚ)
    (h : data.length ≤ tail.length) :
    write_at (pre.map some ++ tail) pre.length data =
      some ((pre ++ data).map some ++ tail.drop data.length) := by
  have h1 : pre.length + data.length ≤ (pre.map some ++ tail).length := by
    simp; omega
  have h2 : (pre.map some ++ tail).take pre.length = pre.map some := by
    rw [List.take_append_of_le_length (by simp)]
    exact List.take_of_length_le (by simp)
  have h3 : (pre.map some ++ tail).drop (pre.length + data.length) = tail.drop data.length := by
    rw [List.drop_append_eq_append_drop]
    simp
  simp only [write_at, h1, if_true, h2, h3, List.map_append]

theorem save_loop_spec (feature_size : ℕ) :
    ∀ (l : List Feature) (i : ℕ) (pre : List ℚ) (tail : List (Option ℚ)),
      (∀ f ∈ l, f.copyBinary.length = feature_size) → pre.length = i * feature_size →
      tail.length = l.length * feature_size →
      save_loop feature_size l i (pre.map some ++ tail) =
        some ((pre ++ l.flatMap Feature.copyBinary).map some) := by
  intro l
  induction l with
  | nil =>
    intro i pre tail _ _ ht
    have : tail = [] := List.eq_nil_of_length_eq_zero (by simpa using ht)
    simp [save_loop, this]
  | cons f rest ih =>
    intro i pre tail hall hpre htail
    have hf : f.copyBinary.length = feature_size := hall f (List.mem_cons_self _ _)
    have htl : tail.length = rest.length * feature_size + feature_size := by
      rw [htail, List.length_cons, Nat.add_mul, Nat.one_mul]
    have hw := write_at_append pre tail f.copyBinary (by omega)
    rw [hpre] at hw
    have hrec := ih (i + 1) (pre ++ f.copyBinary) (tail.drop f.copyBinary.length)
      (fun g hg => hall g (List.mem_cons_of_mem _ hg))
      (by rw [List.length_append, hpre, hf, Nat.add_mul, Nat.one_mul])
      (by rw [List.length_drop, htl, hf]; omega)
    simp only [save_loop, hw, hrec, List.flatMap_cons, List.append_assoc]

theorem buffer_words_map (l : List ℚ) :
    buffer_words (l.map some) = some (l.map Word.f32) := by
  induction l with
  | nil => rfl
  | cons v rest ih => simp [buffer_words, ih]

theorem read_floats_map (l : List ℚ) :
    read_floats l.length (l.map Word.f32) = some l := by
  induction l with
  | nil => rfl
  | cons v rest ih => simp [read_floats, ih]

theorem ofBinary_copyBinary (f : Feature) (rest : List ℚ) :
    Feature.ofBinary (f.copyBinary ++ rest) f.descriptor.length = some f := by
  have h : f.descriptor.length ≤ (f.descriptor ++ rest).length := by simp
  simp [Feature.ofBinary, Feature.copyBinary, h]

theorem load_loop_spec (desc_size : ℕ) :
    ∀ (l : List Feature) (i : ℕ) (pre : List ℚ),
      (∀ f ∈ l, f.descriptor.length = desc_size) →
      pre.length = i * Feature.size_words desc_size →
      load_loop (pre ++ l.flatMap Feature.copyBinary) (Feature.size_words desc_size) desc_size
        l.length i = some l := by
  intro l
  induction l with
  | nil => intro i pre _ _; rfl
  | cons f rest ih =>
    intro i pre hall hpre
    have hf : f.descriptor.length = desc_size := hall f (List.mem_cons_self _ _)
    have hdrop : (pre ++ (f.copyBinary ++ rest.flatMap Feature.copyBinary)).drop
        (i * Feature.size_words desc_size) = f.copyBinary ++ rest.flatMap Feature.copyBinary := by
      rw [← hpre, List.drop_left]
    have hrec := ih (i + 1) (pre ++ f.copyBinary)
      (fun g hg => hall g (List.mem_cons_of_mem _ hg))
      (by rw [List.length_append, hpre, length_copyBinary, hf, Nat.add_mul, Nat.one_mul])
    rw [List.append_assoc] at hrec
    have hof := ofBinary_copyBinary f (rest.flatMap Feature.copyBinary)
    rw [hf] at hof
    rw [List.flatMap_cons]
    simp only [List.length_cons, load_loop, hdrop, hof, hrec]

/-! ## The neighbour index -/

theorem to_feature_descriptor_length (p : Ipoint) : (to_feature p).descriptor.length = 64 := by
  simp [to_feature]

/-- The three outcomes of `detect` . -/
theorem detect_cases (d : ℚ) (s : FeatureSetImpl) (channels : ℕ) (cols rows : ℤ)
    (ipts : List Ipoint) (max_features : ℕ) :
    detect d s channels cols rows ipts max_features =
        some (clear s, some FeatureExtractorException.onlyOneChannel) ∨
    detect d s channels cols rows ipts max_features = some (clear_kdtree (clear s), none) ∨
    ∃ areas1, detect d s channels cols rows ipts max_features =
      some (clear_kdtree { clear s with areas := areas1, fts := round_robin areas1 }, none) := by
  by_cases hc : channels = 1
  · subst hc
    by_cases hi : ipts = []
    · subst hi
      exact Or.inr (Or.inl (detect_no_points d s cols rows max_features))
    · obtain ⟨areas1, _, _, _, hrun⟩ := detect_run d s cols rows ipts max_features hi
      exact Or.inr (Or.inr ⟨areas1, hrun⟩)
  · exact Or.inl (detect_bad_channels d s channels cols rows ipts max_features hc)

theorem detect_index_absent (d : ℚ) (s : FeatureSetImpl) (channels : ℕ) (cols rows : ℤ)
    (ipts : List Ipoint) (max_features : ℕ)
    (r : FeatureSetImpl × Option FeatureExtractorException)
    (h : detect d s channels cols rows ipts max_features = some r) :
    r.1.kdtree = none ∧ r.1.kdt_features = [] ∧
      ∀ f ∈ r.1.fts, f.descriptor.length = 64 := by
  rcases detect_cases d s channels cols rows ipts max_features with h1 | h1 | ⟨areas1, h1⟩
  · rw [h1] at h
    cases h
    exact ⟨rfl, rfl, fun f hf => by cases hf⟩
  · rw [h1] at h
    cases h
    exact ⟨rfl, rfl, fun f hf => by cases hf⟩
  · rw [h1] at h
    cases h
    refine ⟨rfl, rfl, ?_⟩
    intro f hf
    obtain ⟨_, _, p, _, rfl⟩ := mem_round_robin (show f ∈ round_robin areas1 from hf)
    exact to_feature_descriptor_length p

theorem ofBinary_descriptor_length {data : List ℚ} {n : ℕ} {f : Feature}
    (h : Feature.ofBinary data n = some f) : f.descriptor.length = n := by
  match data, h with
  | x :: y :: sc :: an :: rest, h =>
    simp only [Feature.ofBinary] at h
    split at h
    · cases h
      simp only [List.length_take]
      omega
    · cases h

theorem load_loop_descriptor_length (buff : List ℚ) (feature_size desc_size : ℕ) :
    ∀ (n i : ℕ) (l : List Feature), load_loop buff feature_size desc_size n i = some l →
      ∀ f ∈ l, f.descriptor.length = desc_size := by
  intro n
  induction n with
  | zero =>
    intro i l h f hf
    simp only [load_loop, Option.some.injEq] at h
    subst h
    cases hf
  | succ n ih =>
    intro i l h f hf
    simp only [load_loop] at h
    split at h
    · rename_i g rest hg hrest
      cases h
      rcases List.mem_cons.1 hf with hf | hf
      · subst hf
        exact ofBinary_descriptor_length hg
      · exact ih (i + 1) rest hrest f hf
    · cases h

theorem load_index_absent (s : FeatureSetImpl) (file : Option (List Word))
    (r : FeatureSetImpl × Option FeatureExtractorException) (h : load s file = some r) :
    r.1.kdtree = none ∧ r.1.kdt_features = [] ∧
      ∃ n, ∀ f ∈ r.1.fts, f.descriptor.length = n := by
  simp only [load] at h
  split at h
  · cases h
    exact ⟨rfl, rfl, 0, fun f hf => by cases hf⟩
  · rename_i n_features desc_size rest
    split at h
    · cases h
    · rename_i buff hbuff
      split at h
      · cases h
      · rename_i fts hfts
        cases h
        refine ⟨rfl, rfl, desc_size, ?_⟩
        intro f hf
        have hf1 : f ∈ fts := by simpa [clear] using hf
        exact load_loop_descriptor_length buff _ desc_size n_features 0 fts hfts f hf1
  · cases h

theorem all_some_map_some {α : Type} (l : List α) : all_some (l.map some) = some l := by
  induction l with
  | nil => rfl
  | cons v rest ih => simp [all_some, ih]

theorem row_of_length (desc : List ℚ) :
    all_some ((List.range desc.length).map fun j => desc[j]?) = some desc := by
  have h : ((List.range desc.length).map fun j => desc[j]?) = desc.map some := by
    apply List.ext_getElem?
    intro n
    by_cases hn : n < desc.length
    · simp [List.getElem?_range, hn, List.getElem?_eq_getElem hn]
    · simp [List.getElem?_eq_none, Nat.le_of_not_lt hn]
  rw [h, all_some_map_some]

theorem rows_of_uniform (n : ℕ) (fts : List Feature)
    (h : ∀ f ∈ fts, f.descriptor.length = n) :
    all_some (fts.map fun f => all_some ((List.range n).map fun j => f.descriptor[j]?)) =
      some (fts.map fun f => f.descriptor) := by
  induction fts with
  | nil => rfl
  | cons f rest ih =>
    have hf := h f (List.mem_cons_self _ _)
    have hrow := row_of_length f.descriptor
    rw [hf] at hrow
    simp only [List.map_cons, all_some, hrow,
      ih fun g hg => h g (List.mem_cons_of_mem _ hg), Option.map_some']

/-- On a store whose descriptors all have one length, `build_kdtree` returns and
builds the matrix of the descriptors, in the order of the features. -/
theorem build_kdtree_spec (s : FeatureSetImpl) (hne : s.fts ≠ [])
    (hdim : ∀ f ∈ s.fts, ∀ g ∈ s.fts, f.descriptor.length = g.descriptor.length)
    (s1 : FeatureSetImpl) (h : build_kdtree s = some s1) :
    s1.fts = s.fts ∧ s1.kdtree = some (s.fts.map fun f => f.descriptor) ∧
      s1.kdt_features = s.fts.map fun f => f.descriptor := by
  obtain ⟨f0, rest, hfts⟩ : ∃ f0 rest, s.fts = f0 :: rest := by
    cases h0 : s.fts with
    | nil => exact absurd h0 hne
    | cons f0 rest => exact ⟨f0, rest, rfl⟩
  have hf0 : f0 ∈ s.fts := by rw [hfts]; exact List.mem_cons_self _ _
  have h0 : s.fts[0]? = some f0 := by rw [hfts]; exact List.getElem?_cons_zero
  have hrows := rows_of_uniform f0.descriptor.length s.fts fun f hf => hdim f hf f0 hf0
  simp only [build_kdtree, h0, hrows, Option.some.injEq] at h
  subst h
  exact ⟨rfl, rfl, rfl⟩

/-- The invariant of the reachable stores: one descriptor length, and a present
index is built over the descriptors of the features. -/
theorem reachable_invariant (knnSearch : List (List ℚ) → List ℚ → ℕ → List ℤ)
    (s : FeatureSetImpl) (h : Reachable knnSearch s) :
    (∀ f ∈ s.fts, ∀ g ∈ s.fts, f.descriptor.length = g.descriptor.length) ∧
    (∀ m, s.kdtree = some m →
      m = (s.fts.map fun f => f.descriptor) ∧ s.kdt_features = m) := by
  induction h with
  | init =>
    exact ⟨fun f hf => (by cases hf), fun m hm => (by cases hm)⟩
  | by_detect s d channels cols rows ipts max_features r _ hrun _ =>
    obtain ⟨h1, _, h3⟩ := detect_index_absent d s channels cols rows ipts max_features r hrun
    refine ⟨fun f hf g hg => (h3 f hf).trans (h3 g hg).symm, fun m hm => ?_⟩
    rw [h1] at hm
    cases hm
  | by_clear s _ _ =>
    exact ⟨fun f hf => (by cases hf), fun m hm => (by cases hm)⟩
  | by_load s file r _ hrun _ =>
    obtain ⟨h1, _, n, h3⟩ := load_index_absent s file r hrun
    refine ⟨fun f hf g hg => (h3 f hf).trans (h3 g hg).symm, fun m hm => ?_⟩
    rw [h1] at hm
    cases hm
  | by_knn s fs K r _ hrun ih =>
    obtain ⟨hdim, hidx⟩ := ih
    simp only [knn] at hrun
    split at hrun
    · cases hrun
      exact ⟨hdim, hidx⟩
    · rename_i hlen
      have hne : s.fts ≠ [] := fun h0 => hlen (by rw [h0]; rfl)
      by_cases hk : s.kdtree = none
      · simp only [hk, if_true] at hrun
        split at hrun
        · cases hrun
        · rename_i s1 hb
          obtain ⟨b1, b2, b3⟩ := build_kdtree_spec s hne hdim s1 hb
          split at hrun
          · rename_i m hm
            cases hrun
            refine ⟨by rw [b1]; exact hdim, fun m1 hm1 => ?_⟩
            rw [b2] at hm1
            cases hm1
            exact ⟨by rw [b1], b3⟩
          · cases hrun
      · simp only [hk, if_false] at hrun
        split at hrun
        · rename_i m hm
          cases hrun
          exact ⟨hdim, hidx⟩
        · cases hrun

/-! ## The grid of `create_areas` -/

theorem forall₂_getElem?_left {α β : Type} {R : α → β → Prop} {l1 : List α} {l2 : List β}
    (h : List.Forall₂ R l1 l2) :
    ∀ (n : ℕ) (a : α), l1[n]? = some a → ∃ b, l2[n]? = some b ∧ R a b := by
  induction h with
  | nil => intro n a ha; simp at ha
  | @cons a0 b0 r1 r2 h0 _ ih =>
    intro n a ha
    cases n with
    | zero =>
      simp only [List.getElem?_cons_zero, Option.some.injEq] at ha
      subst ha
      exact ⟨b0, List.getElem?_cons_zero, h0⟩
    | succ n =>
      simp only [List.getElem?_cons_succ] at ha ⊢
      exact ih n a ha

theorem mem_layer {areas : List ImageArea} {a : ImageArea} {p : Ipoint} {k : ℕ}
    (ha : a ∈ areas) (hp : a.surfs[k]? = some p) : to_feature p ∈ layer areas k := by
  simp only [layer, List.mem_filterMap, Option.map_eq_some']
  exact ⟨a, ha, p, hp, rfl⟩

/-- Every point of every area is emitted by the round robin. -/
theorem mem_round_robin_of_mem {areas : List ImageArea} {a : ImageArea} {p : Ipoint}
    (ha : a ∈ areas) (hp : p ∈ a.surfs) : to_feature p ∈ round_robin areas := by
  obtain ⟨k, hk⟩ := List.getElem?_of_mem hp
  have hlt : k < a.surfs.length := by
    by_contra hlt
    rw [List.getElem?_eq_none (by omega)] at hk
    cases hk
  simp only [round_robin, List.mem_flatMap, List.mem_range]
  exact ⟨k, lt_of_lt_of_le hlt (le_max_len ha), mem_layer ha hk⟩

/-- The first entry of the sorted list has maximal strength. -/
theorem std_sort_head (l : List Ipoint) (hne : l ≠ []) :
    ∃ p, (std_sort l)[0]? = some p ∧ p ∈ l ∧ ∀ q ∈ l, q.hess ≤ p.hess := by
  induction l with
  | nil => exact absurd rfl hne
  | cons a rest ih =>
    have hstep : std_sort (a :: rest) =
        List.orderedInsert (fun a b => sort_by_hessian b a = false) a (std_sort rest) := rfl
    by_cases hrest : rest = []
    · subst hrest
      refine ⟨a, rfl, List.mem_cons_self _ _, ?_⟩
      intro q hq
      rcases List.mem_cons.1 hq with h | h
      · rw [h]
      · cases h
    · obtain ⟨p, hp, hpm, hmax⟩ := ih hrest
      obtain ⟨tl, htl⟩ : ∃ tl, std_sort rest = p :: tl := by
        cases hs : std_sort rest with
        | nil => rw [hs] at hp; cases hp
        | cons b tl =>
          rw [hs] at hp
          simp only [List.getElem?_cons_zero, Option.some.injEq] at hp
          subst hp
          exact ⟨tl, rfl⟩
      rw [hstep, htl, List.orderedInsert]
      by_cases hr : sort_by_hessian p a = false
      · have hle : p.hess ≤ a.hess := by
          simpa [sort_by_hessian] using hr
        refine ⟨a, by simp [hr], List.mem_cons_self _ _, ?_⟩
        intro q hq
        rcases List.mem_cons.1 hq with h | h
        · rw [h]
        · exact le_trans (hmax q h) hle
      · have hlt : a.hess < p.hess := by
          simpa [sort_by_hessian] using hr
        refine ⟨p, by simp [hr], List.mem_cons_of_mem _ hpm, ?_⟩
        intro q hq
        rcases List.mem_cons.1 hq with h | h
        · rw [h]; exact le_of_lt hlt
        · exact hmax q h

/-! ## The deduplication keeps a sub-multiset -/

/-- One removal of the swap-remove pass: the live range after the removal is, up
to order, the live range before it without one entry. -/
theorem swap_remove_subperm (surfs : List Ipoint) (k2 last : ℕ) (c : Ipoint)
    (hk : k2 ≤ last) (h1 : 1 ≤ last) (hc : surfs[last]? = some c) :
    ((surfs.set k2 c).take (last - 1 + 1)).Subperm (surfs.take (last + 1)) := by
  have hlast : last < surfs.length := by
    by_contra h
    rw [List.getElem?_eq_none (by omega)] at hc
    cases hc
  have e1 : last - 1 + 1 = last := by omega
  have htake : surfs.take (last + 1) = surfs.take last ++ [c] := by
    rw [List.take_succ, hc]
    rfl
  rw [e1, htake]
  by_cases hkl : k2 = last
  · subst hkl
    rw [List.set_take, List.set_eq_of_length_le (by simp)]
    exact (List.sublist_append_left _ _).subperm
  · have hlt : k2 < (surfs.take last).length := by
      rw [List.length_take]; omega
    rw [List.set_take, List.set_eq_take_append_cons_drop, if_pos hlt]
    have hsub : List.Sublist ((surfs.take last).take k2 ++ (surfs.take last).drop (k2 + 1))
        (surfs.take last) := by
      have h2 : List.Sublist ((surfs.take last).take k2 ++ (surfs.take last).drop (k2 + 1))
          ((surfs.take last).take k2 ++ (surfs.take last).drop k2) :=
        List.Sublist.append_left (List.drop_sublist_drop_left _ (by omega)) _
      rwa [List.take_append_drop] at h2
    have hp1 : List.Perm ((surfs.take last).take k2 ++ c :: (surfs.take last).drop (k2 + 1))
        (c :: ((surfs.take last).take k2 ++ (surfs.take last).drop (k2 + 1))) :=
      List.perm_middle
    have hp2 : List.Perm (surfs.take last ++ [c]) (c :: surfs.take last) :=
      List.perm_append_singleton c _
    exact hp1.subperm.trans
      (((List.subperm_cons c).2 hsub.subperm).trans hp2.symm.subperm)

theorem dedup_inner_subperm (d : ℚ) (k : ℕ) :
    ∀ (fuel k2 last : ℕ) (surfs : List Ipoint),
      k < k2 → k2 ≤ last + 1 → last < surfs.length → last + 1 - k2 < fuel →
      ∃ last1 surfs1, dedup_inner d k fuel k2 last surfs = some (last1, surfs1) ∧
        (surfs1.take (last1 + 1)).Subperm (surfs.take (last + 1)) := by
  intro fuel
  induction fuel with
  | zero => intro k2 last surfs _ _ _ h; omega
  | succ fuel ih =>
    intro k2 last surfs hk hk2 hlast hfuel
    by_cases h : k2 ≤ last
    · have hkl : k < surfs.length := by omega
      have hk2l : k2 < surfs.length := by omega
      obtain ⟨a, ha⟩ : ∃ a, surfs[k]? = some a := ⟨_, List.getElem?_eq_getElem hkl⟩
      obtain ⟨b, hb⟩ : ∃ b, surfs[k2]? = some b := ⟨_, List.getElem?_eq_getElem hk2l⟩
      obtain ⟨c, hc⟩ : ∃ c, surfs[last]? = some c := ⟨_, List.getElem?_eq_getElem hlast⟩
      by_cases hclose : dist2d_lt a b d = true
      · have hne : ¬ (last = 0 ∨ k2 = 0) := by omega
        obtain ⟨last1, surfs1, hrun, hsub⟩ :=
          ih k2 (last - 1) (surfs.set k2 c) hk (by omega) (by simp; omega) (by omega)
        refine ⟨last1, surfs1, ?_, ?_⟩
        · simp only [dedup_inner, h, if_true, ha, hb, hclose, hc, hne, if_false]
          exact hrun
        · exact hsub.trans (swap_remove_subperm surfs k2 last c h (by omega) hc)
      · have hfar : dist2d_lt a b d = false := by simpa using hclose
        obtain ⟨last1, surfs1, hrun, hsub⟩ :=
          ih (k2 + 1) last surfs (by omega) (by omega) hlast (by omega)
        refine ⟨last1, surfs1, ?_, hsub⟩
        simp only [dedup_inner, h, if_true, ha, hb, hfar]
        exact hrun
    · refine ⟨last, surfs, ?_, List.Subperm.refl _⟩
      simp only [dedup_inner, h, if_false]

theorem dedup_outer_subperm (d : ℚ) :
    ∀ (fuel k last : ℕ) (surfs : List Ipoint),
      k ≤ last + 1 → last < surfs.length → last + 1 - k < fuel →
      ∃ last1 surfs1, dedup_outer d fuel k last surfs = some (last1, surfs1) ∧
        (surfs1.take (last1 + 1)).Subperm (surfs.take (last + 1)) ∧
        last1 ≤ last ∧ k ≤ last1 + 1 ∧ surfs1.length = surfs.length := by
  intro fuel
  induction fuel with
  | zero => intro k last surfs _ _ h; omega
  | succ fuel ih =>
    intro k last surfs hk hlast hfuel
    by_cases h : k ≤ last
    · obtain ⟨last1, surfs1, hrun1, hsub1⟩ :=
        dedup_inner_subperm d k (surfs.length + 1) (k + 1) last surfs (by omega) (by omega)
          hlast (by omega)
      obtain ⟨last0, surfs0, hrun0, a1, a2, a3, _⟩ :=
        dedup_inner_spec d k (surfs.length + 1) (k + 1) last surfs (by omega) (by omega)
          hlast (by omega)
      rw [hrun1] at hrun0
      cases hrun0
      obtain ⟨last2, surfs2, hrun2, hsub2, b1, b2, b3⟩ :=
        ih (k + 1) last1 surfs1 (by omega) (by omega) (by omega)
      refine ⟨last2, surfs2, ?_, hsub2.trans hsub1, by omega, by omega, by omega⟩
      simp only [dedup_outer, h, if_true, hrun1]
      exact hrun2
    · refine ⟨last, surfs, ?_, List.Subperm.refl _, le_rfl, by omega, rfl⟩
      simp only [dedup_outer, h, if_false]

/-- The list the deduplication leaves is, up to order, a sublist of its input. -/
theorem dedup_subperm (d : ℚ) (surfs : List Ipoint) (h : 1 ≤ surfs.length) :
    ∃ r, dedup d surfs = some r ∧ r.Subperm surfs := by
  obtain ⟨last1, surfs1, hrun, hsub, _, _, _⟩ :=
    dedup_outer_subperm d (surfs.length + 1) 0 (surfs.length - 1) surfs (by omega) (by omega)
      (by omega)
  obtain ⟨last0, surfs0, hrun0, a1, _, a3, _⟩ :=
    dedup_outer_spec d (surfs.length + 1) 0 (surfs.length - 1) surfs (by omega) (by omega)
      (by omega) (by intro i j a b hi; omega)
  rw [hrun] at hrun0
  cases hrun0
  have hlen : last1 + 1 ≤ surfs1.length := by omega
  have h0 : ¬ surfs.length = 0 := by omega
  refine ⟨resize surfs1 (last1 + 1), by simp only [dedup, h0, if_false, hrun], ?_⟩
  rw [resize_of_le _ _ hlen]
  have e : surfs.take (surfs.length - 1 + 1) = surfs := List.take_of_length_le (by omega)
  rw [e] at hsub
  exact hsub


/-- One iteration of the inner loop from a state that satisfies the invariant
`k < k2 <= last < size` : the accesses are in range, no counter is decremented at
zero, the iteration leads to a state that satisfies `k < k2 <= last + 1 <= size`
(so `k <= last` ), and the distance of `k2` to `last` has decreased. -/
theorem dedup_inner_step (d : ℚ) (k fuel k2 last : ℕ) (surfs : List Ipoint)
    (hk : k < k2) (hk2 : k2 ≤ last) (hlast : last < surfs.length) :
    ∃ k3 last1 surfs1,
      dedup_inner d k (fuel + 1) k2 last surfs = dedup_inner d k fuel k3 last1 surfs1 ∧
      k < k3 ∧ k3 ≤ last1 + 1 ∧ last1 < surfs1.length ∧ k ≤ last1 ∧
      surfs1.length = surfs.length ∧ last1 + 1 - k3 < last + 1 - k2 := by
  have hkl : k < surfs.length := by omega
  have hk2l : k2 < surfs.length := by omega
  obtain ⟨a, ha⟩ : ∃ a, surfs[k]? = some a := ⟨_, List.getElem?_eq_getElem hkl⟩
  obtain ⟨b, hb⟩ : ∃ b, surfs[k2]? = some b := ⟨_, List.getElem?_eq_getElem hk2l⟩
  obtain ⟨c, hc⟩ : ∃ c, surfs[last]? = some c := ⟨_, List.getElem?_eq_getElem hlast⟩
  by_cases hclose : dist2d_lt a b d = true
  · have hne : ¬ (last = 0 ∨ k2 = 0) := by omega
    refine ⟨k2, last - 1, surfs.set k2 c, ?_, hk, by omega, by simp; omega, by omega,
      by simp, by omega⟩
    simp only [dedup_inner, hk2, if_true, ha, hb, hclose, hc, hne, if_false]
  · have hfar : dist2d_lt a b d = false := by simpa using hclose
    refine ⟨k2 + 1, last, surfs, ?_, by omega, by omega, hlast, by omega, rfl, by omega⟩
    simp only [dedup_inner, hk2, if_true, ha, hb, hfar]
    rfl

/-! ## The grid on sizes divisible by 4 -/

/-- C2: for a store that holds at least one feature and whose features all have a
descriptor of the same length, `save` writes a file, and `load` of that file, into
any store, returns without exception and leaves exactly the saved feature
sequence: same order, same x, y, scale, orientation and descriptor values. -/
theorem save_load_round_trip (s s2 : FeatureSetImpl) (hne : s.fts ≠ [])
    (hdim : ∀ f ∈ s.fts, ∀ g ∈ s.fts, f.descriptor.length = g.descriptor.length) :
    ∃ file, save s true = some (Except.ok file) ∧
      ∃ s3, load s2 (some file) = some (s3, none) ∧ s3.fts = s.fts := by
  obtain ⟨f0, rest, hfts⟩ : ∃ f0 rest, s.fts = f0 :: rest := by
    cases h : s.fts with
    | nil => exact absurd h hne
    | cons f0 rest => exact ⟨f0, rest, rfl⟩
  have hf0 : f0 ∈ s.fts := by rw [hfts]; exact List.mem_cons_self _ _
  have hlen : ¬ s.fts.length < 1 := by rw [hfts]; simp
  have h0 : s.fts[0]? = some f0 := by rw [hfts]; exact List.getElem?_cons_zero
  have hall : ∀ f ∈ s.fts, f.copyBinary.length = Feature.size_words f0.descriptor.length :=
    fun f hf => by rw [length_copyBinary, hdim f hf f0 hf0]
  have hloop := save_loop_spec (Feature.size_words f0.descriptor.length) s.fts 0 []
    (List.replicate (s.fts.length * Feature.size_words f0.descriptor.length) none) hall
    (by simp) (by simp)
  simp only [List.map_nil, List.nil_append] at hloop
  refine ⟨Word.u32 s.fts.length :: Word.u32 f0.descriptor.length ::
    (s.fts.flatMap Feature.copyBinary).map Word.f32, ?_, ?_⟩
  · simp only [save, hlen, if_false, h0, List.take_length, hloop, buffer_words_map]
    rfl
  · have hcount : (s.fts.flatMap Feature.copyBinary).length =
        s.fts.length * Feature.size_words f0.descriptor.length := by
      rw [List.length_flatMap]
      have : s.fts.map (List.length ∘ Feature.copyBinary) =
          s.fts.map (fun _ => Feature.size_words f0.descriptor.length) :=
        List.map_congr_left fun f hf => hall f hf
      rw [this]
      simp
    have hread := read_floats_map (s.fts.flatMap Feature.copyBinary)
    rw [hcount] at hread
    have hload := load_loop_spec f0.descriptor.length s.fts 0 []
      (fun f hf => hdim f hf f0 hf0) (by simp)
    simp only [List.nil_append] at hload
    refine ⟨{ clear s2 with fts := (clear s2).fts ++ s.fts }, ?_, by simp [clear]⟩
    simp only [load, hread, hload]

/-- C2, witness: a store of two features with descriptors of length 2. -/
theorem save_load_round_trip_witness :
    ({ FeatureSetImpl.fresh with
        fts := [⟨1, 2, 3, 4, [5, 6]⟩, ⟨7, 8, 9, 1, [2, 3]⟩] } : FeatureSetImpl).fts ≠ [] ∧
    ∃ file, save { FeatureSetImpl.fresh with
        fts := [⟨1, 2, 3, 4, [5, 6]⟩, ⟨7, 8, 9, 1, [2, 3]⟩] } true = some (Except.ok file) ∧
      ∃ s3, load FeatureSetImpl.fresh (some file) = some (s3, none) ∧
        s3.fts = [⟨1, 2, 3, 4, [5, 6]⟩, ⟨7, 8, 9, 1, [2, 3]⟩] :=
  ⟨by decide, save_load_round_trip _ FeatureSetImpl.fresh (by decide) (by decide)⟩

/-- C3, at a concrete input: with the detector output `[(50, 50)]` on a 400x400
image and `max_features = 100` , one call of `detect` on a fresh store leaves 1
feature in 16 areas, a second call with the same arguments on the resulting store
leaves 2 features in 32 areas. -/
theorem detect_twice_differs :
    (detect 10 FeatureSetImpl.fresh 1 400 400 [⟨50, 50, 1, 0, 1, []⟩] 100).map
        (fun r => (r.1.fts.length, r.1.areas.length)) = some (1, 16) ∧
    ((detect 10 FeatureSetImpl.fresh 1 400 400 [⟨50, 50, 1, 0, 1, []⟩] 100).bind
        (fun r => detect 10 r.1 1 400 400 [⟨50, 50, 1, 0, 1, []⟩] 100)).map
        (fun r => (r.1.fts.length, r.1.areas.length)) = some (2, 32) := by
  constructor <;> decide!

/-- C4, at a concrete input: two points with single-precision coordinates whose
distance is below 10 (the square of the distance is below 100).  The products and
the sum of `dist2d` round to exactly 100, the root of which is 10 in single and in
double precision, so the test `dist2d < 10` fails: the deduplication pass keeps
both points, and `detect` emits both. -/
theorem dedup_keeps_close_points :
    to_float (15204355 / 524288) = 15204355 / 524288 ∧
    to_float (49887 / 2048) = 49887 / 2048 ∧
    dist2d_sq ⟨20, 20, 1, 0, 9, []⟩ ⟨15204355 / 524288, 49887 / 2048, 1, 0, 8, []⟩ < 10 * 10 ∧
    dist2d ⟨20, 20, 1, 0, 9, []⟩ ⟨15204355 / 524288, 49887 / 2048, 1, 0, 8, []⟩ = 10 ∧
    sqrt_to_format 53 (-1074) 100 = 10 ∧
    dedup 10 (std_sort [⟨20, 20, 1, 0, 9, []⟩,
        ⟨15204355 / 524288, 49887 / 2048, 1, 0, 8, []⟩]) =
      some [⟨20, 20, 1, 0, 9, []⟩, ⟨15204355 / 524288, 49887 / 2048, 1, 0, 8, []⟩] ∧
    (detect 10 FeatureSetImpl.fresh 1 400 400 [⟨20, 20, 1, 0, 9, []⟩,
        ⟨15204355 / 524288, 49887 / 2048, 1, 0, 8, []⟩] 100).map
      (fun r => r.1.fts.map fun f => (f.x, f.y)) =
        some [(20, 20), (15204355 / 524288, 49887 / 2048)] := by
  refine ⟨?_, ?_, ?_, ?_, ?_, ?_, ?_⟩ <;> decide!

/-- C4 (amended): for a cell that enters the deduplication pass with at least two
points, the pass (sort, swap-remove loops, `resize(last+1)` ) returns, and for any
two entries at distinct positions of the list it leaves the distance that `dist2d`
computes in single precision is at least `FEATURE_MIN_DISTANCE` ; for a threshold
that is not negative, the square of the threshold exceeds the exact square of their
distance by the factor `1 + 2 ^ (-21)` and the term `2 ^ (-147)` at most. -/
theorem dedup_min_distance (min_distance : ℚ) (surfs : List Ipoint)
    (h : 2 ≤ surfs.length) :
    ∃ r, dedup min_distance (std_sort surfs) = some r ∧
      ∀ (i j : ℕ) (a b : Ipoint), i ≠ j → r[i]? = some a → r[j]? = some b →
        min_distance ≤ dist2d a b ∧
        (0 ≤ min_distance →
          min_distance * min_distance ≤ (1 + 1 / 2 ^ 21) * dist2d_sq a b + 1 / 2 ^ 147) := by
  obtain ⟨r, hr, _, _, _, r4, _⟩ :=
    dedup_spec min_distance (std_sort surfs) (by rw [length_std_sort]; omega)
  refine ⟨r, hr, ?_⟩
  intro i j a b hij ha hb
  have hfar : min_distance ≤ dist2d a b := by
    rcases Nat.lt_or_gt_of_ne hij with h1 | h1
    · exact (dist2d_far_iff a b min_distance).1 (r4 i j a b h1 ha hb)
    · rw [dist2d_comm]
      exact (dist2d_far_iff b a min_distance).1 (r4 j i b a h1 hb ha)
  exact ⟨hfar, fun hd => dist2d_exact_bound a b min_distance hd hfar⟩

/-- C4 (amended), witness: a cell of three points, two of them 2 px apart. -/
theorem dedup_min_distance_witness :
    2 ≤ ([⟨20, 20, 1, 0, 9, []⟩, ⟨22, 20, 1, 0, 8, []⟩, ⟨40, 20, 1, 0, 7, []⟩] :
      List Ipoint).length ∧
    ∃ r, dedup 10 (std_sort [⟨20, 20, 1, 0, 9, []⟩, ⟨22, 20, 1, 0, 8, []⟩,
        ⟨40, 20, 1, 0, 7, []⟩]) = some r ∧
      ∀ (i j : ℕ) (a b : Ipoint), i ≠ j → r[i]? = some a → r[j]? = some b →
        (10 : ℚ) ≤ dist2d a b ∧
        ((0 : ℚ) ≤ 10 →
          (10 : ℚ) * 10 ≤ (1 + 1 / 2 ^ 21) * dist2d_sq a b + 1 / 2 ^ 147) :=
  ⟨by decide, dedup_min_distance 10 _ (by decide)⟩

/-- C5: a call of `detect` whose emission loop runs (one-channel image, non-empty
detector output), or that starts from a store without cells, returns with the
feature sequence equal to the round-robin sequence of the cells it leaves: the
layers `k = 0, 1, 2, ...` in increasing order, layer `k` holding the `k`-th point of
each cell with more than `k` points, in the order of the cells.  Every layer below
the largest cell size is non-empty and the layer at that index is empty; the loop
is left after exactly one pass over the cells per non-empty layer plus the first
pass that emits nothing. -/
theorem detect_round_robin (d : ℚ) (s : FeatureSetImpl) (channels : ℕ) (cols rows : ℤ)
    (ipts : List Ipoint) (max_features : ℕ)
    (h : (channels = 1 ∧ ipts ≠ []) ∨ s.areas = []) :
    ∃ r, detect d s channels cols rows ipts max_features = some r ∧
      r.1.fts = round_robin r.1.areas ∧
      (∀ k, k < max_len r.1.areas → layer r.1.areas k ≠ []) ∧
      layer r.1.areas (max_len r.1.areas) = [] ∧
      (r.1.areas ≠ [] → ∀ fuel, emit_loop r.1.areas fuel ⟨0, 0, 0, []⟩ =
        if (max_len r.1.areas + 1) * r.1.areas.length ≤ fuel then some r.1.fts else none) := by
  by_cases hrun0 : channels = 1 ∧ ipts ≠ []
  · obtain ⟨hc, hi⟩ := hrun0
    subst hc
    obtain ⟨areas1, _, _, hne, hrun⟩ := detect_run d s cols rows ipts max_features hi
    refine ⟨_, hrun, rfl, fun k hk => layer_ne_nil hk, ?_, ?_⟩
    · exact layer_nil_of_le fun a ha => le_max_len ha
    · intro _ fuel
      exact emit_loop_run areas1 hne fuel
  · have hs : s.areas = [] := by
      rcases h with h | h
      · exact absurd h hrun0
      · exact h
    have hres : ∃ e, detect d s channels cols rows ipts max_features = some (clear s, e) := by
      by_cases hc : channels = 1
      · subst hc
        have hi : ipts = [] := by
          by_contra hi
          exact hrun0 ⟨rfl, hi⟩
        subst hi
        exact ⟨none, detect_no_points d s cols rows max_features⟩
      · exact ⟨_, detect_bad_channels d s channels cols rows ipts max_features hc⟩
    obtain ⟨e, he⟩ := hres
    have ha : (clear s, e).1.areas = [] := hs
    have hfts : (clear s, e).1.fts = [] := rfl
    refine ⟨_, he, ?_, ?_, ?_, ?_⟩
    · rw [hfts, ha]; rfl
    · intro k hk
      rw [ha] at hk
      exact absurd hk (Nat.not_lt_zero k)
    · rw [ha]; rfl
    · intro hne
      exact absurd ha hne

/-- C5, witness: a fresh store and one detected point. -/
theorem detect_round_robin_witness :
    (((1 : ℕ) = 1 ∧ ([⟨50, 50, 1, 0, 1, []⟩] : List Ipoint) ≠ []) ∨
      FeatureSetImpl.fresh.areas = []) ∧
    ∃ r, detect 10 FeatureSetImpl.fresh 1 400 400 [⟨50, 50, 1, 0, 1, []⟩] 100 = some r ∧
      r.1.fts = round_robin r.1.areas ∧
      (∀ k, k < max_len r.1.areas → layer r.1.areas k ≠ []) ∧
      layer r.1.areas (max_len r.1.areas) = [] ∧
      (r.1.areas ≠ [] → ∀ fuel, emit_loop r.1.areas fuel ⟨0, 0, 0, []⟩ =
        if (max_len r.1.areas + 1) * r.1.areas.length ≤ fuel then some r.1.fts else none) :=
  ⟨Or.inl ⟨rfl, by decide⟩,
    detect_round_robin 10 FeatureSetImpl.fresh 1 400 400 _ 100 (Or.inl ⟨rfl, by decide⟩)⟩

/-- C6, at a concrete input: one cell of a 400x400 image receives five points of
strengths 9, 8, 7, 6, 5, the second 2 px from the first, and `max_features = 32`
gives the quota 3.  The deduplication leaves the strengths 9, 5, 7, 6 in this
order, the truncation keeps 9, 5, 7 and the features emitted are those of the
points of strength 9, 5 and 7 (x = 20, 80, 40): the survivor of strength 6 is
dropped although it is stronger than the kept one of strength 5. -/
theorem truncation_drops_stronger_point :
    (dedup 10 (std_sort [⟨20, 20, 1, 0, 9, []⟩, ⟨22, 20, 1, 0, 8, []⟩, ⟨40, 20, 1, 0, 7, []⟩,
        ⟨60, 20, 1, 0, 6, []⟩, ⟨80, 20, 1, 0, 5, []⟩])).map (fun r => r.map fun p => p.hess) =
      some [9, 5, 7, 6] ∧
    (process_area 10 3 ⟨⟨0, 0, 100, 100⟩, [⟨20, 20, 1, 0, 9, []⟩, ⟨22, 20, 1, 0, 8, []⟩,
        ⟨40, 20, 1, 0, 7, []⟩, ⟨60, 20, 1, 0, 6, []⟩, ⟨80, 20, 1, 0, 5, []⟩]⟩).map
        (fun a => a.surfs.map fun p => p.hess) = some [9, 5, 7] ∧
    (detect 10 FeatureSetImpl.fresh 1 400 400 [⟨20, 20, 1, 0, 9, []⟩, ⟨22, 20, 1, 0, 8, []⟩,
        ⟨40, 20, 1, 0, 7, []⟩, ⟨60, 20, 1, 0, 6, []⟩, ⟨80, 20, 1, 0, 5, []⟩] 32).map
        (fun r => r.1.fts.map fun f => f.x) = some [20, 80, 40] := by
  refine ⟨?_, ?_, ?_⟩ <;> decide!

/-- C7, at a concrete input: a 400x400 image, `max_features = 64` and one detected
point in each of the 16 cells.  The feature at position 1 = 4*0 + 1 is the point
(50, 150); it does not lie in the cell of grid row 0 (y index) and grid column 1
(x index), whose interior is 100 < x < 200, 0 < y < 100. -/
theorem first_layer_not_row_major :
    (detect 10 FeatureSetImpl.fresh 1 400 400 sample_points 64).map
      (fun r => (r.1.areas.map fun a => a.surfs.length,
        (r.1.fts[1]?).map fun f => (f.x, f.y, in_grid_cell 400 400 1 0 f.x f.y))) =
      some ([1, 1, 1, 1, 1, 1, 1, 1, 1, 1, 1, 1, 1, 1, 1, 1], some (50, 150, false)) := by
  decide!

/-- C7 (amended): when `detect` on a fresh store leaves 16 cells that all keep at
least one point, the first 16 features are one point per cell in column-major order
of the grid: the feature at position `4*i + j` lies strictly inside the cell with
x index `i` (grid column) and y index `j` (grid row). -/
theorem first_layer_column_major (d : ℚ) (cols rows : ℤ) (ipts : List Ipoint)
    (max_features : ℕ) (r : FeatureSetImpl × Option FeatureExtractorException)
    (hrun : detect d FeatureSetImpl.fresh 1 cols rows ipts max_features = some r)
    (h16 : r.1.areas.length = 16) (hall : ∀ a ∈ r.1.areas, a.surfs ≠ []) :
    ∀ i j, i < 4 → j < 4 →
      ∃ f, r.1.fts[4 * i + j]? = some f ∧ in_grid_cell cols rows i j f.x f.y = true := by
  by_cases hi : ipts = []
  · subst hi
    rw [detect_no_points] at hrun
    cases hrun
    simp [clear_kdtree, clear, FeatureSetImpl.fresh] at h16
  · obtain ⟨areas1, _, hf, _, hrun1⟩ :=
      detect_run d FeatureSetImpl.fresh cols rows ipts max_features hi
    rw [hrun1] at hrun
    cases hrun
    have h16a : areas1.length = 16 := h16
    have halla : ∀ a ∈ areas1, a.surfs ≠ [] := hall
    intro i j hi4 hj4
    have hn : 4 * i + j < areas1.length := by omega
    have ha1 : areas1[4 * i + j]? = some areas1[4 * i + j] := List.getElem?_eq_getElem hn
    have hmem1 : areas1[4 * i + j] ∈ areas1 := List.getElem_mem hn
    generalize areas1[4 * i + j] = a1 at ha1 hmem1
    obtain ⟨a0, ha0, hproc⟩ := forall₂_getElem? hf (4 * i + j) a1 ha1
    obtain ⟨p, hp⟩ : ∃ p, a1.surfs[0]? = some p := by
      have := halla a1 hmem1
      cases hb : a1.surfs with
      | nil => exact absurd hb this
      | cons q _ => exact ⟨q, List.getElem?_cons_zero⟩
    refine ⟨to_feature p, round_robin_getElem? halla (4 * i + j) a1 p ha1 hp, ?_⟩
    have hp0 : p ∈ a0.surfs := hproc.2.2.2.2.2.1 p (List.getElem?_mem hp)
    rw [create_areas, bin_points_eq, List.getElem?_map] at ha0
    have hnew : (FeatureSetImpl.fresh.areas ++ new_areas cols rows 4)[4 * i + j]? =
        some ⟨grid_rect cols rows 4 i j, []⟩ := new_areas_getElem? cols rows i j hi4 hj4
    rw [hnew] at ha0
    simp only [Option.map_some', Option.some.injEq] at ha0
    subst ha0
    simp only [List.nil_append, List.mem_filter] at hp0
    have hin := hp0.2
    simp only [in_area, Bool.and_eq_true, decide_eq_true_eq] at hin
    obtain ⟨⟨⟨⟨_, h5⟩, h6⟩, h7⟩, h8⟩ := hin
    simp only [in_grid_cell, Bool.and_eq_true, decide_eq_true_eq]
    exact ⟨⟨⟨h5, h6⟩, h7⟩, h8⟩

/-- C7 (amended), witness: the sample input with one point per cell. -/
theorem first_layer_column_major_witness :
    ∃ r, detect 10 FeatureSetImpl.fresh 1 400 400 sample_points 64 = some r ∧
      r.1.areas.length = 16 ∧ (∀ a ∈ r.1.areas, a.surfs ≠ []) ∧
      ∀ i j, i < 4 → j < 4 →
        ∃ f, r.1.fts[4 * i + j]? = some f ∧ in_grid_cell 400 400 i j f.x f.y = true := by
  obtain ⟨r, hr⟩ := Option.isSome_iff_exists.1
    (by decide! : (detect 10 FeatureSetImpl.fresh 1 400 400 sample_points 64).isSome = true)
  have e : (detect 10 FeatureSetImpl.fresh 1 400 400 sample_points 64).map
      (fun r => (r.1.areas.length, r.1.areas.all fun a => !a.surfs.isEmpty)) =
      some (16, true) := by decide!
  rw [hr] at e
  simp only [Option.map_some', Option.some.injEq, Prod.mk.injEq, List.all_eq_true,
    Bool.not_eq_true', List.isEmpty_eq_false] at e
  have h16 : r.1.areas.length = 16 := e.1
  have hall : ∀ a ∈ r.1.areas, a.surfs ≠ [] := e.2
  exact ⟨r, hr, h16, hall, first_layer_column_major 10 400 400 sample_points 64 r hr h16 hall⟩

/-- C8: `nearest` returns either -1 or the index of a stored feature that is not
field-wise equal to the query. -/
theorem nearest_self_exclusion (s : FeatureSetImpl) (f : Feature) :
    nearest s f = -1 ∨
      ∃ (i : ℕ) (g : Feature), nearest s f = (i : ℤ) ∧ s.fts[i]? = some g ∧ g ≠ f := by
  obtain ⟨_, _, hC⟩ := nearest_loop_spec f s.fts 0 (-1) CURR_MIN_INIT_SQ
  rcases hC with hC | ⟨k, g, h1, h2, h3, _, _, _⟩
  · left
    rw [nearest, hC]
  · right
    refine ⟨k, g, ?_, h2, h3⟩
    rw [nearest, h1]
    congr 1
    omega

/-- C9, at a concrete input: the store holds the single feature at (10^20, 0) and
the query is the feature at (0, 0).  The stored feature differs from the query, yet
`nearest` returns -1. -/
theorem nearest_misses_far_feature :
    nearest { FeatureSetImpl.fresh with fts := [⟨100000000000000000000, 0, 1, 0, []⟩] }
        ⟨0, 0, 1, 0, []⟩ = -1 ∧
    (⟨100000000000000000000, 0, 1, 0, []⟩ : Feature) ≠ ⟨0, 0, 1, 0, []⟩ := by
  constructor <;> decide!

/-- C9 (amended): `nearest` returns -1 if and only if no stored feature that
differs from the query lies at 2D Euclidean distance below `1E20` from it.
Otherwise it returns the index of a stored feature that differs from the query,
lies at distance below `1E20` , whose distance to the query is minimal among the
stored features that differ from the query, and that is the lowest such index. -/
theorem nearest_arg_min (s : FeatureSetImpl) (f : Feature) :
    (nearest s f = -1 ↔
      ∀ g ∈ s.fts, g ≠ f →
        (10 : ℝ) ^ 20 ≤ Real.sqrt ((f.spatial_distance_sq g : ℚ) : ℝ)) ∧
    (nearest s f ≠ -1 →
      ∃ (k : ℕ) (g : Feature), nearest s f = (k : ℤ) ∧ s.fts[k]? = some g ∧ g ≠ f ∧
        Real.sqrt ((f.spatial_distance_sq g : ℚ) : ℝ) < (10 : ℝ) ^ 20 ∧
        (∀ g1 ∈ s.fts, g1 ≠ f →
          Real.sqrt ((f.spatial_distance_sq g : ℚ) : ℝ) ≤
            Real.sqrt ((f.spatial_distance_sq g1 : ℚ) : ℝ)) ∧
        (∀ (k1 : ℕ) (g1 : Feature), k1 < k → s.fts[k1]? = some g1 → g1 ≠ f →
          Real.sqrt ((f.spatial_distance_sq g : ℚ) : ℝ) <
            Real.sqrt ((f.spatial_distance_sq g1 : ℚ) : ℝ))) := by
  obtain ⟨hA, hB, hC⟩ := nearest_loop_spec f s.fts 0 (-1) CURR_MIN_INIT_SQ
  have key : nearest_loop f s.fts 0 (-1, CURR_MIN_INIT_SQ) = (-1, CURR_MIN_INIT_SQ) ∨
      ∃ (k : ℕ) (g : Feature), nearest s f = (k : ℤ) ∧ s.fts[k]? = some g ∧ g ≠ f ∧
        f.spatial_distance_sq g < CURR_MIN_INIT_SQ ∧
        (∀ g1 ∈ s.fts, g1 ≠ f → f.spatial_distance_sq g ≤ f.spatial_distance_sq g1) ∧
        (∀ (k1 : ℕ) (g1 : Feature), k1 < k → s.fts[k1]? = some g1 → g1 ≠ f →
          f.spatial_distance_sq g < f.spatial_distance_sq g1) := by
    rcases hC with hC | ⟨k, g, h1, h2, h3, h4, h5, h6⟩
    · exact Or.inl hC
    · refine Or.inr ⟨k, g, ?_, h2, h3, by rw [h4]; exact h5, ?_, ?_⟩
      · rw [nearest, h1]; congr 1; omega
      · intro g1 hg1 hne1
        obtain ⟨k1, hk1⟩ := List.getElem?_of_mem hg1
        rw [h4]
        exact hB k1 g1 hk1 hne1
      · intro k1 g1 hk1 hg1 hne1
        rw [h4]
        exact h6 k1 g1 hk1 hg1 hne1
  have hcast : ∀ a b : ℚ, 0 ≤ a → (a < b ↔ Real.sqrt (a : ℝ) < Real.sqrt (b : ℝ)) := by
    intro a b ha
    have ha1 : (0 : ℝ) ≤ (a : ℝ) := by exact_mod_cast ha
    rw [Real.sqrt_lt_sqrt_iff ha1]
    exact_mod_cast Iff.rfl
  have hcast_le : ∀ a b : ℚ, a ≤ b → Real.sqrt (a : ℝ) ≤ Real.sqrt (b : ℝ) := by
    intro a b hab
    exact Real.sqrt_le_sqrt (by exact_mod_cast hab)
  have hfar : ∀ g : Feature, f.spatial_distance_sq g < CURR_MIN_INIT_SQ ↔
      Real.sqrt ((f.spatial_distance_sq g : ℚ) : ℝ) < (10 : ℝ) ^ 20 := by
    intro g
    rw [← not_le, ← not_le, sqrt_sq_le_iff _]
  constructor
  · constructor
    · intro hm1 g hg hne
      rw [sqrt_sq_le_iff _]
      rcases key with hk | ⟨k, g0, h1, _, _, _, _, _⟩
      · obtain ⟨k1, hk1⟩ := List.getElem?_of_mem hg
        have := hB k1 g hk1 hne
        rw [hk] at this
        exact this
      · rw [hm1] at h1
        omega
    · intro hall
      rcases key with hk | ⟨k, g0, _, h2, h3, h4, _, _⟩
      · rw [nearest, hk]
      · have := hall g0 (List.getElem?_mem h2) h3
        rw [sqrt_sq_le_iff _] at this
        exact absurd h4 (not_lt.2 this)
  · intro hne
    rcases key with hk | ⟨k, g0, h1, h2, h3, h4, h5, h6⟩
    · exact absurd (by rw [nearest, hk]) hne
    · refine ⟨k, g0, h1, h2, h3, (hfar g0).1 h4, ?_, ?_⟩
      · intro g1 hg1 hne1
        exact hcast_le _ _ (h5 g1 hg1 hne1)
      · intro k1 g1 hk1 hg1 hne1
        exact (hcast _ _ (spatial_distance_sq_nonneg f g0)).1 (h6 k1 g1 hk1 hg1 hne1)

/-- C10, at a concrete input: the detector returns one point of orientation 7.
The feature `detect` emits has the orientation 13176795 / 2097152, the `float`
nearest to the `double` value `2.0f * M_PI` , and this value exceeds 2 pi. -/
theorem orientation_exceeds_two_pi :
    (detect 10 FeatureSetImpl.fresh 1 400 400 [⟨50, 50, 1, 7, 1, []⟩] 100).map
      (fun r => r.1.fts.map fun f => f.angle) = some [13176795 / 2097152] ∧
    2 * Real.pi < ((13176795 / 2097152 : ℚ) : ℝ) :=
  ⟨by decide!, two_pi_lt_float⟩

/-- C10 (amended): `detect` returns, and every feature it leaves is built from a
point `p` of the detector output (or, on a store that already held cells, from a
point of those cells) with its orientation between 0 and 13176795 / 2097152, the
value of `2.0f * M_PI` rounded to `float` : it is 0 when the orientation of `p` is
negative, that bound when the orientation of `p` exceeds the `double` value
`2.0f * M_PI` , and the orientation of `p` unchanged otherwise; for a
single-precision orientation of `p` this is the orientation of `p` clamped to the
range from 0 to 13176795 / 2097152. -/
theorem detect_orientation_bound (d : ℚ) (s : FeatureSetImpl) (channels : ℕ)
    (cols rows : ℤ) (ipts : List Ipoint) (max_features : ℕ) :
    to_float (2 * M_PI) = 13176795 / 2097152 ∧
    ∃ r, detect d s channels cols rows ipts max_features = some r ∧
      ∀ f ∈ r.1.fts, 0 ≤ f.angle ∧ f.angle ≤ 13176795 / 2097152 ∧
        ∃ p, (p ∈ ipts ∨ ∃ a ∈ s.areas, p ∈ a.surfs) ∧ f = to_feature p ∧
          (p.orientation < 0 → f.angle = 0) ∧
          (0 ≤ p.orientation → p.orientation ≤ 2 * M_PI → f.angle = p.orientation) ∧
          (2 * M_PI < p.orientation → f.angle = 13176795 / 2097152) ∧
          (to_float p.orientation = p.orientation → 0 ≤ p.orientation →
            p.orientation ≤ 13176795 / 2097152 → f.angle = p.orientation) := by
  refine ⟨to_float_two_pi, ?_⟩
  by_cases hc : channels = 1
  · subst hc
    by_cases hi : ipts = []
    · subst hi
      refine ⟨_, detect_no_points d s cols rows max_features, ?_⟩
      intro f hf
      simp [clear_kdtree, clear] at hf
    · obtain ⟨areas1, _, hf2, _, hrun⟩ := detect_run d s cols rows ipts max_features hi
      refine ⟨_, hrun, ?_⟩
      intro f hf
      obtain ⟨a1, ha1, p, hp, rfl⟩ := mem_round_robin (show f ∈ round_robin areas1 from hf)
      obtain ⟨a0, ha0, hproc⟩ := forall₂_mem hf2 a1 ha1
      have hp0 := mem_create_areas _ _ _ _ _ a0 ha0 p (hproc.2.2.2.2.2.1 p hp)
      obtain ⟨b1, b2, b3, b4, b5, b6⟩ := to_feature_angle p
      exact ⟨b1, b2, p, hp0, rfl, b3, b4, b5, b6⟩
  · refine ⟨_, detect_bad_channels d s channels cols rows ipts max_features hc, ?_⟩
    intro f hf
    simp [clear, clear_kdtree] at hf

/-- C11: every call of `detect` , `clear` or `load` , whether it returns normally or
raises, leaves the store without index and with the empty matrix; and in every
store reachable from a fresh one by calls of `detect` , `clear` , `load` and `knn` ,
a present index is built over the matrix whose rows are the descriptors of the
current features, in the order of the features. -/
theorem index_cache_invalidation (knnSearch : List (List ℚ) → List ℚ → ℕ → List ℤ) :
    (∀ (d : ℚ) (s : FeatureSetImpl) (channels : ℕ) (cols rows : ℤ) (ipts : List Ipoint)
      (max_features : ℕ) (r : FeatureSetImpl × Option FeatureExtractorException),
      detect d s channels cols rows ipts max_features = some r →
        r.1.kdtree = none ∧ r.1.kdt_features = []) ∧
    (∀ s : FeatureSetImpl, (clear s).kdtree = none ∧ (clear s).kdt_features = []) ∧
    (∀ (s : FeatureSetImpl) (file : Option (List Word))
      (r : FeatureSetImpl × Option FeatureExtractorException),
      load s file = some r → r.1.kdtree = none ∧ r.1.kdt_features = []) ∧
    (∀ s : FeatureSetImpl, Reachable knnSearch s → ∀ m, s.kdtree = some m →
      m = (s.fts.map fun f => f.descriptor) ∧ s.kdt_features = m) := by
  refine ⟨?_, fun s => ⟨rfl, rfl⟩, ?_, fun s hs => (reachable_invariant knnSearch s hs).2⟩
  · intro d s channels cols rows ipts max_features r h
    obtain ⟨h1, h2, _⟩ := detect_index_absent d s channels cols rows ipts max_features r h
    exact ⟨h1, h2⟩
  · intro s file r h
    obtain ⟨h1, h2, _⟩ := load_index_absent s file r h
    exact ⟨h1, h2⟩

/-- C11, witness: the store reached by loading a file with one feature and calling
`knn` holds an index built over the descriptor of that feature. -/
theorem index_cache_invalidation_witness :
    ∃ s m, Reachable (fun _ _ _ => []) s ∧ s.kdtree = some m ∧
      m = (s.fts.map fun f => f.descriptor) ∧ s.kdt_features = m := by
  have h1 : load FeatureSetImpl.fresh (some [Word.u32 1, Word.u32 1, Word.f32 1, Word.f32 2,
      Word.f32 3, Word.f32 4, Word.f32 5]) =
      some (⟨[⟨1, 2, 3, 4, [5]⟩], [], [], -1, none⟩, none) := by decide!
  have h2 : knn (fun _ _ _ => []) ⟨[⟨1, 2, 3, 4, [5]⟩], [], [], -1, none⟩ ⟨0, 0, 0, 0, [1]⟩ 1 =
      some (⟨[⟨1, 2, 3, 4, [5]⟩], [], [[5]], 1, some [[5]]⟩, []) := by decide!
  have hr : Reachable (fun _ _ _ => []) ⟨[⟨1, 2, 3, 4, [5]⟩], [], [[5]], 1, some [[5]]⟩ :=
    Reachable.by_knn _ _ _ _ (Reachable.by_load _ _ _ Reachable.init h1) h2
  exact ⟨_, [[5]], hr, rfl,
    (index_cache_invalidation (fun _ _ _ => [])).2.2.2 _ hr [[5]] rfl⟩

/-- C13, at a concrete input: a 400x400 image, `max_features = 272` (so `q = 17` )
and 17 detected points in the first cell, all within the minimum distance 10 of
each other.  The cell holds 17 points after binning and 1 after deduplication.
The quota `detect` computes is 32 = 17 + floor(15 * 17 / 16), the first cell
counting as not deficient; the formula over the surviving-point counts gives
33 = 17 + floor((15 * 17 + 16) / 16). -/
theorem quota_ignores_deduplication :
    ((create_areas 400 400 4 13 cluster_points [])[0]?).map
        (fun a => (a.surfs.length, surviving_count 10 a)) = some (17, 1) ∧
    final_quota 272 (create_areas 400 400 4 13 cluster_points []) = 32 ∧
    quota_from_survivors 10 272 (create_areas 400 400 4 13 cluster_points []) = 33 := by
  refine ⟨?_, ?_, ?_⟩ <;> decide!

/-- C13 (amended): for `max_features` up to `2 ^ 20` the quota that lines 212-219
compute with the integer widths and the single precision of the source, and that
`detect` applies to the cells, is `q + floor(extra / C)` where `C` is the number of
cells, `q = floor(max_features / C)` and `extra` is the sum of `q - count` over the
cells whose point count after binning, before the deduplication, is below `q` . -/
theorem detect_quota_formula (d : ℚ) (s : FeatureSetImpl) (cols rows : ℤ)
    (ipts : List Ipoint) (max_features : ℕ) (hi : ipts ≠ [])
    (hmax : max_features ≤ 1048576) :
    points_per_area_machine max_features
        (create_areas cols rows 4 (max (truncInt ((cols : ℚ) / 30)) 2) ipts s.areas) =
      some (final_quota max_features
        (create_areas cols rows 4 (max (truncInt ((cols : ℚ) / 30)) 2) ipts s.areas)) ∧
    final_quota max_features
        (create_areas cols rows 4 (max (truncInt ((cols : ℚ) / 30)) 2) ipts s.areas) =
      ((max_features /
          (create_areas cols rows 4 (max (truncInt ((cols : ℚ) / 30)) 2) ipts s.areas).length :
            ℕ) : ℤ) +
        ((create_areas cols rows 4 (max (truncInt ((cols : ℚ) / 30)) 2) ipts s.areas).map
          fun a =>
            if (a.surfs.length : ℤ) < ((max_features /
                (create_areas cols rows 4 (max (truncInt ((cols : ℚ) / 30)) 2) ipts
                  s.areas).length : ℕ) : ℤ) then
              ((max_features /
                (create_areas cols rows 4 (max (truncInt ((cols : ℚ) / 30)) 2) ipts
                  s.areas).length : ℕ) : ℤ) - (a.surfs.length : ℤ)
            else 0).sum /
          ((create_areas cols rows 4 (max (truncInt ((cols : ℚ) / 30)) 2) ipts
            s.areas).length : ℤ) ∧
    ∃ areas1,
      process_areas d
        (final_quota max_features
          (create_areas cols rows 4 (max (truncInt ((cols : ℚ) / 30)) 2) ipts s.areas))
        (create_areas cols rows 4 (max (truncInt ((cols : ℚ) / 30)) 2) ipts s.areas) =
          some areas1 ∧
      detect d s 1 cols rows ipts max_features =
        some (clear_kdtree { clear s with areas := areas1, fts := round_robin areas1 }, none) := by
  have hlen := length_create_areas cols rows (max (truncInt ((cols : ℚ) / 30)) 2) ipts s.areas
  have hne : create_areas cols rows 4 (max (truncInt ((cols : ℚ) / 30)) 2) ipts s.areas ≠
      [] := by
    intro h0
    rw [h0] at hlen
    simp at hlen
  refine ⟨points_per_area_machine_eq max_features _ hne hmax, ?_, ?_⟩
  · rw [final_quota_eq, num_extra_eq]
    rfl
  · obtain ⟨areas1, h1, _, _, h2⟩ := detect_run d s cols rows ipts max_features hi
    exact ⟨areas1, h1, h2⟩

/-- C13 (amended), witness: the sample input of 17 clustered points. -/
theorem detect_quota_formula_witness :
    cluster_points ≠ [] ∧ (272 : ℕ) ≤ 1048576 ∧
    points_per_area_machine 272
        (create_areas 400 400 4 (max (truncInt ((400 : ℚ) / 30)) 2) cluster_points
          FeatureSetImpl.fresh.areas) =
      some (final_quota 272
        (create_areas 400 400 4 (max (truncInt ((400 : ℚ) / 30)) 2) cluster_points
          FeatureSetImpl.fresh.areas)) :=
  ⟨by decide, by decide, (detect_quota_formula 10 FeatureSetImpl.fresh 400 400 cluster_points 272
    (by decide) (by decide)).1⟩

/-- C14: `save` raises the empty-store exception exactly on a store without
features, whether or not the file could be opened, so before the file is opened or
written ( `save` is a `const` method: the store is not part of its result). -/
theorem save_empty_store_guard (s : FeatureSetImpl) (writable : Bool) :
    (s.fts = [] →
      save s writable = some (Except.error FeatureExtractorException.noFeatureToSave)) ∧
    (s.fts ≠ [] →
      save s writable ≠ some (Except.error FeatureExtractorException.noFeatureToSave)) := by
  constructor
  · intro h
    simp [save, h]
  · intro h hsave
    have hlen : ¬ s.fts.length < 1 := by
      cases hf : s.fts with
      | nil => exact absurd hf h
      | cons f rest => simp
    simp only [save, hlen, if_false] at hsave
    split at hsave
    · cases hsave
    · split at hsave
      · cases hsave
      · split at hsave
        · cases hsave
        · split at hsave
          · cases hsave
          · cases hsave

/-- C15, at a concrete input: a cell of four points of strengths 9, 8, 7, 6 at
x = 20, 22, 40, 45 (same y) and minimum distance 10.  The swap-remove pass leaves
the points of strength 9 and 6; the greedy first-by-strength filter keeps those of
strength 9 and 7: the point of strength 6, moved forward when the one of strength
8 was removed, removed the stronger point of strength 7. -/
theorem dedup_differs_from_greedy :
    (dedup 10 (std_sort [⟨20, 20, 1, 0, 9, []⟩, ⟨22, 20, 1, 0, 8, []⟩, ⟨40, 20, 1, 0, 7, []⟩,
        ⟨45, 20, 1, 0, 6, []⟩])).map (fun r => r.map fun p => p.hess) = some [9, 6] ∧
    (greedy_filter 10 [⟨20, 20, 1, 0, 9, []⟩, ⟨22, 20, 1, 0, 8, []⟩, ⟨40, 20, 1, 0, 7, []⟩,
        ⟨45, 20, 1, 0, 6, []⟩]).map (fun p => p.hess) = [9, 7] := by
  refine ⟨?_, ?_⟩ <;> decide!

/-- C16: in a call of `detect` that runs the pipeline, a cell that holds fewer
than two points after binning is returned unchanged by the per-cell processing
for every quota, is left unchanged in the store, and each of its points is among
the features emitted. -/
theorem sparse_cell_exempt (d : ℚ) (s : FeatureSetImpl) (cols rows : ℤ)
    (ipts : List Ipoint) (max_features : ℕ) (n : ℕ) (a0 : ImageArea) (hi : ipts ≠ [])
    (h0 : (create_areas cols rows 4 (max (truncInt ((cols : ℚ) / 30)) 2) ipts s.areas)[n]? =
      some a0)
    (hlen : a0.surfs.length < 2) :
    (∀ quota : ℤ, process_area d quota a0 = some a0) ∧
    ∃ r, detect d s 1 cols rows ipts max_features = some (r, none) ∧
      r.areas[n]? = some a0 ∧ ∀ p ∈ a0.surfs, to_feature p ∈ r.fts := by
  constructor
  · intro quota
    simp [process_area, hlen]
  · obtain ⟨areas1, _, hf, _, hrun⟩ := detect_run d s cols rows ipts max_features hi
    obtain ⟨a1, ha1, hproc⟩ := forall₂_getElem?_left hf n a0 h0
    have heq : a1 = a0 := hproc.2.2.1 hlen
    subst heq
    refine ⟨_, hrun, ha1, ?_⟩
    intro p hp
    exact mem_round_robin_of_mem (List.getElem?_mem ha1) hp

/-- C16, witness: the single detected point (50, 50) with `max_features = 0` ,
quota 0; its cell is cell 0. -/
theorem sparse_cell_exempt_witness :
    (∀ quota : ℤ, process_area 10 quota
      ⟨grid_rect 400 400 4 0 0, [⟨50, 50, 1, 0, 1, []⟩]⟩ =
        some ⟨grid_rect 400 400 4 0 0, [⟨50, 50, 1, 0, 1, []⟩]⟩) ∧
    ∃ r, detect 10 FeatureSetImpl.fresh 1 400 400 [⟨50, 50, 1, 0, 1, []⟩] 0 = some (r, none) ∧
      r.areas[0]? = some ⟨grid_rect 400 400 4 0 0, [⟨50, 50, 1, 0, 1, []⟩]⟩ ∧
      ∀ p ∈ (⟨grid_rect 400 400 4 0 0, [⟨50, 50, 1, 0, 1, []⟩]⟩ : ImageArea).surfs,
        to_feature p ∈ r.fts :=
  sparse_cell_exempt 10 FeatureSetImpl.fresh 400 400 [⟨50, 50, 1, 0, 1, []⟩] 0 0
    ⟨grid_rect 400 400 4 0 0, [⟨50, 50, 1, 0, 1, []⟩]⟩ (by decide) (by decide!) (by decide)

/-- C17: for a cell with at least two points, the first entry of the sorted list
is a point of the cell of maximal strength; the deduplication pass returns with
this point still at position 0, and for every quota of at least 1 the processed
cell starts with it, so that the layer-0 feature the emission takes from the cell
is the feature of this point. -/
theorem strongest_point_leads (d : ℚ) (a : ImageArea) (h : 2 ≤ a.surfs.length) :
    ∃ p r, (std_sort a.surfs)[0]? = some p ∧ p ∈ a.surfs ∧
      (∀ q ∈ a.surfs, q.hess ≤ p.hess) ∧
      dedup d (std_sort a.surfs) = some r ∧ r[0]? = some p ∧
      ∀ quota : ℤ, 1 ≤ quota →
        ∃ a1, process_area d quota a = some a1 ∧ a1.surfs[0]? = some p ∧
          layer [a1] 0 = [to_feature p] := by
  have hne : a.surfs ≠ [] := by
    intro h0
    rw [h0] at h
    simp at h
  obtain ⟨p, hp, hmem, hmax⟩ := std_sort_head a.surfs hne
  obtain ⟨r, hr, _, _, r3, _, _⟩ :=
    dedup_spec d (std_sort a.surfs) (by rw [length_std_sort]; omega)
  refine ⟨p, r, hp, hmem, hmax, hr, by rw [r3, hp], ?_⟩
  intro quota hq
  obtain ⟨a1, ha1, hproc⟩ := process_area_spec d quota a
  have h0 := (hproc.2.2.2.2.1 h hq).1
  rw [hp] at h0
  refine ⟨a1, ha1, h0, ?_⟩
  simp [layer, h0]

/-- C17, witness: the cell of four points of the sample of C15. -/
theorem strongest_point_leads_witness :
    2 ≤ (⟨⟨0, 0, 100, 100⟩, [⟨20, 20, 1, 0, 9, []⟩, ⟨22, 20, 1, 0, 8, []⟩,
      ⟨40, 20, 1, 0, 7, []⟩, ⟨45, 20, 1, 0, 6, []⟩]⟩ : ImageArea).surfs.length ∧
    ∃ p r, (std_sort [⟨20, 20, 1, 0, 9, []⟩, ⟨22, 20, 1, 0, 8, []⟩,
        ⟨40, 20, 1, 0, 7, []⟩, ⟨45, 20, 1, 0, 6, []⟩])[0]? = some p ∧
      p ∈ ([⟨20, 20, 1, 0, 9, []⟩, ⟨22, 20, 1, 0, 8, []⟩,
        ⟨40, 20, 1, 0, 7, []⟩, ⟨45, 20, 1, 0, 6, []⟩] : List Ipoint) ∧
      (∀ q ∈ ([⟨20, 20, 1, 0, 9, []⟩, ⟨22, 20, 1, 0, 8, []⟩,
        ⟨40, 20, 1, 0, 7, []⟩, ⟨45, 20, 1, 0, 6, []⟩] : List Ipoint), q.hess ≤ p.hess) ∧
      dedup 10 (std_sort [⟨20, 20, 1, 0, 9, []⟩, ⟨22, 20, 1, 0, 8, []⟩,
        ⟨40, 20, 1, 0, 7, []⟩, ⟨45, 20, 1, 0, 6, []⟩]) = some r ∧ r[0]? = some p ∧
      ∀ quota : ℤ, 1 ≤ quota →
        ∃ a1, process_area 10 quota ⟨⟨0, 0, 100, 100⟩, [⟨20, 20, 1, 0, 9, []⟩,
            ⟨22, 20, 1, 0, 8, []⟩, ⟨40, 20, 1, 0, 7, []⟩, ⟨45, 20, 1, 0, 6, []⟩]⟩ = some a1 ∧
          a1.surfs[0]? = some p ∧ layer [a1] 0 = [to_feature p] :=
  ⟨by decide, strongest_point_leads 10 ⟨⟨0, 0, 100, 100⟩, _⟩ (by decide)⟩

/-- C19: for a cell with at least two points the deduplication pass returns a
non-empty list that is, up to order, a sublist of the points of the cell: each of
its entries is a point of the cell and no point occurs in it more often than in
the cell. -/
theorem dedup_fabricates_nothing (d : ℚ) (surfs : List Ipoint) (h : 2 ≤ surfs.length) :
    ∃ r, dedup d (std_sort surfs) = some r ∧ r.Subperm surfs ∧ (∀ p ∈ r, p ∈ surfs) ∧
      (∀ p, r.count p ≤ surfs.count p) ∧ r ≠ [] := by
  have hlen : 1 ≤ (std_sort surfs).length := by rw [length_std_sort]; omega
  obtain ⟨r, hr, hsub⟩ := dedup_subperm d (std_sort surfs) hlen
  obtain ⟨r0, hr0, hpos, _⟩ := dedup_spec d (std_sort surfs) hlen
  rw [hr] at hr0
  cases hr0
  have hsub1 : r.Subperm surfs :=
    hsub.trans (List.perm_insertionSort _ surfs).subperm
  refine ⟨r, hr, hsub1, fun p hp => hsub1.subset hp, fun p => hsub1.count_le p, ?_⟩
  intro h0
  rw [h0] at hpos
  simp at hpos

/-- C19, witness: the cell of four points of the sample of C15. -/
theorem dedup_fabricates_nothing_witness :
    2 ≤ ([⟨20, 20, 1, 0, 9, []⟩, ⟨22, 20, 1, 0, 8, []⟩, ⟨40, 20, 1, 0, 7, []⟩,
      ⟨45, 20, 1, 0, 6, []⟩] : List Ipoint).length ∧
    ∃ r, dedup 10 (std_sort [⟨20, 20, 1, 0, 9, []⟩, ⟨22, 20, 1, 0, 8, []⟩,
        ⟨40, 20, 1, 0, 7, []⟩, ⟨45, 20, 1, 0, 6, []⟩]) = some r ∧
      r.Subperm [⟨20, 20, 1, 0, 9, []⟩, ⟨22, 20, 1, 0, 8, []⟩, ⟨40, 20, 1, 0, 7, []⟩,
        ⟨45, 20, 1, 0, 6, []⟩] ∧
      (∀ p ∈ r, p ∈ ([⟨20, 20, 1, 0, 9, []⟩, ⟨22, 20, 1, 0, 8, []⟩, ⟨40, 20, 1, 0, 7, []⟩,
        ⟨45, 20, 1, 0, 6, []⟩] : List Ipoint)) ∧
      (∀ p, r.count p ≤ ([⟨20, 20, 1, 0, 9, []⟩, ⟨22, 20, 1, 0, 8, []⟩,
        ⟨40, 20, 1, 0, 7, []⟩, ⟨45, 20, 1, 0, 6, []⟩] : List Ipoint).count p) ∧ r ≠ [] :=
  ⟨by decide, dedup_fabricates_nothing 10 _ (by decide)⟩

/-- C20: for a cell with at least two points the nested loops of the deduplication
return (in the model a run that exhausts its fuel, reads outside the list or
decrements a counter at zero returns nothing), with `last + 1` at most the size of
the list, which the loops never change, so that `resize(last+1)` only cuts.  Every
iteration of the inner loop from a state with `k < k2 <= last < size` leads to a
state with `k < k2 <= last + 1 <= size` , hence `k <= last` , and brings `k2` and
`last` closer; from every such state the inner loop returns with `k <= last` , and
from every state with `k <= last + 1 <= size` the outer loop returns. -/
theorem dedup_loops_safe (d : ℚ) (surfs : List Ipoint) (h : 2 ≤ surfs.length) :
    (∃ last1 surfs1,
      dedup_outer d ((std_sort surfs).length + 1) 0 ((std_sort surfs).length - 1)
        (std_sort surfs) = some (last1, surfs1) ∧
      last1 + 1 ≤ surfs1.length ∧ surfs1.length = surfs.length ∧
      resize surfs1 (last1 + 1) = surfs1.take (last1 + 1) ∧
      (resize surfs1 (last1 + 1)).length ≤ surfs.length ∧
      dedup d (std_sort surfs) = some (resize surfs1 (last1 + 1))) ∧
    (∀ (k fuel k2 last : ℕ) (l : List Ipoint), k < k2 → k2 ≤ last → last < l.length →
      ∃ k3 last1 l1,
        dedup_inner d k (fuel + 1) k2 last l = dedup_inner d k fuel k3 last1 l1 ∧
        k < k3 ∧ k3 ≤ last1 + 1 ∧ last1 < l1.length ∧ k ≤ last1 ∧
        l1.length = l.length ∧ last1 + 1 - k3 < last + 1 - k2) ∧
    (∀ (k k2 last : ℕ) (l : List Ipoint), k < k2 → k2 ≤ last + 1 → last < l.length →
      ∃ last1 l1, dedup_inner d k (l.length + 1) k2 last l = some (last1, l1) ∧
        k ≤ last1 ∧ last1 ≤ last ∧ l1.length = l.length) ∧
    (∀ (k last : ℕ) (l : List Ipoint), k ≤ last + 1 → last < l.length →
      ∃ last1 l1, dedup_outer d (l.length + 1) k last l = some (last1, l1) ∧
        k ≤ last1 + 1 ∧ last1 ≤ last ∧ l1.length = l.length) := by
  refine ⟨?_, ?_, ?_, ?_⟩
  · have hl := length_std_sort surfs
    obtain ⟨last1, surfs1, hrun, _, b1, _, b3⟩ :=
      dedup_outer_subperm d ((std_sort surfs).length + 1) 0 ((std_sort surfs).length - 1)
        (std_sort surfs) (by omega) (by omega) (by omega)
    have hle : last1 + 1 ≤ surfs1.length := by omega
    have h0 : ¬ (std_sort surfs).length = 0 := by omega
    refine ⟨last1, surfs1, hrun, hle, by omega, resize_of_le _ _ hle, ?_, ?_⟩
    · rw [resize_of_le _ _ hle, List.length_take]
      omega
    · simp only [dedup, h0, if_false, hrun]
  · intro k fuel k2 last l hk hk2 hlast
    exact dedup_inner_step d k fuel k2 last l hk hk2 hlast
  · intro k k2 last l hk hk2 hlast
    obtain ⟨last1, l1, hrun, a1, a2, a3, _⟩ :=
      dedup_inner_spec d k (l.length + 1) k2 last l hk hk2 hlast (by omega)
    exact ⟨last1, l1, hrun, by omega, a1, a3⟩
  · intro k last l hk hlast
    obtain ⟨last1, l1, hrun, _, b1, b2, b3⟩ :=
      dedup_outer_subperm d (l.length + 1) k last l hk hlast (by omega)
    exact ⟨last1, l1, hrun, b2, b1, b3⟩

/-- C20, witness: the cell of four points of the sample of C15. -/
theorem dedup_loops_safe_witness :
    2 ≤ ([⟨20, 20, 1, 0, 9, []⟩, ⟨22, 20, 1, 0, 8, []⟩, ⟨40, 20, 1, 0, 7, []⟩,
      ⟨45, 20, 1, 0, 6, []⟩] : List Ipoint).length ∧
    ∃ last1 surfs1,
      dedup_outer 10 ((std_sort [⟨20, 20, 1, 0, 9, []⟩, ⟨22, 20, 1, 0, 8, []⟩,
          ⟨40, 20, 1, 0, 7, []⟩, ⟨45, 20, 1, 0, 6, []⟩]).length + 1) 0
        ((std_sort [⟨20, 20, 1, 0, 9, []⟩, ⟨22, 20, 1, 0, 8, []⟩,
          ⟨40, 20, 1, 0, 7, []⟩, ⟨45, 20, 1, 0, 6, []⟩]).length - 1)
        (std_sort [⟨20, 20, 1, 0, 9, []⟩, ⟨22, 20, 1, 0, 8, []⟩,
          ⟨40, 20, 1, 0, 7, []⟩, ⟨45, 20, 1, 0, 6, []⟩]) = some (last1, surfs1) ∧
      last1 + 1 ≤ surfs1.length ∧
      surfs1.length = ([⟨20, 20, 1, 0, 9, []⟩, ⟨22, 20, 1, 0, 8, []⟩,
        ⟨40, 20, 1, 0, 7, []⟩, ⟨45, 20, 1, 0, 6, []⟩] : List Ipoint).length ∧
      resize surfs1 (last1 + 1) = surfs1.take (last1 + 1) ∧
      (resize surfs1 (last1 + 1)).length ≤ ([⟨20, 20, 1, 0, 9, []⟩, ⟨22, 20, 1, 0, 8, []⟩,
        ⟨40, 20, 1, 0, 7, []⟩, ⟨45, 20, 1, 0, 6, []⟩] : List Ipoint).length ∧
      dedup 10 (std_sort [⟨20, 20, 1, 0, 9, []⟩, ⟨22, 20, 1, 0, 8, []⟩,
        ⟨40, 20, 1, 0, 7, []⟩, ⟨45, 20, 1, 0, 6, []⟩]) = some (resize surfs1 (last1 + 1)) :=
  ⟨by decide, (dedup_loops_safe 10 _ (by decide)).1⟩


end WASS
